import Mathlib

/-!
# Verification of the vAIsualisator action-graph compiler and interpreter

Shallow embedding of the core of the repository: the alias canonicalizer,
the diagnostics validator, the graph orderer (Kahn topological sort), the
IR normalizer, the event interpreter and the prompt orchestrator, translated
from the TypeScript sources:

* `packages/compiler/src/parser/parse-and-validate.ts`
* `packages/compiler/src/ir/normalize.ts`
* `apps/runtime-api/src/application/topological-sort.ts`
* `apps/runtime-api/src/application/execute-event.ts`
* `apps/runtime-api/src/application/shape-to-zod.ts`
* `apps/runtime-api/src/orchestrator/execute-prompt-task.ts`
* `apps/runtime-api/src/orchestrator/interpolate-template.ts`

JavaScript strings are modeled by `String` (lists of characters), JS numbers
appearing in the modeled fragment (temperatures, JSON numbers) by `Rat`,
JS objects / `Map`s by insertion-ordered association lists (`JsMap`), and
JS `undefined` / `null` by explicit `Value` constructors.  The platform
builtin `JSON.parse` is not repository code; executions are parameterized
over it.  Timestamps (`new Date().toISOString()`) are irrelevant to every
modeled behavior and are rendered as `""`.
-/

namespace FB

/-! ## JS string primitives -/

/-- JS whitespace for the purposes of `trim` / `\s` (ASCII fragment used by the repo). -/
def isJsWs (c : Char) : Bool := c = ' ' || c = '\t' || c = '\n' || c = '\r'

/-- `String.prototype.trim` on a character list. -/
def trimChars (l : List Char) : List Char :=
  ((l.dropWhile isJsWs).reverse.dropWhile isJsWs).reverse

/-- `String.prototype.trim`. -/
def jsTrim (s : String) : String := String.mk (trimChars s.data)

/-- lowercase ASCII letter or digit (the `[a-z0-9]` class of `normalizeKey`). -/
def isLowerAlnum (c : Char) : Bool := ('a' ≤ c && c ≤ 'z') || ('0' ≤ c && c ≤ '9')

/-- collapse each run of consecutive spaces to a single space (a space
followed by another space is dropped). -/
def squashSpaces : List Char → List Char
  | [] => []
  | [c] => [c]
  | a :: b :: rest =>
    if a = ' ' && b = ' ' then squashSpaces (b :: rest)
    else a :: squashSpaces (b :: rest)

/--
`normalizeKey` from `parse-and-validate.ts` / `ir/normalize.ts`:
trim, lowercase, replace every run of `[^a-z0-9]` by one space, trim again,
drop remaining whitespace.  (`replace(/[^a-z0-9]+/g, " ")` is rendered as
mapping every character outside the class to `' '` and collapsing space runs,
which is the same function.)
-/
def normalizeKey (s : String) : String :=
  let l1 := trimChars s.data
  let l2 := l1.map Char.toLower
  let l3 := squashSpaces (l2.map (fun c => if isLowerAlnum c then c else ' '))
  let l4 := trimChars l3
  String.mk (l4.filter (fun c => !(isJsWs c)))

/-! ## Insertion-ordered string-keyed maps (JS `Map` / plain-object semantics) -/

/-- lookup of the first (unique, by construction) entry with the given key. -/
def getEntries {α : Type} : List (String × α) → String → Option α
  | [], _ => none
  | (k', v') :: rest, k => if k' = k then some v' else getEntries rest k

/-- JS `Map.set` / object assignment: overwrite in place, else append. -/
def setEntries {α : Type} : List (String × α) → String → α → List (String × α)
  | [], k, v => [(k, v)]
  | (k', v') :: rest, k, v =>
    if k' = k then (k', v) :: rest else (k', v') :: setEntries rest k v

/-- An insertion-ordered map with string keys, the model of JS `Map`s and
plain objects used as dictionaries. -/
structure JsMap (α : Type) where
  entries : List (String × α)

def JsMap.empty {α : Type} : JsMap α := ⟨[]⟩

def JsMap.get {α : Type} (m : JsMap α) (k : String) : Option α :=
  getEntries m.entries k

def JsMap.getD {α : Type} (m : JsMap α) (k : String) (d : α) : α :=
  (m.get k).getD d

def JsMap.set {α : Type} (m : JsMap α) (k : String) (v : α) : JsMap α :=
  ⟨setEntries m.entries k v⟩

def JsMap.has {α : Type} (m : JsMap α) (k : String) : Bool :=
  (m.get k).isSome

def JsMap.keys {α : Type} (m : JsMap α) : List String :=
  m.entries.map (·.1)

/-! ## JSON-ish runtime values

The dynamic values flowing through event execution (`Record<string, unknown>`
state, node outputs, provider JSON).  `vUndef` is JS `undefined`, distinct
from JSON `null`. -/

inductive Value where
  | vStr (s : String)
  | vNum (q : Rat)
  | vBool (b : Bool)
  | vNull
  | vUndef
  | vArr (xs : List Value)
  | vObj (fields : List (String × Value))

/-- JSON string quoting used by `JSON.stringify` (common escapes; exotic
control-character escapes do not occur in the modeled repertoire). -/
def jsonQuote (s : String) : String :=
  "\"" ++ String.mk (s.data.flatMap (fun c =>
    if c = '"' then ['\\', '"']
    else if c = '\\' then ['\\', '\\']
    else if c = '\n' then ['\\', 'n']
    else if c = '\t' then ['\\', 't']
    else if c = '\r' then ['\\', 'r']
    else [c])) ++ "\""

mutual

/-- `JSON.stringify` on a defined value (`undefined` at top level is handled
by the caller, mirroring JS, where `JSON.stringify(undefined)` is not a string). -/
def stringifyValue : Value → String
  | .vStr s => jsonQuote s
  | .vNum q => toString q
  | .vBool b => if b then "true" else "false"
  | .vNull => "null"
  | .vUndef => "null"   -- inside arrays `undefined` serializes as null
  | .vArr xs => "[" ++ stringifyList xs ++ "]"
  | .vObj fs => "\x7b" ++ stringifyFields fs ++ "\x7d"

def stringifyList : List Value → String
  | [] => ""
  | [x] => stringifyValue x
  | x :: rest => stringifyValue x ++ "," ++ stringifyList rest

def stringifyFields : List (String × Value) → String
  | [] => ""
  | (_k, .vUndef) :: rest => stringifyFields rest  -- undefined fields are dropped
  | [(k, v)] => jsonQuote k ++ ":" ++ stringifyValue v
  | (k, v) :: rest => jsonQuote k ++ ":" ++ stringifyValue v ++ "," ++ stringifyFields rest

end

/--
The replacement text for one interpolated template variable
(`interpolate-template.ts`): a string value verbatim, otherwise
`JSON.stringify(value)` — where `JSON.stringify(undefined)` returns
`undefined`, which `String.prototype.replace` coerces to `"undefined"`.
-/
def replacementText : Value → String
  | .vStr s => s
  | .vUndef => "undefined"
  | v => stringifyValue v

/-! ## Schema model (`packages/contracts`)

Typed shapes of an application description, mirroring the zod schemas of
`@form-builder/contracts`.  A Lean value of these types corresponds to a JSON
input already accepted by `AppDefinitionSchema.safeParse`. -/

/-- one field descriptor of a PromptTask output shape (`JsonShape` entries as
read by `shape-to-zod.ts`: `type`, `enum`, `minLength`, `maxLength`). -/
structure ShapeRule where
  type : Option String
  enumVals : Option (List String)
  minLength : Option Nat
  maxLength : Option Nat
deriving DecidableEq

/-- `ModelPolicySchema`; the provider is one of `"openai" | "anthropic" | "mock"`,
modeled as its string. -/
structure ModelPolicy where
  provider : String
  model : String
  temperature : Option Rat
deriving DecidableEq

/-- `PromptOutputSchema`: `{ type: "object", shape }`. -/
structure OutputSchemaDecl where
  shape : List (String × ShapeRule)
deriving DecidableEq

/-- `PromptSpecSchema`. -/
structure PromptSpec where
  template : String
  «variables» : List String
  modelPolicy : ModelPolicy
  outputSchema : OutputSchemaDecl
deriving DecidableEq

/-- `ActionNodeSchema`: discriminated union on `kind`. -/
inductive ActionNode where
  | validate (id : String) (stateKeys : List String)
  | promptTask (id : String) (promptSpec : PromptSpec)
  | transform (id : String) (mapToState : List (String × String))
deriving DecidableEq

def ActionNode.id : ActionNode → String
  | .validate i _ => i
  | .promptTask i _ => i
  | .transform i _ => i

def ActionNode.isPromptTask : ActionNode → Bool
  | .promptTask _ _ => true
  | _ => false

/-- `ActionEdgeSchema`; TS fields `from` / `to` are rendered `src` / `dst`
(`from` is a Lean keyword). -/
structure Edge where
  src : String
  dst : String
deriving DecidableEq

structure ActionGraph where
  nodes : List ActionNode
  edges : List Edge
deriving DecidableEq

/-- `TriggerSchema`; the TS field `event` is rendered `eventName`. -/
structure Trigger where
  componentId : String
  eventName : String
deriving DecidableEq

structure EventDefinition where
  id : String
  trigger : Trigger
  actionGraph : ActionGraph
deriving DecidableEq

/-- `UIComponentSchema`: discriminated union on `type`.  A Button's `events`
record is modeled by its insertion-ordered entry list. -/
inductive UIComponent where
  | textArea (id : String) (label : String) (stateKey : String)
  | button (id : String) (label : String) (events : List (String × String))
  | dataTable (id : String) (label : String) (dataKey : String)
deriving DecidableEq

def UIComponent.id : UIComponent → String
  | .textArea i _ _ => i
  | .button i _ _ => i
  | .dataTable i _ _ => i

/-- `StateFieldSchema` (primitive or array-of-object-shape); the validator
and interpreter only consult the state-model keys, but the field payload is
kept. -/
inductive StateField where
  | prim (type : String) (source : Option String) (enumVals : Option (List String))
      (minLength : Option Nat) (maxLength : Option Nat)
  | arr (source : Option String) (itemShape : List (String × ShapeRule))
deriving DecidableEq

/-- `AppDefinitionSchema`. -/
structure AppDefinition where
  appId : String
  version : String
  components : List UIComponent
  stateModel : List (String × StateField)
  events : List EventDefinition
deriving DecidableEq

/-! ## Alias Canonicalizer

Two textually separate copies exist in the sources: one in
`parse-and-validate.ts` (used by the Diagnostics Validator) and one in
`ir/normalize.ts` (used by the IR Normalizer).  They insert the same four
alias keys per TextArea in different orders; both are embedded. -/

/-- one component's contribution to the alias map in `ir/normalize.ts`:
per TextArea, set `stateKey`, `label`, `normalizeKey(stateKey)`,
`normalizeKey(label)`, each to the component's `stateKey`. -/
def aliasStepIR (aliases : JsMap String) (c : UIComponent) : JsMap String :=
  match c with
  | .textArea _ label stateKey =>
    ((((aliases.set stateKey stateKey).set label stateKey).set
        (normalizeKey stateKey) stateKey).set (normalizeKey label) stateKey)
  | _ => aliases

/-- `buildAliasMap` of `ir/normalize.ts`. -/
def buildAliasMapIR (components : List UIComponent) : JsMap String :=
  components.foldl aliasStepIR JsMap.empty

/-- one component's contribution in `parse-and-validate.ts`: the same four
entries, inserted in the order normalized-label, normalized-stateKey,
label, stateKey. -/
def aliasStepV (aliases : JsMap String) (c : UIComponent) : JsMap String :=
  match c with
  | .textArea _ label stateKey =>
    ((((aliases.set (normalizeKey label) stateKey).set
        (normalizeKey stateKey) stateKey).set label stateKey).set stateKey stateKey)
  | _ => aliases

/-- `buildAliasMap` of `parse-and-validate.ts`. -/
def buildAliasMapV (components : List UIComponent) : JsMap String :=
  components.foldl aliasStepV JsMap.empty

/-- the lookup keys a component contributes to the alias map (only
TextAreas contribute). -/
def aliasKeys : UIComponent → List String
  | .textArea _ label stateKey =>
    [stateKey, label, normalizeKey stateKey, normalizeKey label]
  | _ => []

/-- the canonical target of a component's alias entries. -/
def componentStateKey : UIComponent → String
  | .textArea _ _ stateKey => stateKey
  | _ => ""

/-- no alias key is claimed by two distinct components: the hypothesis under
which alias resolution is independent of component order. -/
def AliasCollisionFree (components : List UIComponent) : Prop :=
  components.Pairwise (fun c d => ∀ k ∈ aliasKeys c, k ∉ aliasKeys d)

instance (components : List UIComponent) : Decidable (AliasCollisionFree components) :=
  inferInstanceAs (Decidable (components.Pairwise
    (fun c d => ∀ k ∈ aliasKeys c, k ∉ aliasKeys d)))

/-- `canonicalVar` (`ir/normalize.ts`): exact raw match, then normalized
match, else the raw token unchanged. -/
def canonicalVar (raw : String) (aliases : JsMap String) : String :=
  ((aliases.get raw).or (aliases.get (normalizeKey raw))).getD raw

/-! ## Template tokenizer

The model of the shared regex `/{{\s*([^}]+?)\s*}}/g` (`VAR_TOKEN_REGEX` /
`TEMPLATE_TOKEN_REGEX`).  A match is `{{`, a non-empty run of non-`}`
characters, then `}}`; because the leading `\s*` is greedy and the lazy
capture is followed by `\s*}}`, the captured group is the run with its
surrounding whitespace stripped, i.e. `trim body` — which is exactly what
every consumer computes (each calls `.trim()` on the capture).  Scanning is
left to right, resuming after each match, advancing one character when no
match starts at the current position. -/

/-- If a template-token match starts at the head of `l`, return the
(trimmed) token and the remainder after the closing `}}`. -/
def tryToken : List Char → Option (String × List Char)
  | '{' :: '{' :: rest =>
    let body := rest.takeWhile (fun c => c ≠ '}')
    if body = [] then none
    else
      match rest.drop body.length with
      | '}' :: '}' :: rem => some (String.mk (trimChars body), rem)
      | _ => none
  | _ => none

/-- A template decomposes into literal characters and `{{…}}` tokens. -/
inductive Chunk where
  | lit (c : Char)
  | tok (t : String)
deriving DecidableEq

/-- fuel-driven worker for the template scan; each step consumes at least
one character, so `l.length` fuel always suffices (proved below), and the
definition stays kernel-computable. -/
def scanTemplateGo : Nat → List Char → List Chunk
  | 0, _ => []
  | fuel + 1, l =>
    match l with
    | [] => []
    | c :: rest =>
      match tryToken (c :: rest) with
      | some (t, rem) => Chunk.tok t :: scanTemplateGo fuel rem
      | none => Chunk.lit c :: scanTemplateGo fuel rest

/-- Global left-to-right scan of a template for `VAR_TOKEN_REGEX` matches. -/
def scanTemplate (l : List Char) : List Chunk :=
  scanTemplateGo l.length l

/-- The token list of a template, in order (`collectTemplateTokens` of
`parse-and-validate.ts`: the capture is always truthy, so every token is
collected, trimmed). -/
def collectTemplateTokens (template : String) : List String :=
  (scanTemplate template.data).filterMap (fun ch =>
    match ch with
    | .tok t => some t
    | .lit _ => none)

/-- Re-render a scanned template, rewriting each token through `f`
(the replacement pattern of `normalizeTemplate`). -/
def renderChunks (f : String → String) : List Chunk → List Char
  | [] => []
  | .lit c :: rest => c :: renderChunks f rest
  | .tok t :: rest => '{' :: '{' :: ((f t).data ++ '}' :: '}' :: renderChunks f rest)

/-- `normalizeTemplate` (`ir/normalize.ts`): replace every `{{raw}}` by
`{{canonicalVar(trim raw, aliases)}}`. -/
def normalizeTemplate (template : String) (aliases : JsMap String) : String :=
  String.mk (renderChunks (fun t => canonicalVar t aliases) (scanTemplate template.data))

/-- Interpolation over scanned chunks: literal characters pass through,
each token is replaced by `replacementText` of its bound value, and the
first token without an entry in the variable map aborts with the
missing-template-variable error (the callback throw of
`interpolate-template.ts`). -/
def interpolateChunks (vars : JsMap Value) : List Chunk → Except String (List Char)
  | [] => .ok []
  | .lit c :: rest => (interpolateChunks vars rest).map (fun r => c :: r)
  | .tok t :: rest =>
    match vars.get t with
    | none => .error ("Missing template variable '" ++ t ++ "'.")
    | some v => (interpolateChunks vars rest).map (fun r => (replacementText v).data ++ r)

/-- `interpolateTemplate` (`interpolate-template.ts`). -/
def interpolateTemplate (template : String) (vars : JsMap Value) : Except String String :=
  (interpolateChunks vars (scanTemplate template.data)).map String.mk

/-! ## IR Normalizer (`ir/normalize.ts`) -/

/-- Rewrite one action node: PromptTask templates and variable lists are
canonicalized, other nodes pass through. -/
def normalizeNode (aliases : JsMap String) (node : ActionNode) : ActionNode :=
  match node with
  | .promptTask id spec =>
    .promptTask id
      { spec with
        template := normalizeTemplate spec.template aliases
        «variables» := spec.variables.map (fun v => canonicalVar v aliases) }
  | other => other

/-- `normalizeToIR`. -/
def normalizeToIR (app : AppDefinition) : AppDefinition :=
  let aliases := buildAliasMapIR app.components
  { app with
    events := app.events.map (fun ev =>
      { ev with
        actionGraph :=
          { ev.actionGraph with
            nodes := ev.actionGraph.nodes.map (normalizeNode aliases) } }) }

/-- a canonical replacement value that survives re-tokenization: either empty
(the token braces collapse to the inert literal `{{}}`) or `}`-free and
trim-stable, so `{{s}}` re-scans to the token `s`. -/
def TokenSafe (s : String) : Prop :=
  s = "" ∨ (s.data.all (fun c => c ≠ '}') = true ∧ trimChars s.data = s.data)

instance (s : String) : Decidable (TokenSafe s) :=
  inferInstanceAs (Decidable (_ ∨ _))

/-- the chunk stream produced by re-scanning one rendered chunk (used to
state the tokenizer round-trip lemma behind the normalizer's idempotence). -/
def retok (f : String → String) : Chunk → List Chunk
  | .lit c => [.lit c]
  | .tok t =>
    if f t = "" then [.lit '{', .lit '{', .lit '}', .lit '}'] else [.tok (f t)]

/-! ## Graph Orderer (`apps/runtime-api/src/application/topological-sort.ts`)

Kahn's algorithm over insertion-ordered maps.  The `while` loop is modeled
with explicit fuel; `kahnFuel` bounds the number of pops: every pop consumes
one prior push, seeds number at most the map's entry count, and a key is
pushed by a decrement at most once (its in-degree strictly decreases), so
pushes never exceed `2 * (nodes + edges)`.  The sufficiency of the fuel is
proved below for the inputs the theorems quantify over; concrete executions
compute it directly. -/

/-- the in-degree decrement pass over one popped node's neighbor list:
`indegree.set(next, indegree.get(next) - 1)`, pushing a neighbor onto the
queue exactly when its count reaches zero.  Returns the updated in-degree
map and the enqueued neighbors in order. -/
def processNeighbors (ind : JsMap Int) : List String → JsMap Int × List String
  | [] => (ind, [])
  | nb :: rest =>
    let next := ind.getD nb 0 - 1
    let res := processNeighbors (ind.set nb next) rest
    (res.1, (if next = 0 then [nb] else []) ++ res.2)

/-- the runtime interpreter's `while (queue.length > 0)` loop; a falsy
(empty-string) popped id is skipped by `continue`.  Returns the final
in-degree map, the remaining queue (empty whenever fuel suffices) and the
produced order. -/
def kahnLoopRT : Nat → JsMap Int → JsMap (List String) → List String → List String →
    JsMap Int × List String × List String
  | 0, ind, _, queue, order => (ind, queue, order)
  | _ + 1, ind, _, [], order => (ind, [], order)
  | fuel + 1, ind, out, cur :: queue, order =>
    if cur = "" then kahnLoopRT fuel ind out queue order
    else
      let res := processNeighbors ind (out.getD cur [])
      kahnLoopRT fuel res.1 out (queue ++ res.2) (order ++ [cur])

/-- in-degree and adjacency maps: nodes first (in list order, in-degree 0,
empty out-list), then each edge pushes `dst` onto `src`'s out-list when
`src` is a key, and unconditionally increments (or creates) `dst`'s
in-degree entry. -/
def buildIndegOut (nodes : List String) (edges : List Edge) :
    JsMap Int × JsMap (List String) :=
  let init := nodes.foldl
    (fun (m : JsMap Int × JsMap (List String)) id =>
      (m.1.set id 0, m.2.set id []))
    (JsMap.empty, JsMap.empty)
  edges.foldl
    (fun (m : JsMap Int × JsMap (List String)) e =>
      let out' := match m.2.get e.src with
        | some l => m.2.set e.src (l ++ [e.dst])
        | none => m.2
      (m.1.set e.dst (m.1.getD e.dst 0 + 1), out'))
    init

/-- See `kahnFuel`'s bound discussion in the section header. -/
def kahnFuel (nodes : List String) (edges : List Edge) : Nat :=
  2 * (nodes.length + edges.length) + 1

/-- `topologicalSort` of the runtime interpreter: Kahn order, throwing
(`Except.error`) when the produced order's length differs from the node
count. -/
def topologicalSort (nodes : List String) (edges : List Edge) :
    Except String (List String) :=
  let m := buildIndegOut nodes edges
  let queue := (m.1.entries.filter (fun p => p.2 = 0)).map (·.1)
  let res := kahnLoopRT (kahnFuel nodes edges) m.1 m.2 queue []
  let order := res.2.2
  if order.length ≠ nodes.length then
    .error "Graph contains a cycle; cannot execute event."
  else
    .ok order

/-! ### Functional Kahn model

A map-free rendition of the same loop, used to state and prove the
algorithm's properties; it is related to the executable `JsMap` loops by the
correspondence lemmas below. -/

/-- `processNeighbors` over a plain in-degree function. -/
def processNeighborsF (i : String → Int) : List String → (String → Int) × List String
  | [] => (i, [])
  | nb :: rest =>
    let next := i nb - 1
    let res := processNeighborsF (Function.update i nb next) rest
    (res.1, (if next = 0 then [nb] else []) ++ res.2)

/-- the Kahn loop over a plain in-degree function; returns the final
in-degree, the remaining queue and the order produced from this point on. -/
def kahnLoopF : Nat → (String → Int) → (String → List String) → List String →
    (String → Int) × List String × List String
  | 0, i, _, queue => (i, queue, [])
  | _ + 1, i, _, [] => (i, [], [])
  | fuel + 1, i, out, cur :: queue =>
    let res := processNeighborsF i (out cur)
    let r := kahnLoopF fuel res.1 out (queue ++ res.2)
    (r.1, r.2.1, cur :: r.2.2)

/-- the number of edges into `v`. -/
def edgesTo (edges : List Edge) (v : String) : Nat :=
  (edges.filter (fun e => e.dst = v)).length

/-- the number of edges into `v` whose source has already been emitted. -/
def edgesToFrom (edges : List Edge) (v : String) (done : List String) : Nat :=
  (edges.filter (fun e => e.dst = v && decide (e.src ∈ done))).length

/-- the adjacency list of `v` (edge targets in edge order). -/
def outList (edges : List Edge) (v : String) : List String :=
  (edges.filter (fun e => e.src = v)).map (·.dst)

/-- the edge relation of an edge list. -/
def edgeStep (edges : List Edge) (u v : String) : Prop := Edge.mk u v ∈ edges

/-- acyclicity: no node reaches itself through a non-empty edge path. -/
def Acyclic (edges : List Edge) : Prop :=
  ∀ x, ¬ Relation.TransGen (edgeStep edges) x x

/-- the in-degree component of the per-edge step of `buildIndegOut`. -/
def indegStep (ind : JsMap Int) (e : Edge) : JsMap Int :=
  ind.set e.dst (ind.getD e.dst 0 + 1)

/-- the adjacency component of the per-edge step of `buildIndegOut`. -/
def outStep (out : JsMap (List String)) (e : Edge) : JsMap (List String) :=
  match out.get e.src with
  | some l => out.set e.src (l ++ [e.dst])
  | none => out

/-- the loop invariant of Kahn's algorithm over node list `V` and edge list
`E`: `done` is the order emitted so far, `queue` the pending zero-in-degree
nodes, `i` the current in-degree function. -/
structure KahnInv (V : List String) (E : List Edge) (done queue : List String)
    (i : String → Int) : Prop where
  done_nodup : done.Nodup
  queue_nodup : queue.Nodup
  disj : ∀ x ∈ done, x ∉ queue
  done_sub : ∀ x ∈ done, x ∈ V
  queue_sub : ∀ x ∈ queue, x ∈ V
  ind_eq : ∀ x, i x = (edgesTo E x : Int) - (edgesToFrom E x done : Int)
  queue_zero : ∀ x ∈ queue, i x = 0
  blocked : ∀ x ∈ V, x ∉ done → x ∉ queue → i x ≠ 0
  edge_before : ∀ e ∈ E, e.dst ∈ done →
    e.src ∈ done ∧ done.indexOf e.src < done.indexOf e.dst

/-! ## Diagnostics Validator (`packages/compiler/src/parser/parse-and-validate.ts`)

The zod schema step (`AppDefinitionSchema.safeParse`) is represented by the
typed `AppDefinition` input: a Lean value of that type is exactly a JSON
value the schema accepts, so the embedding covers the structural checks that
run after a successful parse. -/

inductive Severity where
  | error
  | warning
deriving DecidableEq

structure Diagnostic where
  code : String
  severity : Severity
  path : String
  message : String
deriving DecidableEq

/-- JS `Set.add` (insertion-ordered, first occurrence wins). -/
def insertUnique (l : List String) (x : String) : List String :=
  if x ∈ l then l else l ++ [x]

/-- the validator's own Kahn loop (`validateGraph`): counts visited nodes;
a falsy popped id `break`s out of the loop. -/
def kahnLoopV : Nat → JsMap Int → JsMap (List String) → List String → Nat →
    JsMap Int × List String × Nat
  | 0, ind, _, queue, visited => (ind, queue, visited)
  | _ + 1, ind, _, [], visited => (ind, [], visited)
  | fuel + 1, ind, out, cur :: queue, visited =>
    if cur = "" then (ind, cur :: queue, visited)
    else
      let res := processNeighbors ind (out.getD cur [])
      kahnLoopV fuel res.1 out (queue ++ res.2) (visited + 1)

/-- the de-duplicated node-id set of a graph, in insertion order. -/
def graphNodeIds (nodes : List ActionNode) : List String :=
  nodes.foldl (fun acc n => insertUnique acc n.id) []

/-- duplicate-node-id diagnostics of `validateGraph`, in emission order. -/
def dupNodeDiags (event : EventDefinition) : List Diagnostic :=
  (event.actionGraph.nodes.foldl
    (fun (st : List String × List Diagnostic) n =>
      let ds := if n.id ∈ st.1 then
          st.2 ++ [⟨"GRAPH_DUPLICATE_NODE_ID", .error,
            "events." ++ event.id ++ ".actionGraph.nodes." ++ n.id,
            "Duplicate action node id '" ++ n.id ++ "' in event '" ++ event.id ++ "'."⟩]
        else st.2
      (insertUnique st.1 n.id, ds))
    ([], [])).2

/-- unknown-edge-endpoint diagnostics of `validateGraph`, in edge order. -/
def unknownEdgeDiags (event : EventDefinition) (nodeIds : List String) : List Diagnostic :=
  event.actionGraph.edges.filterMap (fun e =>
    if e.src ∈ nodeIds ∧ e.dst ∈ nodeIds then none
    else some ⟨"GRAPH_UNKNOWN_EDGE_NODE", .error,
      "events." ++ event.id ++ ".actionGraph.edges",
      "Edge references unknown node(s) '" ++ e.src ++ "' -> '" ++ e.dst ++
        "' in event '" ++ event.id ++ "'."⟩)

/-- the validator's in-degree / adjacency maps: keys are the de-duplicated
node ids; edges with an unknown endpoint are skipped. -/
def buildIndegOutV (nodeIds : List String) (edges : List Edge) :
    JsMap Int × JsMap (List String) :=
  let init := nodeIds.foldl
    (fun (m : JsMap Int × JsMap (List String)) id =>
      (m.1.set id 0, m.2.set id []))
    (JsMap.empty, JsMap.empty)
  edges.foldl
    (fun (m : JsMap Int × JsMap (List String)) e =>
      if e.src ∈ nodeIds ∧ e.dst ∈ nodeIds then
        let out' := match m.2.get e.src with
          | some l => m.2.set e.src (l ++ [e.dst])
          | none => m.2
        (m.1.set e.dst (m.1.getD e.dst 0 + 1), out')
      else m)
    init

/-- `validateGraph`: duplicate node ids, unknown edge endpoints, then the
cycle check (visited count vs. node-id count). -/
def validateGraph (event : EventDefinition) : List Diagnostic :=
  let nodeIds := graphNodeIds event.actionGraph.nodes
  let m := buildIndegOutV nodeIds event.actionGraph.edges
  let queue := (m.1.entries.filter (fun p => p.2 = 0)).map (·.1)
  let visited := (kahnLoopV (kahnFuel nodeIds event.actionGraph.edges) m.1 m.2 queue 0).2.2
  dupNodeDiags event ++ unknownEdgeDiags event nodeIds ++
    (if visited ≠ nodeIds.length then
      [⟨"GRAPH_CYCLE_DETECTED", .error,
        "events." ++ event.id ++ ".actionGraph",
        "Action graph for event '" ++ event.id ++ "' contains a cycle."⟩]
    else [])

/-- state of the per-component validation pass (`componentIds`,
`uiStateKeyOwners`, `triggerEventOwners` and the accumulated diagnostics). -/
structure CompScanState where
  componentIds : List String
  uiStateKeyOwners : JsMap String
  triggerEventOwners : JsMap String
  diags : List Diagnostic

/-- the per-component checks of `parseAndValidate`: duplicate component id,
missing state key (TextArea `stateKey` / DataTable `dataKey`), duplicate
UI state key, duplicate Button `onClick` event id.  A Button with a falsy
`onClick` (absent or `""`) is skipped by `continue`. -/
def scanComponent (stateKeys : List String) (st : CompScanState) (c : UIComponent) :
    CompScanState :=
  let dupDiags := if c.id ∈ st.componentIds then
      st.diags ++ [⟨"DUPLICATE_COMPONENT_ID", .error,
        "ui.components." ++ c.id, "Duplicate component id '" ++ c.id ++ "'."⟩]
    else st.diags
  let st := { st with componentIds := st.componentIds ++ [c.id], diags := dupDiags }
  match c with
  | .textArea id _ stateKey =>
    let d1 := if stateKey ∈ stateKeys then [] else
      [⟨"MISSING_STATE_KEY", .error, "ui.components." ++ id ++ ".stateKey",
        "TextArea component '" ++ id ++ "' references missing state key '" ++
          stateKey ++ "'."⟩]
    match st.uiStateKeyOwners.get stateKey with
    | some owner =>
      if owner ≠ "" ∧ owner ≠ id then
        { st with diags := st.diags ++ d1 ++
            [⟨"DUPLICATE_UI_STATE_KEY", .error, "ui.components." ++ id ++ ".stateKey",
              "State key '" ++ stateKey ++ "' is used by both '" ++ owner ++
                "' and '" ++ id ++ "'."⟩] }
      else { st with
             diags := st.diags ++ d1
             uiStateKeyOwners := st.uiStateKeyOwners.set stateKey id }
    | none =>
      { st with
        diags := st.diags ++ d1
        uiStateKeyOwners := st.uiStateKeyOwners.set stateKey id }
  | .dataTable id _ dataKey =>
    let d1 := if dataKey ∈ stateKeys then [] else
      [⟨"MISSING_STATE_KEY", .error, "ui.components." ++ id ++ ".dataKey",
        "DataTable component '" ++ id ++ "' references missing state key '" ++
          dataKey ++ "'."⟩]
    match st.uiStateKeyOwners.get dataKey with
    | some owner =>
      if owner ≠ "" ∧ owner ≠ id then
        { st with diags := st.diags ++ d1 ++
            [⟨"DUPLICATE_UI_STATE_KEY", .error, "ui.components." ++ id ++ ".dataKey",
              "State key '" ++ dataKey ++ "' is used by both '" ++ owner ++
                "' and '" ++ id ++ "'."⟩] }
      else { st with
             diags := st.diags ++ d1
             uiStateKeyOwners := st.uiStateKeyOwners.set dataKey id }
    | none =>
      { st with
        diags := st.diags ++ d1
        uiStateKeyOwners := st.uiStateKeyOwners.set dataKey id }
  | .button id _ events =>
    match getEntries events "onClick" with
    | none => st
    | some "" => st
    | some eventId =>
      match st.triggerEventOwners.get eventId with
      | some owner =>
        if owner ≠ "" ∧ owner ≠ id then
          { st with diags := st.diags ++
              [⟨"DUPLICATE_TRIGGER_EVENT_ID", .error,
                "ui.components." ++ id ++ ".events.onClick",
                "Button event id '" ++ eventId ++ "' is used by both '" ++ owner ++
                  "' and '" ++ id ++ "'."⟩] }
        else { st with triggerEventOwners := st.triggerEventOwners.set eventId id }
      | none =>
        { st with triggerEventOwners := st.triggerEventOwners.set eventId id }

/-- the token / declared-variable resolution of the prompt-variable check:
`aliases.get(token) ?? aliases.get(normalizeKey(token)) ?? token`. -/
def resolvePromptVar (aliases : JsMap String) (token : String) : String :=
  ((aliases.get token).or (aliases.get (normalizeKey token))).getD token

/-- `UNKNOWN_PROMPT_VARIABLE` diagnostics of one PromptTask node. -/
def promptVarDiags (aliases : JsMap String) (stateKeys : List String)
    (eventId : String) (node : ActionNode) : List Diagnostic :=
  match node with
  | .promptTask id spec =>
    (collectTemplateTokens spec.template).filterMap (fun token =>
      if resolvePromptVar aliases token ∈ stateKeys then none
      else some ⟨"UNKNOWN_PROMPT_VARIABLE", .error,
        "events." ++ eventId ++ ".actionGraph.nodes." ++ id ++ ".promptSpec.template",
        "Prompt variable '\x7b\x7b" ++ token ++ "\x7d\x7d' does not map to a known state key."⟩) ++
    spec.variables.filterMap (fun v =>
      if resolvePromptVar aliases v ∈ stateKeys then none
      else some ⟨"UNKNOWN_PROMPT_VARIABLE", .error,
        "events." ++ eventId ++ ".actionGraph.nodes." ++ id ++ ".promptSpec.variables",
        "Prompt variable '" ++ v ++ "' does not map to a known state key."⟩)
  | _ => []

/-- the per-event checks: duplicate event id, unknown trigger component,
graph checks, prompt-variable checks. -/
def scanEvent (componentIds : List String) (aliases : JsMap String)
    (stateKeys : List String) (st : List String × List Diagnostic)
    (event : EventDefinition) : List String × List Diagnostic :=
  let d1 := if event.id ∈ st.1 then
      [⟨"DUPLICATE_EVENT_ID", .error, "events." ++ event.id,
        "Duplicate event id '" ++ event.id ++ "'."⟩]
    else []
  let d2 := if event.trigger.componentId ∈ componentIds then [] else
      [⟨"UNKNOWN_TRIGGER_COMPONENT", .error,
        "events." ++ event.id ++ ".trigger.componentId",
        "Event '" ++ event.id ++ "' references unknown trigger component '" ++
          event.trigger.componentId ++ "'."⟩]
  let d3 := validateGraph event
  let d4 := event.actionGraph.nodes.flatMap (promptVarDiags aliases stateKeys event.id)
  (st.1 ++ [event.id], st.2 ++ d1 ++ d2 ++ d3 ++ d4)

/--
`parseAndValidate`, given a schema-valid application description: the flat
diagnostics list of all structural checks.  (On schema success the TS
function returns `{ app, diagnostics }` with `app` the parsed input; the
diagnostics list is the complete observable output modeled here.)
-/
def parseAndValidate (app : AppDefinition) : List Diagnostic :=
  let stateKeys := app.stateModel.map (·.1)
  let compScan := app.components.foldl (scanComponent stateKeys)
    ⟨[], JsMap.empty, JsMap.empty, []⟩
  let aliases := buildAliasMapV app.components
  let eventScan := app.events.foldl
    (scanEvent compScan.componentIds aliases stateKeys) ([], [])
  compScan.diags ++ eventScan.2

/-- `error`-severity filter: the caller's success criterion. -/
def hasErrorDiag (diags : List Diagnostic) : Bool :=
  diags.any (fun d => d.severity = .error)

/-! ## Prompt Orchestrator
(`shape-to-zod.ts`, `safe-json-parse.ts`, `execute-prompt-task.ts`)

`shapeToZod` builds a zod object schema from a declarative shape; it is
modeled as the validation function that schema denotes.  zod's exact issue
text is abstracted to stable messages; nothing in the repository inspects
it.  `JSON.parse` is a platform builtin and is passed in as a parameter. -/

/-- JS string length (`.length` counts UTF-16 code units; the modeled
repertoire is in the basic plane, where this is the character count). -/
def jsStrLength (s : String) : Nat := s.data.length

/-- the field validator denoted by one `shapeToZod` rule:
`z.string()` (+ optional min/max/enum refine), `z.number()`, `z.boolean()`,
otherwise `z.unknown()`. -/
def validateShapeField (rule : ShapeRule) (v : Value) : Except String Value :=
  let ty := rule.type.getD "string"
  if ty = "string" then
    match v with
    | .vStr s =>
      let belowMin : Bool := match rule.minLength with
        | some n => jsStrLength s < n
        | none => false
      let aboveMax : Bool := match rule.maxLength with
        | some n => n < jsStrLength s
        | none => false
      if belowMin then
        .error "String must contain at least the declared minimum length"
      else if aboveMax then
        .error "String must contain at most the declared maximum length"
      else
        match rule.enumVals with
        | some es => if es ≠ [] ∧ s ∉ es then
            .error ("Expected one of: " ++ String.intercalate ", " es)
          else .ok (.vStr s)
        | none => .ok (.vStr s)
    | _ => .error "Expected string"
  else if ty = "number" then
    match v with
    | .vNum q => .ok (.vNum q)
    | _ => .error "Expected number"
  else if ty = "boolean" then
    match v with
    | .vBool b => .ok (.vBool b)
    | _ => .error "Expected boolean"
  else
    .ok v

/-- the object validator denoted by `shapeToZod(shape)`: the input must be an
object; each declared field is validated against its rule (absent fields are
`undefined`); unknown keys are stripped (zod object default). -/
def zodObjectParse (shape : List (String × ShapeRule)) (v : Value) : Except String Value :=
  match v with
  | .vObj fields =>
    (shape.foldl
      (fun (acc : Except String (List (String × Value))) (kr : String × ShapeRule) =>
        acc.bind (fun done =>
          (validateShapeField kr.2 ((getEntries fields kr.1).getD .vUndef)).map
            (fun parsed => done ++ [(kr.1, parsed)])))
      (.ok [])).map .vObj
  | _ => .error "Expected object"

/-- `safeJsonParse`, parameterized by the `JSON.parse` builtin. -/
def safeJsonParse (jsonParse : String → Except String Value) (input : String) :
    Except String Value :=
  match jsonParse input with
  | .ok v => .ok v
  | .error msg => .error ("Provider response is not valid JSON: " ++ msg)

/-- the provider collaborator interface (`LlmProvider.execute`), modeled as a
pure function from the request to the response or a rejection. -/
structure ProviderRequest where
  prompt : String
  model : String
  temperature : Rat
  responseFormat : String
deriving DecidableEq

structure ProviderResult where
  text : String
  meta : List (String × Value)

def LlmProvider := ProviderRequest → Except String ProviderResult

/-- `PromptExecutionRequest`: the output schema arrives as the already-built
zod validator (`shapeToZod` result), modeled by its parse function. -/
structure PromptExecutionRequest where
  template : String
  «variables» : JsMap Value
  outputSchema : Value → Except String Value
  modelPolicy : ModelPolicy

structure PromptExecutionResult where
  output : Value
  rawText : String
  providerMeta : List (String × Value)

/--
`executePromptTask`: look up the provider (fatal when absent), interpolate
the template, prepend the fixed system instruction, call the provider, parse
the response as JSON, validate against the output schema.
-/
def executePromptTask (jsonParse : String → Except String Value)
    (req : PromptExecutionRequest) (providers : JsMap LlmProvider) :
    Except String PromptExecutionResult :=
  match providers.get req.modelPolicy.provider with
  | none => .error ("Unknown provider '" ++ req.modelPolicy.provider ++ "'.")
  | some provider =>
    (interpolateTemplate req.template req.variables).bind fun interpolated =>
      let prompt := "You are a strict JSON API.\nReturn ONLY valid JSON.\n" ++ interpolated
      let preq : ProviderRequest :=
        ⟨prompt, req.modelPolicy.model, req.modelPolicy.temperature.getD 0, "json"⟩
      (provider preq).bind fun result =>
        (safeJsonParse jsonParse result.text).bind fun json =>
          (req.outputSchema json).map fun parsed =>
            ⟨parsed, result.text, result.meta⟩

/-- `executePromptTask` instrumented with the provider's observation: the
second component lists the requests the provider actually received (empty
whenever control never reaches the provider call). -/
def executePromptTaskTraced (jsonParse : String → Except String Value)
    (req : PromptExecutionRequest) (providers : JsMap LlmProvider) :
    Except String PromptExecutionResult × List ProviderRequest :=
  match providers.get req.modelPolicy.provider with
  | none => (.error ("Unknown provider '" ++ req.modelPolicy.provider ++ "'."), [])
  | some provider =>
    match interpolateTemplate req.template req.variables with
    | .error e => (.error e, [])
    | .ok interpolated =>
      let prompt := "You are a strict JSON API.\nReturn ONLY valid JSON.\n" ++ interpolated
      let preq : ProviderRequest :=
        ⟨prompt, req.modelPolicy.model, req.modelPolicy.temperature.getD 0, "json"⟩
      (((provider preq).bind fun result =>
        (safeJsonParse jsonParse result.text).bind fun json =>
          (req.outputSchema json).map fun parsed =>
            (⟨parsed, result.text, result.meta⟩ : PromptExecutionResult)), [preq])

/-! ## Event Interpreter (`apps/runtime-api/src/application/execute-event.ts`) -/

structure EventLog where
  «at» : String
  eventId : String
  stage : String
  message : String
deriving DecidableEq

/-- the mutable context of one event execution: the accumulating state
patch, node-output map and log list, plus the provider-call trace (the
observation of the providers). -/
structure ExecCtx where
  statePatch : JsMap Value
  nodeOutputs : JsMap Value
  logs : List EventLog
  calls : List ProviderRequest

/-- a value failing the Validate check: `undefined`, `null` or `""`. -/
def isEmptyish : Value → Bool
  | .vUndef => true
  | .vNull => true
  | .vStr s => s = ""
  | _ => false

/-- `resolveEvent`. -/
def resolveEvent (app : AppDefinition) (eventId : String) :
    Except String EventDefinition :=
  match app.events.find? (fun e => e.id = eventId) with
  | none => .error ("Unknown event '" ++ eventId ++ "'.")
  | some e => .ok e

/-- `parseTransformExpression`'s regex `/^\[\$(.+?)\.output\]$/`: anchored on
both sides with a fixed 8-character tail, so a match is exactly
`"[$" ++ nodeId ++ ".output]"` with `nodeId` non-empty and free of line
terminators (`.` does not match them). -/
def regexDotOk (c : Char) : Bool :=
  c ≠ '\n' && c ≠ '\r' && c.val ≠ 0x2028 && c.val ≠ 0x2029

def transformExprNodeId (expr : String) : Option String :=
  let cs := expr.data
  if cs.take 2 = ['[', '$'] ∧ 11 ≤ cs.length ∧
      cs.drop (cs.length - 8) = ['.', 'o', 'u', 't', 'p', 'u', 't', ']'] ∧
      ((cs.drop 2).take (cs.length - 10)).all regexDotOk then
    some (String.mk ((cs.drop 2).take (cs.length - 10)))
  else none

/-- `parseTransformExpression`: the single recognized form evaluates to a
one-element array wrapping the referenced node's output (`undefined` when
the node has no recorded output); any other string is passed through as a
literal. -/
def parseTransformExpression (expr : String) (nodeOutputs : JsMap Value) : Value :=
  match transformExprNodeId expr with
  | none => .vStr expr
  | some nodeId =>
    if nodeId = "" then .vStr expr   -- unreachable (`!nodeId` guard in TS)
    else .vArr [nodeOutputs.getD nodeId .vUndef]

/-- the PromptTask variable map: every declared variable is bound to the
state's value (JS `variableMap[variable] = state[variable]` — the property
exists even when the state lacks the key, bound to `undefined`). -/
def buildVariableMap (vars : List String) (state : JsMap Value) : JsMap Value :=
  vars.foldl (fun (m : JsMap Value) v => m.set v (state.getD v .vUndef)) JsMap.empty

/-- `runNode`. -/
def runNode (jsonParse : String → Except String Value)
    (providers : JsMap LlmProvider) (eventId : String) (state : JsMap Value)
    (node : ActionNode) (ctx : ExecCtx) : Except String Unit × ExecCtx :=
  match node with
  | .validate _ stateKeys =>
    match stateKeys.find? (fun k => isEmptyish (state.getD k .vUndef)) with
    | some k =>
      (.error ("Validation failed: state key '" ++ k ++ "' is empty."), ctx)
    | none =>
      (.ok (), { ctx with logs := ctx.logs ++
        [⟨"", eventId, "validate",
          "Validated " ++ toString stateKeys.length ++ " state keys."⟩] })
  | .promptTask id spec =>
    let variableMap := buildVariableMap spec.variables state
    let res := executePromptTaskTraced jsonParse
      ⟨spec.template, variableMap, zodObjectParse spec.outputSchema.shape,
        spec.modelPolicy⟩ providers
    match res.1 with
    | .error e => (.error e, { ctx with calls := ctx.calls ++ res.2 })
    | .ok result =>
      (.ok (), { ctx with
        nodeOutputs := ctx.nodeOutputs.set id result.output
        calls := ctx.calls ++ res.2
        logs := ctx.logs ++
          [⟨"", eventId, "prompt",
            "PromptTask '" ++ id ++ "' executed via '" ++
              spec.modelPolicy.provider ++ "'."⟩] })
  | .transform _ mapToState =>
    let patch := mapToState.foldl
      (fun (p : JsMap Value) kv =>
        p.set kv.1 (parseTransformExpression kv.2 ctx.nodeOutputs))
      ctx.statePatch
    (.ok (), { ctx with
      statePatch := patch
      logs := ctx.logs ++
        [⟨"", eventId, "transform",
          "Mapped " ++ toString mapToState.length ++ " outputs into state patch."⟩] })

/-- the `for (const nodeId of order)` loop of `executeEvent`: run nodes in
order, aborting at the first failure (including an order entry with no node
in the map). -/
def runNodes (jsonParse : String → Except String Value)
    (providers : JsMap LlmProvider) (eventId : String) (state : JsMap Value)
    (nodeMap : JsMap ActionNode) : List String → ExecCtx →
    Except String Unit × ExecCtx
  | [], ctx => (.ok (), ctx)
  | nodeId :: rest, ctx =>
    match nodeMap.get nodeId with
    | none => (.error ("Node '" ++ nodeId ++ "' not found during execution."), ctx)
    | some node =>
      match runNode jsonParse providers eventId state node ctx with
      | (.error e, ctx') => (.error e, ctx')
      | (.ok _, ctx') => runNodes jsonParse providers eventId state nodeMap rest ctx'

/-- `new Map(nodes.map((node) => [node.id, node]))`: later entries win. -/
def buildNodeMap (nodes : List ActionNode) : JsMap ActionNode :=
  nodes.foldl (fun m n => m.set n.id n) JsMap.empty

/--
`executeEvent`: resolve the event, topologically order its action graph,
run the nodes in order.  The first component is the TS return value
(`{ statePatch, logs }`, or the thrown error); the second is the
provider-call trace, the observation of the provider registry.
-/
def executeEvent (jsonParse : String → Except String Value)
    (app : AppDefinition) (eventId : String) (state : JsMap Value)
    (providers : JsMap LlmProvider) :
    Except String (JsMap Value × List EventLog) × List ProviderRequest :=
  match resolveEvent app eventId with
  | .error e => (.error e, [])
  | .ok event =>
    match topologicalSort (event.actionGraph.nodes.map (·.id))
        event.actionGraph.edges with
    | .error e => (.error e, [])
    | .ok order =>
      let nodeMap := buildNodeMap event.actionGraph.nodes
      let res := runNodes jsonParse providers eventId state nodeMap order
        ⟨JsMap.empty, JsMap.empty, [], []⟩
      match res.1 with
      | .error e => (.error e, res.2.calls)
      | .ok _ => (.ok (res.2.statePatch, res.2.logs), res.2.calls)

/-! ## Concrete fixtures

Small application descriptions used as counterexample and witness inputs. -/

/-- two TextAreas sharing the label `L` but owning distinct state keys:
every structural check passes, yet alias lookups depend on component order. -/
def c6AppA : AppDefinition :=
  { appId := "app"
    version := "1"
    components := [.textArea "c1" "L" "k1", .textArea "c2" "L" "k2"]
    stateModel := [("k1", .prim "string" none none none none),
                   ("k2", .prim "string" none none none none)]
    events := [] }

/-- the same description with the component list reversed. -/
def c6AppB : AppDefinition := { c6AppA with components := c6AppA.components.reverse }

/-- a collision-free two-TextArea description (order-independence witness). -/
def c6AppW : AppDefinition :=
  { appId := "app"
    version := "1"
    components := [.textArea "c1" "Label One" "k1", .textArea "c2" "Label Two" "k2"]
    stateModel := [("k1", .prim "string" none none none none),
                   ("k2", .prim "string" none none none none)]
    events := [] }

/-- a TextArea whose state key `k` is shadowed by a later TextArea using `k`
as its label. -/
def c8Comps : List UIComponent :=
  [.textArea "c1" "L" "k", .textArea "c2" "k" "b"]

/-- a stub provider answering `{}` (the observable is the call trace). -/
def stubProvider : LlmProvider := fun _ => .ok ⟨"{}", []⟩

/-- a minimal model of the `JSON.parse` builtin, sufficient for the stub
provider's responses. -/
def stubJsonParse : String → Except String Value := fun s =>
  if s = "{}" then .ok (.vObj []) else .error "Unexpected token"

/-- an event whose PromptTask is ordered *before* its Validate node (no
edges, so Kahn seeds them in insertion order). -/
def c1App : AppDefinition :=
  { appId := "app"
    version := "1"
    components := []
    stateModel := [("k", .prim "string" none none none none)]
    events := [
      { id := "e"
        trigger := ⟨"b", "onClick"⟩
        actionGraph :=
          { nodes := [
              .promptTask "p" ⟨"hi", [], ⟨"mock", "m", none⟩, ⟨[]⟩⟩,
              .validate "v" ["k"]]
            edges := [] } }] }

/-- the spec's scenario event: Validate → PromptTask → Transform. -/
def scenarioEvent : EventDefinition :=
  { id := "evt_analyze_click"
    trigger := ⟨"btn_analyze", "onClick"⟩
    actionGraph :=
      { nodes := [
          .validate "n1" ["customerComplaint"],
          .promptTask "n2"
            ⟨"Analyze {{Customer Complaint}} and return JSON.",
              ["Customer Complaint"], ⟨"mock", "mock-v1", some 0⟩,
              ⟨[("sentiment", ⟨some "string", none, none, none⟩),
                ("reply", ⟨some "string", none, some 1, none⟩)]⟩⟩,
          .transform "n3" [("analysisRows", "[$n2.output]")]]
        edges := [⟨"n1", "n2"⟩, ⟨"n2", "n3"⟩] } }

/-- the spec's scenario app. -/
def scenarioApp : AppDefinition :=
  { appId := "app_customer_support_v1"
    version := "1.0.0"
    components := [
      .textArea "input_customer_complaint" "Customer Complaint" "customerComplaint",
      .button "btn_analyze" "Analyze" [("onClick", "evt_analyze_click")],
      .dataTable "table_results" "Analysis Result" "analysisRows"]
    stateModel := [
      ("customerComplaint", .prim "string" (some "ui.input_customer_complaint") none none none),
      ("analysisRows", .arr none [("sentiment", ⟨some "string", none, none, none⟩),
                                  ("reply", ⟨some "string", none, none, none⟩)])]
    events := [scenarioEvent] }

/-- an app whose alias keys collide: the second TextArea's label is the first
one's stateKey, so `k` resolves through a chain `x ↦ k ↦ b`. -/
def c5App : AppDefinition :=
  { appId := "app5"
    version := "1"
    components := [.textArea "c1" "x" "k", .textArea "c2" "k" "b"]
    stateModel := [("k", .prim "string" none none none none)]
    events := [
      { id := "e"
        trigger := ⟨"btn", "onClick"⟩
        actionGraph :=
          { nodes := [.promptTask "p" ⟨"{{x}}", ["x"], ⟨"mock", "m", none⟩, ⟨[]⟩⟩]
            edges := [] } }] }

/-- an event whose single edge points at an unknown node: its action graph
restricted to real nodes is edge-free, hence acyclic. -/
def c3Event : EventDefinition :=
  { id := "e3"
    trigger := ⟨"b", "onClick"⟩
    actionGraph :=
      { nodes := [.validate "a" []]
        edges := [⟨"a", "b"⟩] } }

/-! ## Basic map lemmas -/

theorem getEntries_setEntries {α : Type} (l : List (String × α)) (k k' : String) (v : α) :
    getEntries (setEntries l k v) k' = if k' = k then some v else getEntries l k' := by
  induction l with
  | nil =>
    by_cases h : k' = k
    · subst h; simp [setEntries, getEntries]
    · simp [setEntries, getEntries, h, Ne.symm h]
  | cons hd tl ih =>
    obtain ⟨k0, v0⟩ := hd
    by_cases h0 : k0 = k
    · subst h0
      by_cases h : k' = k0
      · subst h; simp [setEntries, getEntries]
      · simp [setEntries, getEntries, h, Ne.symm h]
    · by_cases h : k' = k
      · subst h
        simp [setEntries, getEntries, h0, fun hh : k0 = k' => h0 hh, ih]
      · by_cases h2 : k0 = k'
        · subst h2
          simp [setEntries, getEntries, h0, h, ih]
        · simp [setEntries, getEntries, h0, h, h2, ih]

theorem JsMap.get_set {α : Type} (m : JsMap α) (k k' : String) (v : α) :
    (m.set k v).get k' = if k' = k then some v else m.get k' :=
  getEntries_setEntries m.entries k k' v

theorem JsMap.getD_set {α : Type} (m : JsMap α) (k k' : String) (v d : α) :
    (m.set k v).getD k' d = if k' = k then v else m.getD k' d := by
  by_cases h : k' = k <;> simp [JsMap.getD, JsMap.get_set, h]

theorem JsMap.get_set_same {α : Type} (m : JsMap α) (k : String) (v : α) :
    (m.set k v).get k = some v := by
  simp [JsMap.get_set]

theorem JsMap.get_set_other {α : Type} (m : JsMap α) (k k' : String) (v : α)
    (h : k' ≠ k) : (m.set k v).get k' = m.get k' := by
  simp [JsMap.get_set, h]

/-- a fold of keyed assignments leaves unrelated keys alone. -/
theorem foldl_set_get_notmem {α β : Type} (key : β → String)
    (entries : List β) (p : JsMap α) (g : β → α) (k : String)
    (hk : ∀ b ∈ entries, key b ≠ k) :
    (entries.foldl (fun acc b => acc.set (key b) (g b)) p).get k = p.get k := by
  induction entries generalizing p with
  | nil => rfl
  | cons hd tl ih =>
    simp only [List.foldl_cons]
    rw [ih _ (fun b hb => hk b (List.mem_cons_of_mem _ hb))]
    exact JsMap.get_set_other _ _ _ _ (fun h => hk hd (List.mem_cons_self _ _) h.symm)

/-- a fold of keyed assignments with pairwise-distinct keys records each
entry's value under its key. -/
theorem foldl_set_get_mem {α β : Type} (key : β → String)
    (entries : List β) (p : JsMap α) (g : β → α) (b : β)
    (hmem : b ∈ entries) (hnodup : (entries.map key).Nodup) :
    (entries.foldl (fun acc x => acc.set (key x) (g x)) p).get (key b) = some (g b) := by
  induction entries generalizing p with
  | nil => cases hmem
  | cons hd tl ih =>
    simp only [List.map_cons, List.nodup_cons] at hnodup
    rcases List.mem_cons.mp hmem with heq | htl
    · subst heq
      simp only [List.foldl_cons]
      rw [foldl_set_get_notmem key tl _ g (key b)
        (fun x hx h => hnodup.1 (h ▸ List.mem_map_of_mem key hx))]
      exact JsMap.get_set_same _ _ _
    · exact ih _ htl hnodup.2

/-! ## Scan unfolding lemmas

`scanTemplate` runs on `l.length` fuel; these lemmas recover the intended
recursion equations. -/

theorem tryToken_length (l : List Char) (t : String) (rem : List Char)
    (h : tryToken l = some (t, rem)) : rem.length + 4 ≤ l.length := by
  simp only [tryToken] at h
  split at h
  · rename_i rst
    split at h
    · exact absurd h (by simp)
    · split at h
      · rename_i rem2 hdrop
        cases h
        have h1 := congrArg List.length hdrop
        simp only [List.length_drop, List.length_cons] at h1 ⊢
        omega
      · exact absurd h (by simp)
  · exact absurd h (by simp)

theorem scanTemplateGo_nil (fuel : Nat) : scanTemplateGo fuel [] = [] := by
  cases fuel <;> rfl

theorem scanTemplateGo_succ_cons (fuel : Nat) (c : Char) (rest : List Char) :
    scanTemplateGo (fuel + 1) (c :: rest)
      = match tryToken (c :: rest) with
        | some (t, rem) => Chunk.tok t :: scanTemplateGo fuel rem
        | none => Chunk.lit c :: scanTemplateGo fuel rest := rfl

theorem scanTemplateGo_congr (fuel1 : Nat) :
    ∀ (fuel2 : Nat) (l : List Char), l.length ≤ fuel1 → l.length ≤ fuel2 →
      scanTemplateGo fuel1 l = scanTemplateGo fuel2 l := by
  induction fuel1 with
  | zero =>
    intro fuel2 l h1 _
    have : l = [] := List.length_eq_zero.mp (Nat.le_zero.mp h1)
    subst this
    rw [scanTemplateGo_nil, scanTemplateGo_nil]
  | succ f1 ih =>
    intro fuel2 l h1 h2
    cases l with
    | nil => rw [scanTemplateGo_nil, scanTemplateGo_nil]
    | cons c rest =>
      cases fuel2 with
      | zero => simp at h2
      | succ f2 =>
        rw [scanTemplateGo_succ_cons, scanTemplateGo_succ_cons]
        cases htt : tryToken (c :: rest) with
        | none =>
          simp only [List.length_cons] at h1 h2
          show Chunk.lit c :: scanTemplateGo f1 rest
              = Chunk.lit c :: scanTemplateGo f2 rest
          rw [ih f2 rest (by omega) (by omega)]
        | some pr =>
          obtain ⟨t, rem⟩ := pr
          have hlen := tryToken_length _ _ _ htt
          simp only [List.length_cons] at h1 h2 hlen
          show Chunk.tok t :: scanTemplateGo f1 rem
              = Chunk.tok t :: scanTemplateGo f2 rem
          rw [ih f2 rem (by omega) (by omega)]

theorem scanTemplate_cons_some (c : Char) (rest : List Char) (t : String)
    (rem : List Char) (h : tryToken (c :: rest) = some (t, rem)) :
    scanTemplate (c :: rest) = Chunk.tok t :: scanTemplate rem := by
  have hlen := tryToken_length _ _ _ h
  simp only [List.length_cons] at hlen
  show scanTemplateGo (rest.length + 1) (c :: rest) = _
  rw [scanTemplateGo_succ_cons, h]
  show Chunk.tok t :: scanTemplateGo rest.length rem = _
  rw [scanTemplateGo_congr rest.length rem.length rem (by omega) (by omega)]
  rfl

theorem scanTemplate_cons_none (c : Char) (rest : List Char)
    (h : tryToken (c :: rest) = none) :
    scanTemplate (c :: rest) = Chunk.lit c :: scanTemplate rest := by
  show scanTemplateGo (rest.length + 1) (c :: rest) = _
  rw [scanTemplateGo_succ_cons, h]
  rfl

/-! ## Transform expressions (C7, C9) -/

theorem transformExprNodeId_mk (nid : String) (hne : nid ≠ "")
    (hdot : ∀ c ∈ nid.data, regexDotOk c) :
    transformExprNodeId ("[$" ++ nid ++ ".output]") = some nid := by
  have hne' : nid.data ≠ [] := by
    intro h
    exact hne (String.ext (h.trans rfl))
  have h1 : ("[$" ++ nid ++ ".output]").data
      = '[' :: '$' :: (nid.data ++ ['.', 'o', 'u', 't', 'p', 'u', 't', ']']) := by
    have ha : ("[$" : String).data = ['[', '$'] := by decide
    have hb : ((".output]") : String).data = ['.', 'o', 'u', 't', 'p', 'u', 't', ']'] := by
      decide
    simp [String.data_append, ha, hb]
  have hn1 : 0 < nid.data.length := List.length_pos.mpr hne'
  have hd2 : List.drop 2 ('[' :: '$' :: (nid.data ++ ['.', 'o', 'u', 't', 'p', 'u', 't', ']']))
      = nid.data ++ ['.', 'o', 'u', 't', 'p', 'u', 't', ']'] := rfl
  have hl10 : ('[' :: '$' :: (nid.data ++ ['.', 'o', 'u', 't', 'p', 'u', 't', ']'])).length - 10
      = nid.data.length := by
    simp
  have h11 : 11 ≤ ('[' :: '$' :: (nid.data ++ ['.', 'o', 'u', 't', 'p', 'u', 't', ']'])).length := by
    simp only [List.length_cons, List.length_append]
    omega
  have hdropall : List.drop
      (('[' :: '$' :: (nid.data ++ ['.', 'o', 'u', 't', 'p', 'u', 't', ']'])).length - 8)
      ('[' :: '$' :: (nid.data ++ ['.', 'o', 'u', 't', 'p', 'u', 't', ']']))
      = ['.', 'o', 'u', 't', 'p', 'u', 't', ']'] := by
    have hassoc : ('[' :: '$' :: (nid.data ++ ['.', 'o', 'u', 't', 'p', 'u', 't', ']']))
        = ('[' :: '$' :: nid.data) ++ ['.', 'o', 'u', 't', 'p', 'u', 't', ']'] := by simp
    have h8 : ('[' :: '$' :: (nid.data ++ ['.', 'o', 'u', 't', 'p', 'u', 't', ']'])).length - 8
        = (('[' :: '$' :: nid.data) : List Char).length := by
      simp only [List.length_cons, List.length_append, List.length_nil]
      omega
    rw [h8]
    conv =>
      lhs
      rw [hassoc]
    rw [List.drop_left]
  have htake : List.take
      (('[' :: '$' :: (nid.data ++ ['.', 'o', 'u', 't', 'p', 'u', 't', ']'])).length - 10)
      (List.drop 2 ('[' :: '$' :: (nid.data ++ ['.', 'o', 'u', 't', 'p', 'u', 't', ']'])))
      = nid.data := by
    rw [hl10, hd2, List.take_left]
  have hall : (List.take
      (('[' :: '$' :: (nid.data ++ ['.', 'o', 'u', 't', 'p', 'u', 't', ']'])).length - 10)
      (List.drop 2 ('[' :: '$' :: (nid.data ++ ['.', 'o', 'u', 't', 'p', 'u', 't', ']'])))).all
        regexDotOk = true := by
    rw [htake]
    exact List.all_eq_true.mpr hdot
  simp only [transformExprNodeId, h1]
  rw [if_pos ⟨rfl, h11, hdropall, hall⟩, htake]

theorem transformExprNodeId_some (expr nid : String)
    (h : transformExprNodeId expr = some nid) :
    nid ≠ "" ∧ (∀ c ∈ nid.data, regexDotOk c) ∧ expr = "[$" ++ nid ++ ".output]" := by
  simp only [transformExprNodeId] at h
  split at h
  · rename_i hc
    obtain ⟨hc1, hc2, hc3, hc4⟩ := hc
    injection h with hnid
    have hmidlen : ((expr.data.drop 2).take (expr.data.length - 10)).length
        = expr.data.length - 10 := by
      rw [List.length_take, List.length_drop]
      omega
    have hne : nid ≠ "" := by
      intro hcontr
      rw [hcontr] at hnid
      have hmid : (expr.data.drop 2).take (expr.data.length - 10) = [] := by
        have hd := congrArg String.data hnid
        simpa using hd
      rw [hmid] at hmidlen
      simp only [List.length_nil] at hmidlen
      omega
    refine ⟨hne, ?_, ?_⟩
    · intro c hc
      have hmem : c ∈ (expr.data.drop 2).take (expr.data.length - 10) := by
        rw [← hnid] at hc
        exact hc
      exact List.all_eq_true.mp hc4 c hmem
    · apply String.ext
      have hsplit : expr.data = expr.data.take 2 ++ expr.data.drop 2 :=
        (List.take_append_drop 2 expr.data).symm
      have hsplit2 : expr.data.drop 2
          = ((expr.data.drop 2).take (expr.data.length - 10))
            ++ ((expr.data.drop 2).drop (expr.data.length - 10)) :=
        (List.take_append_drop _ _).symm
      have hdd : (expr.data.drop 2).drop (expr.data.length - 10)
          = expr.data.drop (expr.data.length - 8) := by
        rw [List.drop_drop]
        congr 1
        omega
      have ha : ("[$" : String).data = ['[', '$'] := by decide
      have hb : ((".output]") : String).data = ['.', 'o', 'u', 't', 'p', 'u', 't', ']'] := by
        decide
      have hmkdata : (String.mk ((expr.data.drop 2).take (expr.data.length - 10))).data
          = (expr.data.drop 2).take (expr.data.length - 10) := rfl
      rw [String.data_append, String.data_append, ha, hb, ← hc1, ← hnid, hmkdata,
        ← hc3, List.append_assoc, ← hdd, ← hsplit2, ← hsplit]
  · exact absurd h (by simp)

theorem parseTransformExpression_of_some (expr nid : String) (outs : JsMap Value)
    (h : transformExprNodeId expr = some nid) :
    parseTransformExpression expr outs = .vArr [outs.getD nid .vUndef] := by
  have hne := (transformExprNodeId_some expr nid h).1
  simp [parseTransformExpression, h, hne]

theorem parseTransformExpression_of_none (expr : String) (outs : JsMap Value)
    (h : transformExprNodeId expr = none) :
    parseTransformExpression expr outs = .vStr expr := by
  simp [parseTransformExpression, h]

theorem transformExprNodeId_none_iff (expr : String) :
    transformExprNodeId expr = none ↔
      ¬ ∃ nid : String, nid ≠ "" ∧ (∀ c ∈ nid.data, regexDotOk c) ∧
        expr = "[$" ++ nid ++ ".output]" := by
  constructor
  · rintro h ⟨nid, hne, hdot, heq⟩
    rw [heq, transformExprNodeId_mk nid hne hdot] at h
    cases h
  · intro h
    cases hcase : transformExprNodeId expr with
    | none => rfl
    | some nid =>
      obtain ⟨hne, hdot, heq⟩ := transformExprNodeId_some expr nid hcase
      exact absurd ⟨nid, hne, hdot, heq⟩ h

/-- the Transform branch of `runNode` succeeds and assigns the evaluated
expressions into the state patch. -/
theorem runNode_transform_assigns (jsonParse : String → Except String Value)
    (providers : JsMap LlmProvider) (eventId : String) (state : JsMap Value)
    (id : String) (mapToState : List (String × String)) (ctx : ExecCtx)
    (k e : String) (hmem : (k, e) ∈ mapToState)
    (hnodup : (mapToState.map Prod.fst).Nodup) :
    (runNode jsonParse providers eventId state (.transform id mapToState) ctx).1
        = .ok () ∧
    (runNode jsonParse providers eventId state
        (.transform id mapToState) ctx).2.statePatch.get k
      = some (parseTransformExpression e ctx.nodeOutputs) := by
  constructor
  · rfl
  · have h := foldl_set_get_mem Prod.fst mapToState ctx.statePatch
      (fun kv => parseTransformExpression kv.2 ctx.nodeOutputs) (k, e) hmem hnodup
    exact h

/--
**C7.** For every Transform node and node-outputs map, evaluating a mapping
expression recognizes exactly one form: a string matching
`[$<nodeId>.output]` — i.e. `"[$" ++ nodeId ++ ".output]"` with a non-empty
node id free of line terminators — evaluates to the one-element array
wrapping that node's recorded output, and every other string evaluates to
itself (literal passthrough); the evaluated value is assigned into
`statePatch` under the mapping's target key.
-/
theorem C7_transform_expression_grammar (outs : JsMap Value) :
    (∀ nid : String, nid ≠ "" → (∀ c ∈ nid.data, regexDotOk c) →
      parseTransformExpression ("[$" ++ nid ++ ".output]") outs
        = .vArr [outs.getD nid .vUndef]) ∧
    (∀ expr : String, transformExprNodeId expr = none →
      parseTransformExpression expr outs = .vStr expr) ∧
    (∀ expr : String, transformExprNodeId expr = none ↔
      ¬ ∃ nid : String, nid ≠ "" ∧ (∀ c ∈ nid.data, regexDotOk c) ∧
        expr = "[$" ++ nid ++ ".output]") ∧
    (∀ (jsonParse : String → Except String Value) (providers : JsMap LlmProvider)
      (eventId : String) (state : JsMap Value) (id : String)
      (mapToState : List (String × String)) (ctx : ExecCtx) (k e : String),
      (k, e) ∈ mapToState → (mapToState.map Prod.fst).Nodup →
      (runNode jsonParse providers eventId state (.transform id mapToState) ctx).1
          = .ok () ∧
      (runNode jsonParse providers eventId state
          (.transform id mapToState) ctx).2.statePatch.get k
        = some (parseTransformExpression e ctx.nodeOutputs)) := by
  refine ⟨?_, ?_, ?_, ?_⟩
  · intro nid hne hdot
    exact parseTransformExpression_of_some _ nid outs (transformExprNodeId_mk nid hne hdot)
  · intro expr h
    exact parseTransformExpression_of_none expr outs h
  · intro expr
    exact transformExprNodeId_none_iff expr
  · intro jsonParse providers eventId state id mapToState ctx k e hmem hnodup
    exact runNode_transform_assigns jsonParse providers eventId state id mapToState ctx
      k e hmem hnodup

/-- Witness for C7 at concrete inputs. -/
theorem C7_transform_expression_grammar_witness :
    parseTransformExpression "[$n2.output]" ⟨[("n2", .vStr "r")]⟩
        = .vArr [.vStr "r"] ∧
    parseTransformExpression "hello" ⟨[("n2", .vStr "r")]⟩ = .vStr "hello" ∧
    (runNode (fun _ => .error "") JsMap.empty "e" JsMap.empty
        (.transform "n3" [("rows", "[$n2.output]")])
        ⟨JsMap.empty, ⟨[("n2", .vStr "r")]⟩, [], []⟩).2.statePatch.get "rows"
      = some (.vArr [.vStr "r"]) := by
  refine ⟨?_, ?_, ?_⟩
  · have h := (C7_transform_expression_grammar ⟨[("n2", .vStr "r")]⟩).1 "n2"
      (by decide) (by decide)
    have heq : ("[$" ++ "n2" ++ ".output]" : String) = "[$n2.output]" := by decide
    rw [heq] at h
    rw [h]
    rfl
  · exact (C7_transform_expression_grammar ⟨[("n2", .vStr "r")]⟩).2.1 "hello" (by decide)
  · have h := ((C7_transform_expression_grammar ⟨[("n2", .vStr "r")]⟩).2.2.2
      (fun _ => .error "") JsMap.empty "e" JsMap.empty "n3"
      [("rows", "[$n2.output]")] ⟨JsMap.empty, ⟨[("n2", .vStr "r")]⟩, [], []⟩
      "rows" "[$n2.output]" (by decide) (by decide)).2
    rw [h]
    rfl

/--
**C9.** For every Transform expression of the form `[$<nodeId>.output]` whose
node id has no entry in the node-outputs map, evaluation does not raise an
error: the Transform node runs successfully and assigns into `statePatch` a
one-element array whose single element is the absent (`undefined`) value.
-/
theorem C9_transform_missing_node_output
    (jsonParse : String → Except String Value) (providers : JsMap LlmProvider)
    (eventId : String) (state : JsMap Value) (id : String)
    (mapToState : List (String × String)) (ctx : ExecCtx)
    (k expr nid : String) (hmem : (k, expr) ∈ mapToState)
    (hnodup : (mapToState.map Prod.fst).Nodup)
    (hexpr : transformExprNodeId expr = some nid)
    (hmissing : ctx.nodeOutputs.get nid = none) :
    (runNode jsonParse providers eventId state (.transform id mapToState) ctx).1
        = .ok () ∧
    (runNode jsonParse providers eventId state
        (.transform id mapToState) ctx).2.statePatch.get k
      = some (.vArr [.vUndef]) := by
  obtain ⟨hok, hget⟩ := runNode_transform_assigns jsonParse providers eventId state
    id mapToState ctx k expr hmem hnodup
  refine ⟨hok, ?_⟩
  rw [hget, parseTransformExpression_of_some expr nid ctx.nodeOutputs hexpr]
  simp [JsMap.getD, hmissing]

/-- Witness for C9: a transform referencing a node that never executed. -/
theorem C9_transform_missing_node_output_witness :
    (runNode (fun _ => .error "") JsMap.empty "e" JsMap.empty
        (.transform "n3" [("rows", "[$ghost.output]")])
        ⟨JsMap.empty, JsMap.empty, [], []⟩).1 = .ok () ∧
    (runNode (fun _ => .error "") JsMap.empty "e" JsMap.empty
        (.transform "n3" [("rows", "[$ghost.output]")])
        ⟨JsMap.empty, JsMap.empty, [], []⟩).2.statePatch.get "rows"
      = some (.vArr [.vUndef]) :=
  C9_transform_missing_node_output (fun _ => .error "") JsMap.empty "e" JsMap.empty
    "n3" [("rows", "[$ghost.output]")] ⟨JsMap.empty, JsMap.empty, [], []⟩
    "rows" "[$ghost.output]" "ghost" (by decide) (by decide) (by decide) rfl

/-! ## Interpolation and the PromptTask variable map (C10, C4) -/

theorem buildVariableMap_foldl_get (vars : List String) (state : JsMap Value)
    (m : JsMap Value) (v : String) :
    (vars.foldl (fun (acc : JsMap Value) x => acc.set x (state.getD x .vUndef)) m).get v
      = if v ∈ vars then some (state.getD v .vUndef) else m.get v := by
  induction vars generalizing m with
  | nil => simp
  | cons hd tl ih =>
    simp only [List.foldl_cons]
    rw [ih]
    by_cases htl : v ∈ tl
    · simp [htl, List.mem_cons]
    · by_cases hhd : v = hd
      · subst hhd
        simp [htl, JsMap.get_set]
      · simp [htl, hhd, JsMap.get_set_other _ _ _ _ hhd]

theorem buildVariableMap_get (vars : List String) (state : JsMap Value) (v : String) :
    (buildVariableMap vars state).get v
      = if v ∈ vars then some (state.getD v .vUndef) else none :=
  buildVariableMap_foldl_get vars state JsMap.empty v

theorem interpolateChunks_ok_of_bound (vars : JsMap Value) (chunks : List Chunk)
    (h : ∀ t, Chunk.tok t ∈ chunks → (vars.get t).isSome) :
    ∃ r, interpolateChunks vars chunks = .ok r := by
  induction chunks with
  | nil => exact ⟨[], rfl⟩
  | cons hd tl ih =>
    obtain ⟨r, hr⟩ := ih (fun t ht => h t (List.mem_cons_of_mem _ ht))
    cases hd with
    | lit c =>
      exact ⟨c :: r, by simp [interpolateChunks, hr, Except.map]⟩
    | tok t =>
      have hs := h t (List.mem_cons_self _ _)
      cases hv : vars.get t with
      | none => rw [hv] at hs; cases hs
      | some v =>
        exact ⟨(replacementText v).data ++ r, by simp [interpolateChunks, hv, hr, Except.map]⟩

theorem interpolateChunks_error_token (vars : JsMap Value) (chunks : List Chunk)
    (e : String) (h : interpolateChunks vars chunks = .error e) :
    ∃ t, Chunk.tok t ∈ chunks ∧ vars.get t = none ∧
      e = "Missing template variable '" ++ t ++ "'." := by
  induction chunks with
  | nil => cases h
  | cons hd tl ih =>
    cases hd with
    | lit c =>
      simp only [interpolateChunks] at h
      cases htl : interpolateChunks vars tl with
      | ok r => rw [htl] at h; cases h
      | error e' =>
        rw [htl] at h
        cases h
        obtain ⟨t, ht, hv, he⟩ := ih htl
        exact ⟨t, List.mem_cons_of_mem _ ht, hv, he⟩
    | tok t =>
      simp only [interpolateChunks] at h
      cases hv : vars.get t with
      | none =>
        rw [hv] at h
        cases h
        exact ⟨t, List.mem_cons_self _ _, hv, rfl⟩
      | some v =>
        rw [hv] at h
        cases htl : interpolateChunks vars tl with
        | ok r => rw [htl] at h; cases h
        | error e' =>
          rw [htl] at h
          cases h
          obtain ⟨t', ht, hv', he⟩ := ih htl
          exact ⟨t', List.mem_cons_of_mem _ ht, hv', he⟩

theorem tok_mem_iff_collect (template : String) (t : String) :
    Chunk.tok t ∈ scanTemplate template.data ↔ t ∈ collectTemplateTokens template := by
  simp only [collectTemplateTokens, List.mem_filterMap]
  constructor
  · intro h
    exact ⟨Chunk.tok t, h, rfl⟩
  · rintro ⟨ch, hmem, hch⟩
    cases ch with
    | lit c => cases hch
    | tok t' =>
      simp only at hch
      injection hch with h
      subst h
      exact hmem

/--
**C10.** The interpreter inserts every declared PromptTask variable into the
interpolation map, binding it to the state's value even when the state lacks
the key; interpolating a template token that names a declared variable
therefore never raises "missing template variable" — that error can only
arise from a token outside the declared variable list — and a declared
variable absent from the state interpolates as the rendering of the absent
value (`"undefined"`) rather than failing.  (`runNode` delegates to
`buildVariableMap` for its PromptTask branch.)
-/
theorem C10_declared_variables_always_bound (vars : List String)
    (state : JsMap Value) (template : String) :
    (∀ v ∈ vars, (buildVariableMap vars state).get v = some (state.getD v .vUndef)) ∧
    ((∀ t ∈ collectTemplateTokens template, t ∈ vars) →
      ∃ r, interpolateTemplate template (buildVariableMap vars state) = .ok r) ∧
    (∀ e, interpolateTemplate template (buildVariableMap vars state) = .error e →
      ∃ t, t ∈ collectTemplateTokens template ∧ t ∉ vars ∧
        e = "Missing template variable '" ++ t ++ "'.") ∧
    (∀ v ∈ vars, state.get v = none →
      (buildVariableMap vars state).get v = some .vUndef ∧
      replacementText .vUndef = "undefined") := by
  refine ⟨?_, ?_, ?_, ?_⟩
  · intro v hv
    simp [buildVariableMap_get, hv]
  · intro h
    have hb : ∀ t, Chunk.tok t ∈ scanTemplate template.data →
        ((buildVariableMap vars state).get t).isSome := by
      intro t ht
      have hmem := h t ((tok_mem_iff_collect template t).mp ht)
      simp [buildVariableMap_get, hmem]
    obtain ⟨r, hr⟩ := interpolateChunks_ok_of_bound (buildVariableMap vars state)
      (scanTemplate template.data) hb
    exact ⟨String.mk r, by simp [interpolateTemplate, hr, Except.map]⟩
  · intro e he
    simp only [interpolateTemplate, Except.map] at he
    cases hc : interpolateChunks (buildVariableMap vars state) (scanTemplate template.data) with
    | ok r => rw [hc] at he; cases he
    | error e' =>
      rw [hc] at he
      cases he
      obtain ⟨t, ht, hv, hmsg⟩ := interpolateChunks_error_token _ _ _ hc
      refine ⟨t, (tok_mem_iff_collect template t).mp ht, ?_, hmsg⟩
      intro hcontr
      rw [buildVariableMap_get] at hv
      simp [hcontr] at hv
  · intro v hv habs
    refine ⟨?_, rfl⟩
    rw [buildVariableMap_get]
    simp [hv, JsMap.getD, habs]

/-- Witness for C10: the declared variable `a` is absent from the state, yet
interpolation succeeds. -/
theorem C10_declared_variables_always_bound_witness :
    (buildVariableMap ["a"] ⟨[]⟩).get "a" = some (JsMap.getD ⟨[]⟩ "a" .vUndef) ∧
    (∃ r, interpolateTemplate "x {{a}} y" (buildVariableMap ["a"] ⟨[]⟩) = .ok r) ∧
    (buildVariableMap ["a"] ⟨[]⟩).get "a" = some .vUndef :=
  ⟨(C10_declared_variables_always_bound ["a"] ⟨[]⟩ "x {{a}} y").1 "a" (by decide),
   (C10_declared_variables_always_bound ["a"] ⟨[]⟩ "x {{a}} y").2.1 (by decide),
   ((C10_declared_variables_always_bound ["a"] ⟨[]⟩ "x {{a}} y").2.2.2 "a"
     (by decide) rfl).1⟩

/--
**C4 counterexample.** On an input whose template contains an unbound token
(`{{x}}` with an empty variable map) and whose policy names an unregistered
provider (`nope` against an empty registry), `executePromptTask` raises the
unknown-provider error, not the missing-template-variable error the claim
requires: the provider lookup precedes interpolation.
-/
theorem C4_counterexample_provider_checked_first :
    interpolateTemplate "{{x}}" JsMap.empty
        = .error "Missing template variable 'x'." ∧
    (executePromptTask (fun _ => .error "no json")
        ⟨"{{x}}", JsMap.empty, (fun v => .ok v), ⟨"nope", "m", none⟩⟩ JsMap.empty
      = .error "Unknown provider 'nope'.") ∧
    ("Unknown provider 'nope'." : String) ≠ "Missing template variable 'x'." := by
  refine ⟨rfl, rfl, by decide⟩

/--
**C4 (amended).** The Prompt Orchestrator looks up `modelPolicy.provider`
first, failing fatally with "unknown provider" when absent; only afterwards
does it interpolate the template (string values verbatim, other values by
their JSON text, failing with "missing template variable" at the first
unbound token).  On an input with both an unbound token and an unregistered
provider, the unknown-provider failure is the one raised.
-/
theorem C4_provider_lookup_precedes_interpolation
    (jsonParse : String → Except String Value) (req : PromptExecutionRequest)
    (providers : JsMap LlmProvider) :
    (providers.get req.modelPolicy.provider = none →
      executePromptTask jsonParse req providers
        = .error ("Unknown provider '" ++ req.modelPolicy.provider ++ "'.")) ∧
    (∀ p e, providers.get req.modelPolicy.provider = some p →
      interpolateTemplate req.template req.variables = .error e →
      executePromptTask jsonParse req providers = .error e) := by
  constructor
  · intro h
    simp [executePromptTask, h]
  · intro p e hp he
    simp [executePromptTask, hp, he, Except.bind]

/-- Witness for C4 (amended) at concrete inputs. -/
theorem C4_provider_lookup_precedes_interpolation_witness :
    executePromptTask (fun _ => .error "no json")
        ⟨"{{x}}", JsMap.empty, (fun v => .ok v), ⟨"nope", "m", none⟩⟩ JsMap.empty
      = .error ("Unknown provider '" ++ "nope" ++ "'.") ∧
    executePromptTask (fun _ => .error "no json")
        ⟨"{{x}}", JsMap.empty, (fun v => .ok v), ⟨"mock", "m", none⟩⟩
        ⟨[("mock", fun _ => .ok ⟨"{}", []⟩)]⟩
      = .error "Missing template variable 'x'." :=
  ⟨(C4_provider_lookup_precedes_interpolation (fun _ => .error "no json")
      ⟨"{{x}}", JsMap.empty, (fun v => .ok v), ⟨"nope", "m", none⟩⟩ JsMap.empty).1 rfl,
   (C4_provider_lookup_precedes_interpolation (fun _ => .error "no json")
      ⟨"{{x}}", JsMap.empty, (fun v => .ok v), ⟨"mock", "m", none⟩⟩
      ⟨[("mock", fun _ => .ok ⟨"{}", []⟩)]⟩).2
      (fun _ => .ok ⟨"{}", []⟩) "Missing template variable 'x'." rfl rfl⟩

/-! ## Alias Canonicalizer (C6, C8) -/

theorem aliasStepIR_get (m : JsMap String) (c : UIComponent) (k : String) :
    (aliasStepIR m c).get k
      = if k ∈ aliasKeys c then some (componentStateKey c) else m.get k := by
  cases c with
  | textArea id label sk =>
    simp only [aliasStepIR, aliasKeys, componentStateKey, JsMap.get_set]
    by_cases h1 : k = normalizeKey label <;>
      by_cases h2 : k = normalizeKey sk <;>
      by_cases h3 : k = label <;>
      by_cases h4 : k = sk <;>
      simp [h1, h2, h3, h4]
  | button id label events => simp [aliasStepIR, aliasKeys]
  | dataTable id label dataKey => simp [aliasStepIR, aliasKeys]

theorem aliasStepV_get (m : JsMap String) (c : UIComponent) (k : String) :
    (aliasStepV m c).get k
      = if k ∈ aliasKeys c then some (componentStateKey c) else m.get k := by
  cases c with
  | textArea id label sk =>
    simp only [aliasStepV, aliasKeys, componentStateKey, JsMap.get_set]
    by_cases h1 : k = normalizeKey label <;>
      by_cases h2 : k = normalizeKey sk <;>
      by_cases h3 : k = label <;>
      by_cases h4 : k = sk <;>
      simp [h1, h2, h3, h4]
  | button id label events => simp [aliasStepV, aliasKeys]
  | dataTable id label dataKey => simp [aliasStepV, aliasKeys]

/-- both alias-map folds look up to the last contributing component. -/
theorem aliasFoldl_get (step : JsMap String → UIComponent → JsMap String)
    (hstep : ∀ m c k, (step m c).get k
      = if k ∈ aliasKeys c then some (componentStateKey c) else m.get k)
    (comps : List UIComponent) (m : JsMap String) (k : String) :
    (comps.foldl step m).get k
      = match comps.reverse.find? (fun c => decide (k ∈ aliasKeys c)) with
        | some c => some (componentStateKey c)
        | none => m.get k := by
  induction comps generalizing m with
  | nil => simp
  | cons c rest ih =>
    simp only [List.foldl_cons, List.reverse_cons]
    rw [ih, List.find?_append]
    cases hf : rest.reverse.find? (fun c => decide (k ∈ aliasKeys c)) with
    | some d => simp
    | none =>
      simp only [Option.none_orElse]
      by_cases hp : k ∈ aliasKeys c
      · simp [List.find?, hp, hstep]
      · simp [List.find?, hp, hstep]

/-- the two textually separate `buildAliasMap` copies define the same
lookup function. -/
theorem buildAliasMap_agree (comps : List UIComponent) (k : String) :
    (buildAliasMapIR comps).get k = (buildAliasMapV comps).get k := by
  rw [buildAliasMapIR, buildAliasMapV, aliasFoldl_get aliasStepIR aliasStepIR_get,
    aliasFoldl_get aliasStepV aliasStepV_get]

theorem aliasCollisionFree_symm :
    Symmetric (fun c d : UIComponent => ∀ k ∈ aliasKeys c, k ∉ aliasKeys d) :=
  fun _ _ hab k hkb hka => hab k hka hkb

/-- under collision-freedom, any two components claiming the same alias key
resolve it to the same canonical state key. -/
theorem aliasOwner_unique (comps : List UIComponent)
    (hfree : AliasCollisionFree comps) (c d : UIComponent)
    (hc : c ∈ comps) (hd : d ∈ comps) (k : String)
    (hkc : k ∈ aliasKeys c) (hkd : k ∈ aliasKeys d) :
    componentStateKey c = componentStateKey d := by
  rcases eq_or_ne c d with heq | hne
  · rw [heq]
  · exact absurd hkd (hfree.forall aliasCollisionFree_symm hc hd hne k hkc)

theorem buildAliasMapV_get_owner (comps : List UIComponent)
    (hfree : AliasCollisionFree comps) (c : UIComponent) (hc : c ∈ comps)
    (k : String) (hkc : k ∈ aliasKeys c) :
    (buildAliasMapV comps).get k = some (componentStateKey c) := by
  rw [buildAliasMapV, aliasFoldl_get aliasStepV aliasStepV_get]
  cases hf : comps.reverse.find? (fun d => decide (k ∈ aliasKeys d)) with
  | none =>
    rw [List.find?_eq_none] at hf
    exact absurd (decide_eq_true_eq.mpr hkc)
      (by simpa using hf c (List.mem_reverse.mpr hc))
  | some d =>
    have hd : d ∈ comps := List.mem_reverse.mp (List.mem_of_find?_eq_some hf)
    have hpd : k ∈ aliasKeys d := by
      have := List.find?_some hf
      simpa using this
    simpa using aliasOwner_unique comps hfree d c hd hc k hpd hkc

theorem buildAliasMapV_get_none (comps : List UIComponent) (k : String)
    (h : ∀ c ∈ comps, k ∉ aliasKeys c) :
    (buildAliasMapV comps).get k = none := by
  rw [buildAliasMapV, aliasFoldl_get aliasStepV aliasStepV_get]
  have hf : comps.reverse.find? (fun d => decide (k ∈ aliasKeys d)) = none := by
    rw [List.find?_eq_none]
    intro d hd
    simpa using h d (List.mem_reverse.mp hd)
  rw [hf]
  rfl

/--
**C6 counterexample.** Two application descriptions that differ only in the
ordering of the UI component list both pass the Diagnostics Validator with
zero `error`-severity diagnostics (duplicate *labels* are not checked), yet
their validator-derived alias maps resolve the shared label `L` to different
canonical keys — so error-free validation does not make the alias map
order-independent.
-/
theorem C6_counterexample_duplicate_labels :
    hasErrorDiag (parseAndValidate c6AppA) = false ∧
    hasErrorDiag (parseAndValidate c6AppB) = false ∧
    c6AppB = { c6AppA with components := c6AppA.components.reverse } ∧
    (buildAliasMapV c6AppA.components).get "L" = some "k2" ∧
    (buildAliasMapV c6AppB.components).get "L" = some "k1" ∧
    (some "k2" : Option String) ≠ some "k1" := by
  refine ⟨by decide, by decide, rfl, by decide, by decide, by decide⟩

/--
**C6 (amended).** For every pair of application descriptions that differ only
in the ordering of the UI component list, if the Diagnostics Validator
returns no error-severity diagnostic for either input **and no alias key
(raw or normalized label or state key) is claimed by two distinct
components**, then the derived alias maps are identical as lookup functions
— for the validator's copy and the IR normalizer's copy alike.
-/
theorem C6_alias_maps_order_independent (app : AppDefinition)
    (comps2 : List UIComponent) (hperm : app.components.Perm comps2)
    (hfree : AliasCollisionFree app.components)
    (_hok1 : hasErrorDiag (parseAndValidate app) = false)
    (_hok2 : hasErrorDiag (parseAndValidate { app with components := comps2 }) = false) :
    ∀ k, (buildAliasMapV app.components).get k = (buildAliasMapV comps2).get k ∧
      (buildAliasMapIR app.components).get k = (buildAliasMapIR comps2).get k := by
  intro k
  have hfree2 : AliasCollisionFree comps2 :=
    (hperm.pairwise_iff (fun hab k hka hkb => hab k hkb hka)).mp hfree
  suffices hv : (buildAliasMapV app.components).get k = (buildAliasMapV comps2).get k by
    exact ⟨hv, by rw [buildAliasMap_agree, buildAliasMap_agree, hv]⟩
  by_cases hex : ∃ c ∈ app.components, k ∈ aliasKeys c
  · obtain ⟨c, hc, hkc⟩ := hex
    rw [buildAliasMapV_get_owner _ hfree c hc k hkc,
      buildAliasMapV_get_owner _ hfree2 c (hperm.mem_iff.mp hc) k hkc]
  · push_neg at hex
    rw [buildAliasMapV_get_none _ k hex,
      buildAliasMapV_get_none comps2 k (fun c hc => hex c (hperm.mem_iff.mpr hc))]

/-- Witness for C6 (amended): a collision-free app, reversed. -/
theorem C6_alias_maps_order_independent_witness :
    (buildAliasMapV c6AppW.components).get "Label One"
        = (buildAliasMapV c6AppW.components.reverse).get "Label One" ∧
    (buildAliasMapIR c6AppW.components).get "Label One"
        = (buildAliasMapIR c6AppW.components.reverse).get "Label One" :=
  C6_alias_maps_order_independent c6AppW c6AppW.components.reverse
    (by decide) (by decide) (by decide) (by decide) "Label One"

/--
**C8 counterexample.** `c8Comps` contains a TextArea with label `L` and
state key `k`, but a later TextArea uses `k` as its *label*: the token `L`
resolves to `k` while the token `k` resolves to `b` — referencing the
component by label and by state key does **not** reach the same canonical
key, in the IR normalizer and the validator alike.
-/
theorem C8_counterexample_alias_shadowing :
    (UIComponent.textArea "c1" "L" "k") ∈ c8Comps ∧
    canonicalVar "L" (buildAliasMapIR c8Comps) = "k" ∧
    canonicalVar "k" (buildAliasMapIR c8Comps) = "b" ∧
    resolvePromptVar (buildAliasMapV c8Comps) "L" = "k" ∧
    resolvePromptVar (buildAliasMapV c8Comps) "k" = "b" ∧
    ("k" : String) ≠ "b" := by
  refine ⟨by decide, by decide, by decide, by decide, by decide, by decide⟩

/--
**C8 (amended).** For every app containing a TextArea with label `L` and
state key `K`, **provided no alias key is claimed by two distinct
components**, a PromptTask token referencing the component by label `L`
validates and normalizes to the same canonical state-model key as a token
referencing it by state key `K` (namely `K`): both resolve to `K` in the
validator (`resolvePromptVar`) and the IR normalizer (`canonicalVar`), and
whenever `K` is a state-model key, a PromptTask whose template tokens and
declared variables reference the component by either name passes the
validator's `UNKNOWN_PROMPT_VARIABLE` check with no diagnostic.  Resolution
tries an exact raw match first, then a normalized match, and otherwise
returns the token unchanged — identically in both copies.
-/
theorem C8_label_statekey_roundtrip (comps : List UIComponent) (id L K : String)
    (hfree : AliasCollisionFree comps)
    (hmem : UIComponent.textArea id L K ∈ comps) :
    (canonicalVar L (buildAliasMapIR comps) = K ∧
     canonicalVar K (buildAliasMapIR comps) = K ∧
     resolvePromptVar (buildAliasMapV comps) L = K ∧
     resolvePromptVar (buildAliasMapV comps) K = K) ∧
    (∀ (raw : String) (aliases : JsMap String),
      (∀ v, aliases.get raw = some v → canonicalVar raw aliases = v) ∧
      (aliases.get raw = none → ∀ v, aliases.get (normalizeKey raw) = some v →
        canonicalVar raw aliases = v) ∧
      (aliases.get raw = none → aliases.get (normalizeKey raw) = none →
        canonicalVar raw aliases = raw) ∧
      resolvePromptVar aliases raw = canonicalVar raw aliases) ∧
    (∀ (stateKeys : List String), K ∈ stateKeys →
      ∀ (eventId nid : String) (spec : PromptSpec),
        (∀ t ∈ collectTemplateTokens spec.template, t = L ∨ t = K) →
        (∀ v ∈ spec.variables, v = L ∨ v = K) →
        promptVarDiags (buildAliasMapV comps) stateKeys eventId
          (.promptTask nid spec) = []) := by
  have hL : (buildAliasMapV comps).get L = some K :=
    buildAliasMapV_get_owner comps hfree _ hmem L (by simp [aliasKeys])
  have hK : (buildAliasMapV comps).get K = some K :=
    buildAliasMapV_get_owner comps hfree _ hmem K (by simp [aliasKeys])
  have hres : ∀ t, t = L ∨ t = K → resolvePromptVar (buildAliasMapV comps) t = K := by
    rintro t (rfl | rfl)
    · simp [resolvePromptVar, hL]
    · simp [resolvePromptVar, hK]
  refine ⟨⟨?_, ?_, ?_, ?_⟩, ?_, ?_⟩
  · simp [canonicalVar, buildAliasMap_agree, hL]
  · simp [canonicalVar, buildAliasMap_agree, hK]
  · simp [resolvePromptVar, hL]
  · simp [resolvePromptVar, hK]
  · intro raw aliases
    refine ⟨?_, ?_, ?_, rfl⟩
    · intro v hv
      simp [canonicalVar, hv]
    · intro h0 v hv
      simp [canonicalVar, h0, hv]
    · intro h0 h1
      simp [canonicalVar, h0, h1]
  · intro stateKeys hKmem eventId nid spec htok hvar
    show (collectTemplateTokens spec.template).filterMap (fun token =>
        if resolvePromptVar (buildAliasMapV comps) token ∈ stateKeys then none
        else some (Diagnostic.mk "UNKNOWN_PROMPT_VARIABLE" .error
          ("events." ++ eventId ++ ".actionGraph.nodes." ++ nid ++ ".promptSpec.template")
          ("Prompt variable '\x7b\x7b" ++ token ++
            "\x7d\x7d' does not map to a known state key.")))
      ++ spec.variables.filterMap (fun v =>
        if resolvePromptVar (buildAliasMapV comps) v ∈ stateKeys then none
        else some (Diagnostic.mk "UNKNOWN_PROMPT_VARIABLE" .error
          ("events." ++ eventId ++ ".actionGraph.nodes." ++ nid ++ ".promptSpec.variables")
          ("Prompt variable '" ++ v ++ "' does not map to a known state key."))) = []
    rw [List.filterMap_eq_nil_iff.mpr (fun t ht => by
        rw [if_pos (by rw [hres t (htok t ht)]; exact hKmem)]),
      List.filterMap_eq_nil_iff.mpr (fun v hv => by
        rw [if_pos (by rw [hres v (hvar v hv)]; exact hKmem)])]
    rfl

/-- Witness for C8 (amended): the spec's own example component, including the
scenario PromptTask's template passing the prompt-variable check. -/
theorem C8_label_statekey_roundtrip_witness :
    canonicalVar "Customer Complaint"
        (buildAliasMapIR [.textArea "c1" "Customer Complaint" "customerComplaint"])
      = "customerComplaint" ∧
    resolvePromptVar
        (buildAliasMapV [.textArea "c1" "Customer Complaint" "customerComplaint"])
        "Customer Complaint"
      = "customerComplaint" ∧
    promptVarDiags
        (buildAliasMapV [.textArea "c1" "Customer Complaint" "customerComplaint"])
        ["customerComplaint"] "evt_analyze_click"
        (.promptTask "n2"
          ⟨"Analyze {{Customer Complaint}} and return JSON.",
            ["Customer Complaint"], ⟨"mock", "mock-v1", some 0⟩, ⟨[]⟩⟩)
      = [] :=
  ⟨(C8_label_statekey_roundtrip
      [.textArea "c1" "Customer Complaint" "customerComplaint"]
      "c1" "Customer Complaint" "customerComplaint" (by decide) (by decide)).1.1,
   (C8_label_statekey_roundtrip
      [.textArea "c1" "Customer Complaint" "customerComplaint"]
      "c1" "Customer Complaint" "customerComplaint" (by decide) (by decide)).1.2.2.1,
   (C8_label_statekey_roundtrip
      [.textArea "c1" "Customer Complaint" "customerComplaint"]
      "c1" "Customer Complaint" "customerComplaint" (by decide) (by decide)).2.2
     ["customerComplaint"] (by decide) "evt_analyze_click" "n2"
     ⟨"Analyze {{Customer Complaint}} and return JSON.",
       ["Customer Complaint"], ⟨"mock", "mock-v1", some 0⟩, ⟨[]⟩⟩
     (by decide) (by decide)⟩

/-! ## Event interpreter abort semantics (C1) -/

theorem mem_split_first {α : Type} [DecidableEq α] (a : α) (l : List α) (h : a ∈ l) :
    ∃ s t, l = s ++ a :: t ∧ a ∉ s := by
  induction l with
  | nil => cases h
  | cons b rest ih =>
    by_cases hb : b = a
    · exact ⟨[], rest, by rw [hb]; rfl, by simp⟩
    · have hmem : a ∈ rest := by
        rcases List.mem_cons.mp h with h1 | h2
        · exact absurd h1.symm hb
        · exact h2
      obtain ⟨s, t, heq, hns⟩ := ih hmem
      refine ⟨b :: s, t, by rw [heq]; rfl, ?_⟩
      simp only [List.mem_cons, not_or]
      exact ⟨fun hc => hb hc.symm, hns⟩

theorem indexOf_append_cons_self (a : String) (s t : List String) (hns : a ∉ s) :
    (s ++ a :: t).indexOf a = s.length := by
  induction s with
  | nil => simp
  | cons b s' ih =>
    simp only [List.mem_cons, not_or] at hns
    have hba : b ≠ a := fun h => hns.1 h.symm
    rw [List.cons_append, List.indexOf_cons_ne _ hba, ih hns.2]
    rfl

theorem indexOf_append_left_lt (b : String) (s t : List String) (hb : b ∈ s) :
    (s ++ t).indexOf b < s.length := by
  induction s with
  | nil => cases hb
  | cons c s' ih =>
    by_cases hcb : c = b
    · subst hcb
      simp
    · have hb' : b ∈ s' := by
        rcases List.mem_cons.mp hb with h1 | h2
        · exact absurd h1.symm hcb
        · exact h2
      rw [List.cons_append, List.indexOf_cons_ne _ hcb]
      simpa using ih hb'

/-- running a pipeline whose prefix contains no PromptTask and whose next
node is a failing Validate produces a validation error and makes no
provider calls. -/
theorem runNodes_validate_fails (jsonParse : String → Except String Value)
    (providers : JsMap LlmProvider) (eventId : String) (state : JsMap Value)
    (nodeMap : JsMap ActionNode) (vid : String) (vd : String) (keys : List String)
    (hv : nodeMap.get vid = some (.validate vd keys))
    (hbad : ∃ k ∈ keys, isEmptyish (state.getD k .vUndef) = true)
    (L2 : List String) :
    ∀ (L1 : List String) (ctx : ExecCtx),
      (∀ nid ∈ L1, ∃ n, nodeMap.get nid = some n ∧ n.isPromptTask = false) →
      (∃ k, (runNodes jsonParse providers eventId state nodeMap
          (L1 ++ vid :: L2) ctx).1
        = .error ("Validation failed: state key '" ++ k ++ "' is empty.")) ∧
      (runNodes jsonParse providers eventId state nodeMap
          (L1 ++ vid :: L2) ctx).2.calls = ctx.calls := by
  intro L1
  induction L1 with
  | nil =>
    intro ctx _
    obtain ⟨k, hk, hke⟩ := hbad
    have hsome : (keys.find? (fun k => isEmptyish (state.getD k .vUndef))).isSome :=
      List.find?_isSome.mpr ⟨k, hk, hke⟩
    cases hf : keys.find? (fun k => isEmptyish (state.getD k .vUndef)) with
    | none => rw [hf] at hsome; cases hsome
    | some k' =>
      constructor
      · refine ⟨k', ?_⟩
        simp only [List.nil_append, runNodes, hv, runNode, hf]
      · simp only [List.nil_append, runNodes, hv, runNode, hf]
  | cons nid L1' ih =>
    intro ctx hall
    obtain ⟨n, hget, hnp⟩ := hall nid (List.mem_cons_self _ _)
    have hall' : ∀ x ∈ L1', ∃ n, nodeMap.get x = some n ∧ n.isPromptTask = false :=
      fun x hx => hall x (List.mem_cons_of_mem _ hx)
    cases n with
    | promptTask pid spec => simp [ActionNode.isPromptTask] at hnp
    | validate vd' ks' =>
      cases hf : ks'.find? (fun k => isEmptyish (state.getD k .vUndef)) with
      | some k' =>
        constructor
        · refine ⟨k', ?_⟩
          simp only [List.cons_append, runNodes, hget, runNode, hf]
        · simp only [List.cons_append, runNodes, hget, runNode, hf]
      | none =>
        have hstep := ih ({ ctx with logs := ctx.logs ++
          [⟨"", eventId, "validate",
            "Validated " ++ toString ks'.length ++ " state keys."⟩] }) hall'
        simp only [List.cons_append, runNodes, hget, runNode, hf]
        exact hstep
    | transform tid maps =>
      have hstep := ih ({ ctx with
        statePatch := maps.foldl
          (fun (p : JsMap Value) kv =>
            p.set kv.1 (parseTransformExpression kv.2 ctx.nodeOutputs))
          ctx.statePatch
        logs := ctx.logs ++
          [⟨"", eventId, "transform",
            "Mapped " ++ toString maps.length ++ " outputs into state patch."⟩] }) hall'
      simp only [List.cons_append, runNodes, hget, runNode]
      exact hstep

/--
**C1 (amended).** For every AppDefinition, event id, input state, provider
registry (and `JSON.parse` model), if the event resolves, its graph orders
successfully, every ordered node id resolves in the node map, some Validate
node in the order lists a state key whose value in the input state is
`undefined`, `null` or `""`, and that Validate precedes every PromptTask in
the execution order, then `executeEvent` raises a validation error and the
providers observe **zero** calls; no partial `statePatch` reaches the caller
(the error return carries none).  Without the precedence condition a
PromptTask ordered before the Validate runs first and its provider is
invoked (see the counterexample).
-/
theorem C1_validate_failure_aborts (jsonParse : String → Except String Value)
    (app : AppDefinition) (eventId : String) (state : JsMap Value)
    (providers : JsMap LlmProvider) (ev : EventDefinition) (order : List String)
    (vid vd : String) (keys : List String)
    (happ : resolveEvent app eventId = .ok ev)
    (horder : topologicalSort (ev.actionGraph.nodes.map (·.id))
      ev.actionGraph.edges = .ok order)
    (hv : (buildNodeMap ev.actionGraph.nodes).get vid = some (.validate vd keys))
    (hvin : vid ∈ order)
    (hbad : ∃ k ∈ keys, isEmptyish (state.getD k .vUndef) = true)
    (hfound : ∀ nid ∈ order, ((buildNodeMap ev.actionGraph.nodes).get nid).isSome = true)
    (hprompt : ∀ nid ∈ order,
      (match (buildNodeMap ev.actionGraph.nodes).get nid with
        | some n => n.isPromptTask
        | none => false) = true →
      order.indexOf vid < order.indexOf nid) :
    (∃ k, (executeEvent jsonParse app eventId state providers).1
        = .error ("Validation failed: state key '" ++ k ++ "' is empty.")) ∧
    (executeEvent jsonParse app eventId state providers).2 = [] := by
  obtain ⟨L1, L2, hsplit, hnotin⟩ := mem_split_first vid order hvin
  have hL1 : ∀ nid ∈ L1, ∃ n, (buildNodeMap ev.actionGraph.nodes).get nid = some n ∧
      n.isPromptTask = false := by
    intro nid hnid
    have hmemord : nid ∈ order := by
      rw [hsplit]
      exact List.mem_append_left _ hnid
    have hsome := hfound nid hmemord
    cases hget : (buildNodeMap ev.actionGraph.nodes).get nid with
    | none => rw [hget] at hsome; cases hsome
    | some n =>
      refine ⟨n, rfl, ?_⟩
      cases hp : n.isPromptTask with
      | false => rfl
      | true =>
        have hidx := hprompt nid hmemord (by rw [hget]; exact hp)
        have h1 : order.indexOf vid = L1.length := by
          rw [hsplit]
          exact indexOf_append_cons_self vid L1 L2 hnotin
        have h2 : order.indexOf nid < L1.length := by
          rw [hsplit]
          exact indexOf_append_left_lt nid L1 (vid :: L2) hnid
        omega
  have hrun := runNodes_validate_fails jsonParse providers eventId state
    (buildNodeMap ev.actionGraph.nodes) vid vd keys hv hbad L2 L1
    ⟨JsMap.empty, JsMap.empty, [], []⟩ hL1
  rw [← hsplit] at hrun
  obtain ⟨⟨k, herr⟩, hcalls⟩ := hrun
  have hexec : executeEvent jsonParse app eventId state providers
      = (.error ("Validation failed: state key '" ++ k ++ "' is empty."),
          (runNodes jsonParse providers eventId state
            (buildNodeMap ev.actionGraph.nodes) order
            ⟨JsMap.empty, JsMap.empty, [], []⟩).2.calls) := by
    simp only [executeEvent, happ, horder, herr]
  rw [hexec, hcalls]
  exact ⟨⟨k, rfl⟩, rfl⟩

/--
**C1 counterexample.** In `c1App` the PromptTask `p` is ordered before the
Validate `v` (no edges: Kahn seeds in insertion order), so on an empty
required state key `executeEvent` still raises the validation error — but
the provider observes **one** call, refuting "the provider is never invoked"
for arbitrary graphs.
-/
theorem C1_counterexample_prompt_before_validate :
    (executeEvent stubJsonParse c1App "e" ⟨[("k", .vStr "")]⟩
        ⟨[("mock", stubProvider)]⟩).1
      = .error "Validation failed: state key 'k' is empty." ∧
    (executeEvent stubJsonParse c1App "e" ⟨[("k", .vStr "")]⟩
        ⟨[("mock", stubProvider)]⟩).2.length = 1 :=
  ⟨rfl, rfl⟩

/-- Witness for C1 (amended): the spec's scenario app with an empty
`customerComplaint`. -/
theorem C1_validate_failure_aborts_witness :
    (∃ k, (executeEvent stubJsonParse scenarioApp "evt_analyze_click"
        ⟨[("customerComplaint", .vStr "")]⟩ ⟨[("mock", stubProvider)]⟩).1
      = .error ("Validation failed: state key '" ++ k ++ "' is empty.")) ∧
    (executeEvent stubJsonParse scenarioApp "evt_analyze_click"
        ⟨[("customerComplaint", .vStr "")]⟩ ⟨[("mock", stubProvider)]⟩).2 = [] :=
  C1_validate_failure_aborts stubJsonParse scenarioApp "evt_analyze_click"
    ⟨[("customerComplaint", .vStr "")]⟩ ⟨[("mock", stubProvider)]⟩
    scenarioEvent ["n1", "n2", "n3"] "n1" "n1" ["customerComplaint"]
    rfl rfl rfl (by decide) ⟨"customerComplaint", by decide, rfl⟩
    (by decide) (by decide)

/-! ## Kahn's algorithm: counting helpers -/

theorem filter_length_mono {α : Type} (l : List α) (p r : α → Bool)
    (h : ∀ a ∈ l, p a = true → r a = true) :
    (l.filter p).length ≤ (l.filter r).length := by
  induction l with
  | nil => simp
  | cons a rest ih =>
    have ih' := ih (fun x hx => h x (List.mem_cons_of_mem _ hx))
    by_cases hp : p a = true
    · have hr := h a (List.mem_cons_self _ _) hp
      simp [List.filter_cons, hp, hr]
      omega
    · have hp' : p a = false := Bool.not_eq_true _ ▸ (by simpa using hp)
      by_cases hr : r a = true
      · simp [List.filter_cons, hp', hr]
        omega
      · have hr' : r a = false := Bool.not_eq_true _ ▸ (by simpa using hr)
        simpa [List.filter_cons, hp', hr'] using ih'

theorem filter_length_eq_all {α : Type} (l : List α) (p r : α → Bool)
    (himp : ∀ a ∈ l, p a = true → r a = true)
    (hlen : (l.filter p).length = (l.filter r).length) :
    ∀ a ∈ l, r a = true → p a = true := by
  induction l with
  | nil => intro a ha; cases ha
  | cons b rest ih =>
    have himp' : ∀ a ∈ rest, p a = true → r a = true :=
      fun a ha => himp a (List.mem_cons_of_mem _ ha)
    have hmono := filter_length_mono rest p r himp'
    intro a ha hra
    by_cases hpb : p b = true
    · have hrb := himp b (List.mem_cons_self _ _) hpb
      rw [List.filter_cons_of_pos (by simpa using hpb),
        List.filter_cons_of_pos (by simpa using hrb)] at hlen
      simp only [List.length_cons] at hlen
      rcases List.mem_cons.mp ha with h1 | h2
      · subst h1; exact hpb
      · exact ih himp' (by omega) a h2 hra
    · have hpb' : p b = false := by simpa using hpb
      by_cases hrb : r b = true
      · rw [List.filter_cons_of_neg (by simp [hpb']),
          List.filter_cons_of_pos (by simpa using hrb)] at hlen
        simp only [List.length_cons] at hlen
        omega
      · have hrb' : r b = false := by simpa using hrb
        rw [List.filter_cons_of_neg (by simp [hpb']),
          List.filter_cons_of_neg (by simp [hrb'])] at hlen
        rcases List.mem_cons.mp ha with h1 | h2
        · subst h1
          rw [hrb'] at hra
          cases hra
        · exact ih himp' hlen a h2 hra

theorem filter_length_disjoint_add {α : Type} (l : List α) (p q : α → Bool)
    (hdisj : ∀ a ∈ l, ¬(p a = true ∧ q a = true)) :
    (l.filter (fun a => p a || q a)).length
      = (l.filter p).length + (l.filter q).length := by
  induction l with
  | nil => simp
  | cons b rest ih =>
    have ih' := ih (fun a ha => hdisj a (List.mem_cons_of_mem _ ha))
    by_cases hp : p b = true
    · have hq : q b = false := by
        cases hqb : q b
        · rfl
        · exact absurd ⟨hp, hqb⟩ (hdisj b (List.mem_cons_self _ _))
      simp [List.filter_cons, hp, hq, ih']
      omega
    · have hp' : p b = false := by simpa using hp
      by_cases hq : q b = true
      · simp [List.filter_cons, hp', hq, ih']
        omega
      · have hq' : q b = false := by simpa using hq
        simpa [List.filter_cons, hp', hq'] using ih'

theorem filter_congr_mem {α : Type} (l : List α) (p q : α → Bool)
    (h : ∀ a ∈ l, p a = q a) : l.filter p = l.filter q := by
  induction l with
  | nil => rfl
  | cons b rest ih =>
    have hb := h b (List.mem_cons_self _ _)
    have ih' := ih (fun a ha => h a (List.mem_cons_of_mem _ ha))
    cases hq : q b
    · rw [List.filter_cons_of_neg (by simp [hb, hq]),
        List.filter_cons_of_neg (by simp [hq]), ih']
    · rw [List.filter_cons_of_pos (by simp [hb, hq]),
        List.filter_cons_of_pos (by simp [hq]), ih']

/-- multiplicity of `x` in the adjacency list of `v`. -/
theorem count_outList (edges : List Edge) (v x : String) :
    (outList edges v).count x
      = (edges.filter (fun e => e.src = v && e.dst = x)).length := by
  induction edges with
  | nil => rfl
  | cons e rest ih =>
    by_cases hsrc : e.src = v
    · by_cases hdst : e.dst = x
      · simp [outList, List.filter_cons, hsrc, hdst, List.count_cons] at ih ⊢
        omega
      · simp [outList, List.filter_cons, hsrc, hdst, List.count_cons] at ih ⊢
        omega
    · simp [outList, List.filter_cons, hsrc] at ih ⊢
      exact ih

/-! ## `processNeighborsF` specification -/

theorem processNeighborsF_fst (ns : List String) :
    ∀ (i : String → Int), (processNeighborsF i ns).1
      = fun x => i x - (ns.count x : Int) := by
  induction ns with
  | nil => intro i; funext x; simp [processNeighborsF]
  | cons nb rest ih =>
    intro i
    funext x
    simp only [processNeighborsF, ih]
    by_cases hx : x = nb
    · subst hx
      simp [Function.update, List.count_cons]
      omega
    · simp [Function.update, hx, List.count_cons, Ne.symm hx]

theorem processNeighborsF_snd_sub (ns : List String) :
    ∀ (i : String → Int) (x : String),
      x ∈ (processNeighborsF i ns).2 → x ∈ ns := by
  induction ns with
  | nil => intro i x hx; simp [processNeighborsF] at hx
  | cons nb rest ih =>
    intro i x hx
    simp only [processNeighborsF, List.mem_append] at hx
    rcases hx with h1 | h2
    · by_cases hz : i nb - 1 = 0
      · simp [hz] at h1
        simp [h1]
      · simp [hz] at h1
    · exact List.mem_cons_of_mem _ (ih _ x h2)

theorem processNeighborsF_snd_mem (ns : List String) :
    ∀ (i : String → Int),
      (∀ x ∈ ns, (ns.count x : Int) ≤ i x) →
      ∀ x, (x ∈ (processNeighborsF i ns).2 ↔ (x ∈ ns ∧ i x = (ns.count x : Int))) := by
  induction ns with
  | nil =>
    intro i _ x
    simp [processNeighborsF]
  | cons nb rest ih =>
    intro i hle x
    have hnb1 : (1 : Int) ≤ i nb := by
      have := hle nb (List.mem_cons_self _ _)
      have hc : 1 ≤ ((nb :: rest).count nb : Int) := by
        have := List.count_pos_iff.mpr (List.mem_cons_self nb rest)
        omega
      omega
    have hle' : ∀ y ∈ rest, (rest.count y : Int) ≤ Function.update i nb (i nb - 1) y := by
      intro y hy
      by_cases hynb : y = nb
      · subst hynb
        have := hle y (List.mem_cons_self _ _)
        simp only [List.count_cons_self] at this
        simp [Function.update]
        omega
      · have := hle y (List.mem_cons_of_mem _ hy)
        rw [List.count_cons_of_ne hynb] at this
        simpa [Function.update, hynb] using this
    have ihx := ih (Function.update i nb (i nb - 1)) hle'
    simp only [processNeighborsF, List.mem_append]
    by_cases hx : x = nb
    · subst hx
      rw [ihx x]
      simp only [Function.update_same, List.count_cons_self]
      constructor
      · rintro (h1 | ⟨h2, h3⟩)
        · by_cases hz : i x - 1 = 0
          · have hcr : rest.count x = 0 := by
              by_cases hr : x ∈ rest
              · have hb := hle' x hr
                rw [Function.update_same] at hb
                have hc : 1 ≤ rest.count x := List.count_pos_iff.mpr hr
                omega
              · exact List.count_eq_zero.mpr hr
            refine ⟨List.mem_cons_self _ _, ?_⟩
            rw [hcr]
            push_cast
            omega
          · simp [hz] at h1
        · refine ⟨List.mem_cons_self _ _, ?_⟩
          have hc : 1 ≤ rest.count x := List.count_pos_iff.mpr h2
          push_cast
          omega
      · rintro ⟨_, heq⟩
        by_cases hr : x ∈ rest
        · right
          refine ⟨hr, ?_⟩
          have hc : 1 ≤ rest.count x := List.count_pos_iff.mpr hr
          push_cast at heq ⊢
          omega
        · left
          have hc : rest.count x = 0 := List.count_eq_zero.mpr hr
          rw [hc] at heq
          push_cast at heq
          have hz : i x - 1 = 0 := by omega
          simp [hz]
    · rw [ihx x]
      have hupd : Function.update i nb (i nb - 1) x = i x := by
        simp [Function.update, hx]
      rw [hupd, List.count_cons_of_ne hx]
      constructor
      · rintro (h1 | ⟨h2, h3⟩)
        · by_cases hz : i nb - 1 = 0
          · simp [hz] at h1
            exact absurd h1 hx
          · simp [hz] at h1
        · exact ⟨List.mem_cons_of_mem _ h2, h3⟩
      · rintro ⟨hmem, heq⟩
        right
        rcases List.mem_cons.mp hmem with h1 | h2
        · exact absurd h1 hx
        · exact ⟨h2, heq⟩

theorem processNeighborsF_snd_nodup (ns : List String) :
    ∀ (i : String → Int),
      (∀ x ∈ ns, (ns.count x : Int) ≤ i x) →
      (processNeighborsF i ns).2.Nodup := by
  induction ns with
  | nil => intro i _; simp [processNeighborsF]
  | cons nb rest ih =>
    intro i hle
    have hle' : ∀ y ∈ rest, (rest.count y : Int) ≤ Function.update i nb (i nb - 1) y := by
      intro y hy
      by_cases hynb : y = nb
      · subst hynb
        have := hle y (List.mem_cons_self _ _)
        simp only [List.count_cons_self] at this
        simp [Function.update]
        omega
      · have := hle y (List.mem_cons_of_mem _ hy)
        rw [List.count_cons_of_ne hynb] at this
        simpa [Function.update, hynb] using this
    have hrest := ih (Function.update i nb (i nb - 1)) hle'
    simp only [processNeighborsF]
    by_cases hz : i nb - 1 = 0
    · have hif : (if i nb - 1 = 0 then [nb] else []) = [nb] := if_pos hz
      rw [hif, List.singleton_append, List.nodup_cons]
      refine ⟨?_, hrest⟩
      intro hmem
      have := (processNeighborsF_snd_mem rest _ hle' nb).mp hmem
      obtain ⟨hmemr, heq⟩ := this
      have hc : 1 ≤ rest.count nb := List.count_pos_iff.mpr hmemr
      rw [Function.update_same] at heq
      omega
    · simpa [hz] using hrest

/-! ## Build-phase characterization -/

theorem getEntries_map_fun {α : Type} (g : String → α) (k : String) :
    ∀ (nodes : List String),
      getEntries (nodes.map fun v => (v, g v)) k
        = if k ∈ nodes then some (g k) else none := by
  intro nodes
  induction nodes with
  | nil => simp [getEntries]
  | cons v rest ih =>
    by_cases hv : v = k
    · subst hv
      simp [getEntries]
    · simp [getEntries, hv, ih, Ne.symm hv]

theorem setEntries_map_fun {α : Type} (g : String → α) (k : String) (w : α) :
    ∀ (nodes : List String), nodes.Nodup → k ∈ nodes →
      setEntries (nodes.map fun v => (v, g v)) k w
        = nodes.map fun v => (v, Function.update g k w v) := by
  intro nodes
  induction nodes with
  | nil => intro _ hk; cases hk
  | cons v rest ih =>
    intro hnd hk
    rw [List.nodup_cons] at hnd
    by_cases hv : v = k
    · subst hv
      simp only [List.map_cons, setEntries]
      rw [if_pos trivial, Function.update_same]
      congr 1
      refine (List.map_congr_left ?_).symm
      intro a ha
      have hav : a ≠ v := fun h => hnd.1 (by rw [← h]; exact ha)
      simp [Function.update, hav]
    · have hk' : k ∈ rest := by
        rcases List.mem_cons.mp hk with h1 | h2
        · exact absurd h1.symm hv
        · exact h2
      simp only [List.map_cons, setEntries, if_neg hv, ih hnd.2 hk']
      congr 1
      simp [Function.update, hv]

theorem setEntries_append_of_absent {α : Type} (k : String) (v : α) :
    ∀ (l : List (String × α)), getEntries l k = none → setEntries l k v = l ++ [(k, v)] := by
  intro l
  induction l with
  | nil => intro _; rfl
  | cons hd tl ih =>
    intro hget
    obtain ⟨k0, v0⟩ := hd
    simp only [getEntries] at hget
    by_cases h0 : k0 = k
    · rw [if_pos h0] at hget; cases hget
    · rw [if_neg h0] at hget
      simp only [setEntries, if_neg h0, List.cons_append]
      rw [ih hget]

theorem foldl_set_entries {α : Type} (g : String → α) :
    ∀ (nodes : List String) (m : JsMap α), (∀ v ∈ nodes, m.get v = none) →
      nodes.Nodup →
      (nodes.foldl (fun acc v => acc.set v (g v)) m).entries
        = m.entries ++ nodes.map (fun v => (v, g v)) := by
  intro nodes
  induction nodes with
  | nil => intro m _ _; simp
  | cons v rest ih =>
    intro m habs hnd
    rw [List.nodup_cons] at hnd
    have hset : (m.set v (g v)).entries = m.entries ++ [(v, g v)] :=
      setEntries_append_of_absent v (g v) m.entries (habs v (List.mem_cons_self _ _))
    have habs' : ∀ w ∈ rest, (m.set v (g v)).get w = none := by
      intro w hw
      rw [JsMap.get_set_other _ _ _ _ (fun h => hnd.1 (by rw [← h]; exact hw))]
      exact habs w (List.mem_cons_of_mem _ hw)
    simp only [List.foldl_cons]
    rw [ih _ habs' hnd.2, hset]
    simp

theorem foldl_pair {α β ε : Type} (F : α × β → ε → α × β) (f1 : α → ε → α)
    (f2 : β → ε → β) (hF : ∀ m e, F m e = (f1 m.1 e, f2 m.2 e)) :
    ∀ (es : List ε) (m : α × β),
      es.foldl F m = (es.foldl f1 m.1, es.foldl f2 m.2) := by
  intro es
  induction es with
  | nil => intro m; rfl
  | cons e rest ih =>
    intro m
    simp only [List.foldl_cons, hF m e]
    exact ih _

theorem foldl_guard {α ε : Type} (p : ε → Prop) [DecidablePred p] (f : α → ε → α) :
    ∀ (es : List ε) (init : α),
      es.foldl (fun m e => if p e then f m e else m) init
        = (es.filter (fun e => decide (p e))).foldl f init := by
  intro es
  induction es with
  | nil => intro init; rfl
  | cons e rest ih =>
    intro init
    by_cases hp : p e
    · rw [List.foldl_cons, if_pos hp, List.filter_cons_of_pos (by simpa using hp),
        List.foldl_cons]
      exact ih _
    · rw [List.foldl_cons, if_neg hp, List.filter_cons_of_neg (by simpa using hp)]
      exact ih _

theorem edgesTo_cons (e : Edge) (es : List Edge) (v : String) :
    edgesTo (e :: es) v = (if e.dst = v then 1 else 0) + edgesTo es v := by
  by_cases h : e.dst = v
  · simp [edgesTo, List.filter_cons, h]
    omega
  · simp [edgesTo, List.filter_cons, h]

theorem outList_cons (e : Edge) (es : List Edge) (v : String) :
    outList (e :: es) v = (if e.src = v then [e.dst] else []) ++ outList es v := by
  by_cases h : e.src = v <;> simp [outList, List.filter_cons, h]

theorem indeg_fold_entries (nodes : List String) (hnd : nodes.Nodup) :
    ∀ (es : List Edge) (g : String → Int), (∀ e ∈ es, e.dst ∈ nodes) →
      (es.foldl indegStep ⟨nodes.map fun v => (v, g v)⟩).entries
        = nodes.map fun v => (v, g v + (edgesTo es v : Int)) := by
  intro es
  induction es with
  | nil =>
    intro g _
    refine List.map_congr_left ?_
    intro v _
    simp [edgesTo]
  | cons e rest ih =>
    intro g hdst
    have hde : e.dst ∈ nodes := hdst e (List.mem_cons_self _ _)
    have hget : (JsMap.mk (nodes.map fun v => (v, g v))).getD e.dst 0 = g e.dst := by
      show (getEntries (nodes.map fun v => (v, g v)) e.dst).getD 0 = g e.dst
      rw [getEntries_map_fun g e.dst nodes, if_pos hde]
      rfl
    have hset : indegStep ⟨nodes.map fun v => (v, g v)⟩ e
        = ⟨nodes.map fun v => (v, Function.update g e.dst (g e.dst + 1) v)⟩ := by
      show JsMap.mk (setEntries _ _ _) = _
      rw [hget, setEntries_map_fun g e.dst (g e.dst + 1) nodes hnd hde]
    rw [List.foldl_cons, hset, ih _ (fun x hx => hdst x (List.mem_cons_of_mem _ hx))]
    refine List.map_congr_left ?_
    intro v _
    rw [edgesTo_cons]
    by_cases hv : v = e.dst
    · subst hv
      simp [Function.update]
      omega
    · have hv' : ¬e.dst = v := fun h => hv h.symm
      simp [Function.update, hv, hv']

theorem out_fold_entries (nodes : List String) (hnd : nodes.Nodup) :
    ∀ (es : List Edge) (g : String → List String), (∀ e ∈ es, e.src ∈ nodes) →
      (es.foldl outStep ⟨nodes.map fun v => (v, g v)⟩).entries
        = nodes.map fun v => (v, g v ++ outList es v) := by
  intro es
  induction es with
  | nil =>
    intro g _
    refine List.map_congr_left ?_
    intro v _
    simp [outList]
  | cons e rest ih =>
    intro g hsrc
    have hse : e.src ∈ nodes := hsrc e (List.mem_cons_self _ _)
    have hget : (JsMap.mk (nodes.map fun v => (v, g v))).get e.src = some (g e.src) := by
      show getEntries (nodes.map fun v => (v, g v)) e.src = some (g e.src)
      rw [getEntries_map_fun g e.src nodes, if_pos hse]
    have hset : outStep ⟨nodes.map fun v => (v, g v)⟩ e
        = ⟨nodes.map fun v => (v, Function.update g e.src (g e.src ++ [e.dst]) v)⟩ := by
      show (match (JsMap.mk (nodes.map fun v => (v, g v))).get e.src with
        | some l => JsMap.set ⟨nodes.map fun v => (v, g v)⟩ e.src (l ++ [e.dst])
        | none => JsMap.mk (nodes.map fun v => (v, g v))) = _
      rw [hget]
      show JsMap.mk (setEntries _ _ _) = _
      rw [setEntries_map_fun g e.src (g e.src ++ [e.dst]) nodes hnd hse]
    rw [List.foldl_cons, hset, ih _ (fun x hx => hsrc x (List.mem_cons_of_mem _ hx))]
    refine List.map_congr_left ?_
    intro v _
    rw [outList_cons]
    by_cases hv : v = e.src
    · subst hv
      simp [Function.update]
    · have hv' : ¬e.src = v := fun h => hv h.symm
      simp [Function.update, hv, hv']

/-! ## `JsMap` loop ↔ functional loop correspondence -/

theorem processNeighbors_corr (ns : List String) :
    ∀ (ind : JsMap Int) (i : String → Int), (∀ x, ind.getD x 0 = i x) →
      (∀ x, (processNeighbors ind ns).1.getD x 0 = (processNeighborsF i ns).1 x) ∧
        (processNeighbors ind ns).2 = (processNeighborsF i ns).2 := by
  induction ns with
  | nil => intro ind i h; exact ⟨h, rfl⟩
  | cons nb rest ih =>
    intro ind i h
    have hnext : ind.getD nb 0 - 1 = i nb - 1 := by rw [h nb]
    have hcorr : ∀ x, (ind.set nb (ind.getD nb 0 - 1)).getD x 0
        = Function.update i nb (i nb - 1) x := by
      intro x
      rw [JsMap.getD_set]
      by_cases hx : x = nb
      · subst hx
        rw [if_pos rfl, hnext, Function.update_same]
      · rw [if_neg hx, Function.update_noteq hx, h x]
    obtain ⟨ih1, ih2⟩ := ih (ind.set nb (ind.getD nb 0 - 1))
      (Function.update i nb (i nb - 1)) hcorr
    refine ⟨ih1, ?_⟩
    show (if ind.getD nb 0 - 1 = 0 then [nb] else []) ++ _
      = (if i nb - 1 = 0 then [nb] else []) ++ _
    rw [hnext] at ih2 ⊢
    rw [ih2]

theorem kahnLoopRT_corr :
    ∀ (fuel : Nat) (ind : JsMap Int) (i : String → Int) (out : JsMap (List String))
      (outF : String → List String) (queue order : List String),
      (∀ x, ind.getD x 0 = i x) → (∀ v, out.getD v [] = outF v) →
      (∀ v x, x ∈ outF v → x ≠ "") → (∀ x ∈ queue, x ≠ "") →
      (kahnLoopRT fuel ind out queue order).2
        = ((kahnLoopF fuel i outF queue).2.1,
           order ++ (kahnLoopF fuel i outF queue).2.2) := by
  intro fuel
  induction fuel with
  | zero => intro ind i out outF queue order _ _ _ _; simp [kahnLoopRT, kahnLoopF]
  | succ f ih =>
    intro ind i out outF queue order hind hout houtne hqne
    match queue with
    | [] => simp [kahnLoopRT, kahnLoopF]
    | cur :: rest =>
      have hcur : cur ≠ "" := hqne cur (List.mem_cons_self _ _)
      show (kahnLoopRT (f + 1) ind out (cur :: rest) order).2 = _
      rw [show kahnLoopRT (f + 1) ind out (cur :: rest) order
          = (if cur = "" then kahnLoopRT f ind out rest order
             else
               let res := processNeighbors ind (out.getD cur [])
               kahnLoopRT f res.1 out (rest ++ res.2) (order ++ [cur])) from rfl]
      rw [if_neg hcur]
      have hpc := processNeighbors_corr (outF cur) ind i hind
      have houtc : out.getD cur [] = outF cur := hout cur
      rw [houtc]
      have hq' : ∀ x ∈ rest ++ (processNeighbors ind (outF cur)).2, x ≠ "" := by
        intro x hx
        rcases List.mem_append.mp hx with h1 | h2
        · exact hqne x (List.mem_cons_of_mem _ h1)
        · rw [hpc.2] at h2
          exact houtne cur x (processNeighborsF_snd_sub (outF cur) i x h2)
      have := ih (processNeighbors ind (outF cur)).1 (processNeighborsF i (outF cur)).1
        out outF (rest ++ (processNeighbors ind (outF cur)).2) (order ++ [cur])
        hpc.1 hout houtne hq'
      rw [this, hpc.2]
      show ((kahnLoopF f _ outF _).2.1, (order ++ [cur]) ++ (kahnLoopF f _ outF _).2.2)
        = ((kahnLoopF (f + 1) i outF (cur :: rest)).2.1,
           order ++ (kahnLoopF (f + 1) i outF (cur :: rest)).2.2)
      rw [show kahnLoopF (f + 1) i outF (cur :: rest)
          = (let res := processNeighborsF i (outF cur)
             let r := kahnLoopF f res.1 outF (rest ++ res.2)
             (r.1, r.2.1, cur :: r.2.2)) from rfl]
      simp

theorem kahnLoopV_corr :
    ∀ (fuel : Nat) (ind : JsMap Int) (i : String → Int) (out : JsMap (List String))
      (outF : String → List String) (queue : List String) (vis : Nat),
      (∀ x, ind.getD x 0 = i x) → (∀ v, out.getD v [] = outF v) →
      (∀ v x, x ∈ outF v → x ≠ "") → (∀ x ∈ queue, x ≠ "") →
      (kahnLoopV fuel ind out queue vis).2.2
        = vis + (kahnLoopF fuel i outF queue).2.2.length := by
  intro fuel
  induction fuel with
  | zero => intro ind i out outF queue vis _ _ _ _; simp [kahnLoopV, kahnLoopF]
  | succ f ih =>
    intro ind i out outF queue vis hind hout houtne hqne
    match queue with
    | [] => simp [kahnLoopV, kahnLoopF]
    | cur :: rest =>
      have hcur : cur ≠ "" := hqne cur (List.mem_cons_self _ _)
      show (kahnLoopV (f + 1) ind out (cur :: rest) vis).2.2 = _
      rw [show kahnLoopV (f + 1) ind out (cur :: rest) vis
          = (if cur = "" then (ind, cur :: rest, vis)
             else
               let res := processNeighbors ind (out.getD cur [])
               kahnLoopV f res.1 out (rest ++ res.2) (vis + 1)) from rfl]
      rw [if_neg hcur]
      have hpc := processNeighbors_corr (outF cur) ind i hind
      have houtc : out.getD cur [] = outF cur := hout cur
      rw [houtc]
      have hq' : ∀ x ∈ rest ++ (processNeighbors ind (outF cur)).2, x ≠ "" := by
        intro x hx
        rcases List.mem_append.mp hx with h1 | h2
        · exact hqne x (List.mem_cons_of_mem _ h1)
        · rw [hpc.2] at h2
          exact houtne cur x (processNeighborsF_snd_sub (outF cur) i x h2)
      have := ih (processNeighbors ind (outF cur)).1 (processNeighborsF i (outF cur)).1
        out outF (rest ++ (processNeighbors ind (outF cur)).2) (vis + 1)
        hpc.1 hout houtne hq'
      rw [this, hpc.2]
      rw [show kahnLoopF (f + 1) i outF (cur :: rest)
          = (let res := processNeighborsF i (outF cur)
             let r := kahnLoopF f res.1 outF (rest ++ res.2)
             (r.1, r.2.1, cur :: r.2.2)) from rfl]
      simp
      omega

/-! ## Kahn invariant: counting facts -/

theorem edgesToFrom_nil (E : List Edge) (x : String) : edgesToFrom E x [] = 0 := by
  simp [edgesToFrom]

theorem edgesTo_split (E : List Edge) (x : String) (done : List String) :
    edgesTo E x = edgesToFrom E x done
      + (E.filter (fun e => e.dst = x && !decide (e.src ∈ done))).length := by
  have hdisj : ∀ e ∈ E, ¬((e.dst = x && decide (e.src ∈ done)) = true
      ∧ (e.dst = x && !decide (e.src ∈ done)) = true) := by
    rintro e _ ⟨hp, hq⟩
    simp only [Bool.and_eq_true] at hp hq
    rw [hp.2] at hq
    simp at hq
  have hsum := filter_length_disjoint_add E
    (fun e => e.dst = x && decide (e.src ∈ done))
    (fun e => e.dst = x && !decide (e.src ∈ done)) hdisj
  have h1 : E.filter (fun e => (e.dst = x && decide (e.src ∈ done))
        || (e.dst = x && !decide (e.src ∈ done)))
      = E.filter (fun e => decide (e.dst = x)) := by
    refine filter_congr_mem _ _ _ ?_
    intro e _
    cases hd : (decide (e.dst = x) : Bool) <;>
      cases hs : (decide (e.src ∈ done) : Bool) <;> simp [hd, hs]
  rw [h1] at hsum
  exact hsum

theorem edgesToFrom_append (E : List Edge) (x : String) (done : List String)
    (cur : String) (hcur : cur ∉ done) :
    edgesToFrom E x (done ++ [cur])
      = edgesToFrom E x done + (E.filter (fun e => e.src = cur && e.dst = x)).length := by
  have hdisj : ∀ e ∈ E, ¬((e.dst = x && decide (e.src ∈ done)) = true
      ∧ (e.dst = x && e.src = cur) = true) := by
    rintro e _ ⟨hp, hq⟩
    simp only [Bool.and_eq_true, decide_eq_true_eq] at hp hq
    rw [hq.2] at hp
    exact hcur hp.2
  have hsum := filter_length_disjoint_add E
    (fun e => e.dst = x && decide (e.src ∈ done))
    (fun e => e.dst = x && e.src = cur) hdisj
  have h1 : E.filter (fun e => (e.dst = x && decide (e.src ∈ done))
        || (e.dst = x && e.src = cur))
      = E.filter (fun e => e.dst = x && decide (e.src ∈ done ++ [cur])) := by
    refine filter_congr_mem _ _ _ ?_
    intro e _
    by_cases hd : e.dst = x
    · by_cases hs : e.src ∈ done
      · simp [hd, hs, List.mem_append]
      · by_cases hc : e.src = cur <;> simp [hd, hs, hc, List.mem_append]
    · simp [hd]
  have h2 : E.filter (fun e => e.dst = x && e.src = cur)
      = E.filter (fun e => e.src = cur && e.dst = x) :=
    filter_congr_mem _ _ _ (fun e _ => Bool.and_comm _ _)
  rw [h1, h2] at hsum
  exact hsum

theorem mem_outList (E : List Edge) (v x : String) (h : x ∈ outList E v) :
    ∃ e ∈ E, e.src = v ∧ e.dst = x := by
  simp only [outList, List.mem_map] at h
  obtain ⟨e, he, hdx⟩ := h
  have hm := List.mem_filter.mp he
  exact ⟨e, hm.1, by simpa using hm.2, hdx⟩

theorem edgesTo_zero_of_not_mem (edges : List Edge) (nodes : List String)
    (hdst : ∀ e ∈ edges, e.dst ∈ nodes) (x : String) (hx : x ∉ nodes) :
    edgesTo edges x = 0 := by
  have h : edges.filter (fun e => decide (e.dst = x)) = [] :=
    List.filter_eq_nil_iff.mpr (fun e he hp => hx (by
      have hd : e.dst = x := by simpa using hp
      rw [← hd]
      exact hdst e he))
  exact congrArg List.length h

theorem outList_nil_of_not_mem (edges : List Edge) (nodes : List String)
    (hsrc : ∀ e ∈ edges, e.src ∈ nodes) (x : String) (hx : x ∉ nodes) :
    outList edges x = [] := by
  have h : edges.filter (fun e => decide (e.src = x)) = [] :=
    List.filter_eq_nil_iff.mpr (fun e he hp => hx (by
      have hd : e.src = x := by simpa using hp
      rw [← hd]
      exact hsrc e he))
  show (edges.filter (fun e => decide (e.src = x))).map (·.dst) = []
  rw [h]
  rfl

theorem filter_zero_map_fst (c : String → Int) :
    ∀ (nodes : List String),
      (((nodes.map fun v => (v, c v)).filter (fun p => p.2 = 0)).map (·.1))
        = nodes.filter (fun v => c v = 0) := by
  intro nodes
  induction nodes with
  | nil => rfl
  | cons v rest ih =>
    by_cases hv : c v = 0
    · simp [List.filter_cons, hv, ih]
    · simp [List.filter_cons, hv, ih]

/-! ## Kahn invariant: the step lemma -/

theorem kahnInv_step (V : List String) (E : List Edge)
    (hdst : ∀ e ∈ E, e.dst ∈ V)
    (done : List String) (cur : String) (rest : List String) (i : String → Int)
    (inv : KahnInv V E done (cur :: rest) i) :
    KahnInv V E (done ++ [cur]) (rest ++ (processNeighborsF i (outList E cur)).2)
      (processNeighborsF i (outList E cur)).1 := by
  have hcurq : cur ∈ cur :: rest := List.mem_cons_self _ _
  have hcurV : cur ∈ V := inv.queue_sub cur hcurq
  have hcurd : cur ∉ done := fun h => inv.disj cur h hcurq
  have hqnd := inv.queue_nodup
  rw [List.nodup_cons] at hqnd
  have hizero : i cur = 0 := inv.queue_zero cur hcurq
  have done_zero : ∀ x ∈ done, i x = 0 := by
    intro x hx
    have hfe : E.filter (fun e => e.dst = x && decide (e.src ∈ done))
        = E.filter (fun e => decide (e.dst = x)) := by
      refine filter_congr_mem _ _ _ ?_
      intro e he
      by_cases hd : e.dst = x
      · have hsd : e.src ∈ done := (inv.edge_before e he (hd ▸ hx)).1
        simp [hd, hsd]
      · simp [hd]
    have h1 : edgesToFrom E x done = edgesTo E x := congrArg List.length hfe
    rw [inv.ind_eq x, h1]
    omega
  have hcount : ∀ x, (outList E cur).count x
      = (E.filter (fun e => e.src = cur && e.dst = x)).length :=
    fun x => count_outList E cur x
  have hle : ∀ x ∈ outList E cur, ((outList E cur).count x : Int) ≤ i x := by
    intro x _
    have hmono : (E.filter (fun e => e.src = cur && e.dst = x)).length
        ≤ (E.filter (fun e => e.dst = x && !decide (e.src ∈ done))).length := by
      refine filter_length_mono E _ _ ?_
      intro e _ hp
      simp only [Bool.and_eq_true, decide_eq_true_eq] at hp
      have hsd : e.src ∉ done := by rw [hp.1]; exact hcurd
      simp [hp.2, hsd]
    have hsplit := edgesTo_split E x done
    rw [inv.ind_eq x, hcount x]
    omega
  have hfst := processNeighborsF_fst (outList E cur) i
  have hmem := processNeighborsF_snd_mem (outList E cur) i hle
  have hnodup := processNeighborsF_snd_nodup (outList E cur) i hle
  have hi' : ∀ x, (processNeighborsF i (outList E cur)).1 x
      = i x - ((outList E cur).count x : Int) := by
    intro x
    rw [hfst]
  have hdelta_pos : ∀ x ∈ (processNeighborsF i (outList E cur)).2,
      1 ≤ (outList E cur).count x ∧ i x = ((outList E cur).count x : Int) := by
    intro x hx
    have h := (hmem x).mp hx
    exact ⟨List.count_pos_iff.mpr h.1, h.2⟩
  have hdelta_ne_done : ∀ x ∈ (processNeighborsF i (outList E cur)).2, x ∉ done := by
    intro x hx hd
    have h := hdelta_pos x hx
    have h0 := done_zero x hd
    omega
  have hdelta_ne_cur : cur ∉ (processNeighborsF i (outList E cur)).2 := by
    intro hx
    have h := hdelta_pos cur hx
    omega
  have hdelta_ne_rest : ∀ x ∈ (processNeighborsF i (outList E cur)).2, x ∉ rest := by
    intro x hx hr
    have h := hdelta_pos x hx
    have h0 := inv.queue_zero x (List.mem_cons_of_mem _ hr)
    omega
  have hcount_rest : ∀ x ∈ rest, (outList E cur).count x = 0 := by
    intro x hx
    by_cases hxn : x ∈ outList E cur
    · have hb := hle x hxn
      have h0 := inv.queue_zero x (List.mem_cons_of_mem _ hx)
      have hc : 1 ≤ (outList E cur).count x := List.count_pos_iff.mpr hxn
      omega
    · exact List.count_eq_zero.mpr hxn
  refine ⟨?_, ?_, ?_, ?_, ?_, ?_, ?_, ?_, ?_⟩
  · -- done_nodup
    refine List.Nodup.append inv.done_nodup (List.nodup_singleton cur) ?_
    intro a ha hb
    rw [List.mem_singleton] at hb
    subst hb
    exact hcurd ha
  · -- queue_nodup
    exact List.Nodup.append hqnd.2 hnodup (fun a ha hb => hdelta_ne_rest a hb ha)
  · -- disj
    intro x hx hmem'
    rcases List.mem_append.mp hx with hxd | hxc
    · rcases List.mem_append.mp hmem' with h1 | h2
      · exact inv.disj x hxd (List.mem_cons_of_mem _ h1)
      · exact hdelta_ne_done x h2 hxd
    · rw [List.mem_singleton] at hxc
      subst hxc
      rcases List.mem_append.mp hmem' with h1 | h2
      · exact hqnd.1 h1
      · exact hdelta_ne_cur h2
  · -- done_sub
    intro x hx
    rcases List.mem_append.mp hx with h1 | h2
    · exact inv.done_sub x h1
    · rw [List.mem_singleton] at h2
      subst h2
      exact hcurV
  · -- queue_sub
    intro x hx
    rcases List.mem_append.mp hx with h1 | h2
    · exact inv.queue_sub x (List.mem_cons_of_mem _ h1)
    · have hxn := processNeighborsF_snd_sub (outList E cur) i x h2
      obtain ⟨e, he, _, hed⟩ := mem_outList E cur x hxn
      rw [← hed]
      exact hdst e he
  · -- ind_eq
    intro x
    rw [hi' x, inv.ind_eq x, hcount x, edgesToFrom_append E x done cur hcurd]
    omega
  · -- queue_zero
    intro x hx
    rcases List.mem_append.mp hx with h1 | h2
    · rw [hi' x, inv.queue_zero x (List.mem_cons_of_mem _ h1), hcount_rest x h1]
      omega
    · have h := hdelta_pos x h2
      rw [hi' x]
      omega
  · -- blocked
    intro x hxV hxd hxq
    rw [hi' x]
    intro heq
    by_cases hc : (outList E cur).count x = 0
    · rw [hc] at heq
      have hix : i x = 0 := by omega
      have hxd0 : x ∉ done := fun h => hxd (List.mem_append.mpr (Or.inl h))
      have hxq0 : x ∉ cur :: rest := by
        intro h
        rcases List.mem_cons.mp h with h1 | h2
        · exact hxd (List.mem_append.mpr (Or.inr (by rw [h1]; exact List.mem_singleton.mpr rfl)))
        · exact hxq (List.mem_append.mpr (Or.inl h2))
      exact inv.blocked x hxV hxd0 hxq0 hix
    · have hxn : x ∈ outList E cur :=
        List.count_pos_iff.mp (Nat.pos_of_ne_zero hc)
      have hix : i x = ((outList E cur).count x : Int) := by omega
      exact hxq (List.mem_append.mpr (Or.inr ((hmem x).mpr ⟨hxn, hix⟩)))
  · -- edge_before
    intro e he hdm
    rcases List.mem_append.mp hdm with hdd | hdc
    · have h := inv.edge_before e he hdd
      refine ⟨List.mem_append.mpr (Or.inl h.1), ?_⟩
      rw [List.indexOf_append_of_mem h.1, List.indexOf_append_of_mem hdd]
      exact h.2
    · rw [List.mem_singleton] at hdc
      have hEF : edgesToFrom E cur done ≤ edgesTo E cur := by
        refine filter_length_mono E _ _ ?_
        intro a _ hp
        simp only [Bool.and_eq_true] at hp
        exact hp.1
      have h0 := inv.ind_eq cur
      have hEq : edgesToFrom E cur done = edgesTo E cur := by omega
      have hall := filter_length_eq_all E
        (fun e => e.dst = cur && decide (e.src ∈ done))
        (fun e => decide (e.dst = cur))
        (by intro a _ hp; simp only [Bool.and_eq_true] at hp; exact hp.1)
        (by exact hEq)
      have hsd : e.src ∈ done := by
        have hq := hall e he (by simp [hdc])
        simp only [Bool.and_eq_true, decide_eq_true_eq] at hq
        exact hq.2
      refine ⟨List.mem_append.mpr (Or.inl hsd), ?_⟩
      rw [hdc, List.indexOf_append_of_mem hsd,
        indexOf_append_cons_self cur done [] hcurd]
      exact List.indexOf_lt_length.mpr hsd

/-! ## Kahn invariant: initialization and the master lemma -/

theorem kahnInv_init (V : List String) (E : List Edge) (hV : V.Nodup) :
    KahnInv V E [] (V.filter (fun v => edgesTo E v = 0))
      (fun x => (edgesTo E x : Int)) := by
  refine ⟨List.nodup_nil, hV.filter _, ?_, ?_, ?_, ?_, ?_, ?_, ?_⟩
  · intro x hx
    cases hx
  · intro x hx
    cases hx
  · intro x hx
    exact List.mem_of_mem_filter hx
  · intro x
    rw [edgesToFrom_nil]
    omega
  · intro x hx
    have h := List.of_mem_filter hx
    simp only [decide_eq_true_eq] at h
    rw [h]
    rfl
  · intro x hxV hxd hxq heq
    refine hxq (List.mem_filter.mpr ⟨hxV, ?_⟩)
    simp only [decide_eq_true_eq]
    exact_mod_cast heq
  · intro e he hd
    cases hd

theorem kahnLoopF_master (V : List String) (E : List Edge)
    (hdst : ∀ e ∈ E, e.dst ∈ V) :
    ∀ (fuel : Nat) (done queue : List String) (i : String → Int),
      KahnInv V E done queue i → V.length - done.length < fuel →
      (kahnLoopF fuel i (outList E) queue).2.1 = [] ∧
        KahnInv V E (done ++ (kahnLoopF fuel i (outList E) queue).2.2) []
          (kahnLoopF fuel i (outList E) queue).1 := by
  intro fuel
  induction fuel with
  | zero =>
    intro done queue i _ hf
    exact absurd hf (Nat.not_lt_zero _)
  | succ f ih =>
    intro done queue i inv hf
    match queue with
    | [] =>
      refine ⟨rfl, ?_⟩
      show KahnInv V E (done ++ []) [] i
      rw [List.append_nil]
      exact inv
    | cur :: rest =>
      have hstep := kahnInv_step V E hdst done cur rest i inv
      have hlen : done.length + 1 ≤ V.length := by
        have hnd : (done ++ [cur]).Nodup := hstep.done_nodup
        have hsub : (done ++ [cur]) ⊆ V := fun x hx => hstep.done_sub x hx
        have hl := (hnd.subperm hsub).length_le
        simpa using hl
      have hf' : V.length - (done ++ [cur]).length < f := by
        simp only [List.length_append, List.length_singleton]
        omega
      have hrec := ih (done ++ [cur])
        (rest ++ (processNeighborsF i (outList E cur)).2)
        (processNeighborsF i (outList E cur)).1 hstep hf'
      refine ⟨?_, ?_⟩
      · show (kahnLoopF f (processNeighborsF i (outList E cur)).1 (outList E)
            (rest ++ (processNeighborsF i (outList E cur)).2)).2.1 = []
        exact hrec.1
      · show KahnInv V E
            (done ++ cur :: (kahnLoopF f (processNeighborsF i (outList E cur)).1
              (outList E) (rest ++ (processNeighborsF i (outList E cur)).2)).2.2) []
            (kahnLoopF f (processNeighborsF i (outList E cur)).1 (outList E)
              (rest ++ (processNeighborsF i (outList E cur)).2)).1
        have h2 := hrec.2
        rw [List.append_assoc] at h2
        exact h2

/-! ## `buildIndegOut` characterization and `topologicalSort` bridge -/

theorem buildIndegOut_eq (nodes : List String) (edges : List Edge) :
    buildIndegOut nodes edges
      = (edges.foldl indegStep
          (nodes.foldl (fun (m : JsMap Int) id => m.set id 0) JsMap.empty),
         edges.foldl outStep
          (nodes.foldl (fun (m : JsMap (List String)) id => m.set id []) JsMap.empty)) := by
  show edges.foldl
      (fun (m : JsMap Int × JsMap (List String)) e => (indegStep m.1 e, outStep m.2 e))
      (nodes.foldl
        (fun (m : JsMap Int × JsMap (List String)) id =>
          ((fun (n : JsMap Int) id => n.set id 0) m.1 id,
           (fun (n : JsMap (List String)) id => n.set id []) m.2 id))
        (JsMap.empty, JsMap.empty)) = _
  rw [foldl_pair _ indegStep outStep (fun m e => rfl) edges,
    foldl_pair _ (fun (n : JsMap Int) id => n.set id 0)
      (fun (n : JsMap (List String)) id => n.set id []) (fun m e => rfl) nodes]

theorem buildIndegOut_fst_entries (nodes : List String) (edges : List Edge)
    (hnd : nodes.Nodup) (hdst : ∀ e ∈ edges, e.dst ∈ nodes) :
    (buildIndegOut nodes edges).1.entries
      = nodes.map fun v => (v, (edgesTo edges v : Int)) := by
  rw [buildIndegOut_eq]
  show (edges.foldl indegStep
      (nodes.foldl (fun (m : JsMap Int) id => m.set id 0) JsMap.empty)).entries = _
  have hentries : (nodes.foldl (fun (m : JsMap Int) id => m.set id 0) JsMap.empty).entries
      = nodes.map fun v => (v, (0 : Int)) := by
    have h := foldl_set_entries (fun _ => (0 : Int)) nodes JsMap.empty
      (fun v _ => rfl) hnd
    simpa using h
  have hinit : nodes.foldl (fun (m : JsMap Int) id => m.set id 0) JsMap.empty
      = ⟨nodes.map fun v => (v, (0 : Int))⟩ :=
    congrArg JsMap.mk hentries
  rw [hinit, indeg_fold_entries nodes hnd edges (fun _ => (0 : Int)) hdst]
  refine List.map_congr_left ?_
  intro v _
  simp

theorem buildIndegOut_snd_entries (nodes : List String) (edges : List Edge)
    (hnd : nodes.Nodup) (hsrc : ∀ e ∈ edges, e.src ∈ nodes) :
    (buildIndegOut nodes edges).2.entries
      = nodes.map fun v => (v, outList edges v) := by
  rw [buildIndegOut_eq]
  show (edges.foldl outStep
      (nodes.foldl (fun (m : JsMap (List String)) id => m.set id []) JsMap.empty)).entries = _
  have hentries : (nodes.foldl (fun (m : JsMap (List String)) id => m.set id [])
        JsMap.empty).entries
      = nodes.map fun v => (v, ([] : List String)) := by
    have h := foldl_set_entries (fun _ => ([] : List String)) nodes JsMap.empty
      (fun v _ => rfl) hnd
    simpa using h
  have hinit : nodes.foldl (fun (m : JsMap (List String)) id => m.set id []) JsMap.empty
      = ⟨nodes.map fun v => (v, ([] : List String))⟩ :=
    congrArg JsMap.mk hentries
  rw [hinit, out_fold_entries nodes hnd edges (fun _ => ([] : List String)) hsrc]
  refine List.map_congr_left ?_
  intro v _
  simp

theorem buildIndegOut_fst_getD (nodes : List String) (edges : List Edge)
    (hnd : nodes.Nodup) (hdst : ∀ e ∈ edges, e.dst ∈ nodes) :
    ∀ x, (buildIndegOut nodes edges).1.getD x 0 = (edgesTo edges x : Int) := by
  intro x
  show (getEntries (buildIndegOut nodes edges).1.entries x).getD 0 = _
  rw [buildIndegOut_fst_entries nodes edges hnd hdst,
    getEntries_map_fun (fun v => (edgesTo edges v : Int)) x nodes]
  by_cases hx : x ∈ nodes
  · rw [if_pos hx]
    rfl
  · rw [if_neg hx, edgesTo_zero_of_not_mem edges nodes hdst x hx]
    rfl

theorem buildIndegOut_snd_getD (nodes : List String) (edges : List Edge)
    (hnd : nodes.Nodup) (hsrc : ∀ e ∈ edges, e.src ∈ nodes) :
    ∀ v, (buildIndegOut nodes edges).2.getD v [] = outList edges v := by
  intro v
  show (getEntries (buildIndegOut nodes edges).2.entries v).getD [] = _
  rw [buildIndegOut_snd_entries nodes edges hnd hsrc,
    getEntries_map_fun (fun v => outList edges v) v nodes]
  by_cases hv : v ∈ nodes
  · rw [if_pos hv]
    rfl
  · rw [if_neg hv, outList_nil_of_not_mem edges nodes hsrc v hv]
    rfl

theorem buildIndegOut_seeds (nodes : List String) (edges : List Edge)
    (hnd : nodes.Nodup) (hdst : ∀ e ∈ edges, e.dst ∈ nodes) :
    (((buildIndegOut nodes edges).1.entries.filter (fun p => p.2 = 0)).map (·.1))
      = nodes.filter (fun v => edgesTo edges v = 0) := by
  rw [buildIndegOut_fst_entries nodes edges hnd hdst,
    filter_zero_map_fst (fun v => (edgesTo edges v : Int)) nodes]
  refine filter_congr_mem _ _ _ ?_
  intro v _
  simp

theorem topologicalSort_eq_kahnF (nodes : List String) (edges : List Edge)
    (hnd : nodes.Nodup) (hsrc : ∀ e ∈ edges, e.src ∈ nodes)
    (hdst : ∀ e ∈ edges, e.dst ∈ nodes) (hne : ∀ v ∈ nodes, v ≠ "") :
    topologicalSort nodes edges =
      (if (kahnLoopF (kahnFuel nodes edges) (fun x => (edgesTo edges x : Int))
            (outList edges)
            (nodes.filter (fun v => edgesTo edges v = 0))).2.2.length ≠ nodes.length
       then .error "Graph contains a cycle; cannot execute event."
       else .ok (kahnLoopF (kahnFuel nodes edges) (fun x => (edgesTo edges x : Int))
            (outList edges) (nodes.filter (fun v => edgesTo edges v = 0))).2.2) := by
  have hseeds := buildIndegOut_seeds nodes edges hnd hdst
  have hind := buildIndegOut_fst_getD nodes edges hnd hdst
  have hout := buildIndegOut_snd_getD nodes edges hnd hsrc
  have houtne : ∀ v x, x ∈ outList edges v → x ≠ "" := by
    intro v x hx
    obtain ⟨e, he, _, hed⟩ := mem_outList edges v x hx
    rw [← hed]
    exact hne e.dst (hdst e he)
  have hqne : ∀ x ∈ nodes.filter (fun v => edgesTo edges v = 0), x ≠ "" :=
    fun x hx => hne x (List.mem_of_mem_filter hx)
  have hcorr := kahnLoopRT_corr (kahnFuel nodes edges) (buildIndegOut nodes edges).1
    (fun x => (edgesTo edges x : Int)) (buildIndegOut nodes edges).2 (outList edges)
    (nodes.filter (fun v => edgesTo edges v = 0)) [] hind hout houtne hqne
  show (if (kahnLoopRT (kahnFuel nodes edges) (buildIndegOut nodes edges).1
        (buildIndegOut nodes edges).2
        (((buildIndegOut nodes edges).1.entries.filter (fun p => p.2 = 0)).map (·.1))
        []).2.2.length ≠ nodes.length
      then Except.error "Graph contains a cycle; cannot execute event."
      else Except.ok (kahnLoopRT (kahnFuel nodes edges) (buildIndegOut nodes edges).1
        (buildIndegOut nodes edges).2
        (((buildIndegOut nodes edges).1.entries.filter (fun p => p.2 = 0)).map (·.1))
        []).2.2) = _
  rw [hseeds]
  have h2 : (kahnLoopRT (kahnFuel nodes edges) (buildIndegOut nodes edges).1
      (buildIndegOut nodes edges).2
      (nodes.filter (fun v => edgesTo edges v = 0)) []).2.2
      = (kahnLoopF (kahnFuel nodes edges) (fun x => (edgesTo edges x : Int))
        (outList edges) (nodes.filter (fun v => edgesTo edges v = 0))).2.2 := by
    rw [show (kahnLoopRT (kahnFuel nodes edges) (buildIndegOut nodes edges).1
        (buildIndegOut nodes edges).2
        (nodes.filter (fun v => edgesTo edges v = 0)) []).2.2
      = ((kahnLoopRT (kahnFuel nodes edges) (buildIndegOut nodes edges).1
        (buildIndegOut nodes edges).2
        (nodes.filter (fun v => edgesTo edges v = 0)) []).2).2 from rfl, hcorr]
    rfl
  rw [h2]

/-! ## Harvesting the invariant: soundness and completeness of Kahn's order -/

theorem acyclic_of_order (E : List Edge) (order : List String)
    (h : ∀ e ∈ E, order.indexOf e.src < order.indexOf e.dst) : Acyclic E := by
  intro x hx
  have hmono : ∀ a b, Relation.TransGen (edgeStep E) a b →
      order.indexOf a < order.indexOf b := by
    intro a b htg
    induction htg with
    | single hr => exact h _ hr
    | tail _ hr ih => exact lt_trans ih (h _ hr)
  exact lt_irrefl _ (hmono x x hx)

theorem acyclic_nil : Acyclic [] := by
  intro x hx
  cases hx with
  | single h => cases h
  | tail _ h => cases h

/-- a finite set in which every element has a predecessor contains a cycle. -/
theorem exists_cycle_of_pred {α : Type} (S : Finset α) (hS : S.Nonempty)
    (R : α → α → Prop) (h : ∀ x ∈ S, ∃ z ∈ S, R z x) :
    ∃ x, Relation.TransGen R x x := by
  have h' : ∀ x : {a // a ∈ S}, ∃ z : {a // a ∈ S}, R z.1 x.1 := by
    rintro ⟨x, hx⟩
    obtain ⟨z, hz, hr⟩ := h x hx
    exact ⟨⟨z, hz⟩, hr⟩
  choose g hg using h'
  obtain ⟨x0, hx0⟩ := hS
  have hstep : ∀ n : Nat, R (g^[n + 1] ⟨x0, hx0⟩).1 (g^[n] ⟨x0, hx0⟩).1 := by
    intro n
    rw [Function.iterate_succ_apply']
    exact hg _
  have hchain : ∀ n d : Nat,
      Relation.TransGen R (g^[n + d + 1] ⟨x0, hx0⟩).1 (g^[n] ⟨x0, hx0⟩).1 := by
    intro n d
    induction d with
    | zero => exact Relation.TransGen.single (hstep n)
    | succ d ih => exact Relation.TransGen.head (hstep (n + d + 1)) ih
  have hmaps : ∀ k ∈ (Finset.univ : Finset (Fin (S.card + 1))),
      (g^[k.1] ⟨x0, hx0⟩).1 ∈ S := fun k _ => (g^[k.1] ⟨x0, hx0⟩).2
  have hcard : S.card < (Finset.univ : Finset (Fin (S.card + 1))).card := by
    simp
  obtain ⟨a, _, b, _, hab, heq⟩ :=
    Finset.exists_ne_map_eq_of_card_lt_of_maps_to hcard hmaps
  have hvne : a.1 ≠ b.1 := fun hv => hab (Fin.ext hv)
  rcases Nat.lt_or_ge a.1 b.1 with hlt | hge
  · have hd : b.1 = a.1 + (b.1 - a.1 - 1) + 1 := by omega
    have hc := hchain a.1 (b.1 - a.1 - 1)
    rw [← hd, ← heq] at hc
    exact ⟨_, hc⟩
  · have hlt : b.1 < a.1 := by omega
    have hd : a.1 = b.1 + (a.1 - b.1 - 1) + 1 := by omega
    have hc := hchain b.1 (a.1 - b.1 - 1)
    rw [← hd, heq] at hc
    exact ⟨_, hc⟩

theorem kahn_final_inv (V : List String) (E : List Edge) (hnd : V.Nodup)
    (hdst : ∀ e ∈ E, e.dst ∈ V) (fuel : Nat) (hfuel : V.length < fuel) :
    (kahnLoopF fuel (fun x => (edgesTo E x : Int)) (outList E)
        (V.filter (fun v => edgesTo E v = 0))).2.1 = [] ∧
      KahnInv V E
        ((kahnLoopF fuel (fun x => (edgesTo E x : Int)) (outList E)
          (V.filter (fun v => edgesTo E v = 0))).2.2) []
        ((kahnLoopF fuel (fun x => (edgesTo E x : Int)) (outList E)
          (V.filter (fun v => edgesTo E v = 0))).1) := by
  have h := kahnLoopF_master V E hdst fuel []
    (V.filter (fun v => edgesTo E v = 0)) (fun x => (edgesTo E x : Int))
    (kahnInv_init V E hnd) (by omega)
  exact h

theorem kahn_edge_before (V : List String) (E : List Edge) (hnd : V.Nodup)
    (hdst : ∀ e ∈ E, e.dst ∈ V) (fuel : Nat) (hfuel : V.length < fuel)
    (hlen : (kahnLoopF fuel (fun x => (edgesTo E x : Int)) (outList E)
      (V.filter (fun v => edgesTo E v = 0))).2.2.length = V.length) :
    (kahnLoopF fuel (fun x => (edgesTo E x : Int)) (outList E)
        (V.filter (fun v => edgesTo E v = 0))).2.2.Perm V ∧
      ∀ e ∈ E,
        (kahnLoopF fuel (fun x => (edgesTo E x : Int)) (outList E)
          (V.filter (fun v => edgesTo E v = 0))).2.2.indexOf e.src
        < (kahnLoopF fuel (fun x => (edgesTo E x : Int)) (outList E)
          (V.filter (fun v => edgesTo E v = 0))).2.2.indexOf e.dst := by
  have finv := (kahn_final_inv V E hnd hdst fuel hfuel).2
  have hsub : (kahnLoopF fuel (fun x => (edgesTo E x : Int)) (outList E)
      (V.filter (fun v => edgesTo E v = 0))).2.2 ⊆ V :=
    fun x hx => finv.done_sub x hx
  have hperm : (kahnLoopF fuel (fun x => (edgesTo E x : Int)) (outList E)
      (V.filter (fun v => edgesTo E v = 0))).2.2.Perm V :=
    (finv.done_nodup.subperm hsub).perm_of_length_le (by omega)
  refine ⟨hperm, ?_⟩
  intro e he
  have hmem : e.dst ∈ (kahnLoopF fuel (fun x => (edgesTo E x : Int)) (outList E)
      (V.filter (fun v => edgesTo E v = 0))).2.2 :=
    hperm.mem_iff.mpr (hdst e he)
  exact (finv.edge_before e he hmem).2

theorem kahn_complete_iff (V : List String) (E : List Edge) (hnd : V.Nodup)
    (hsrc : ∀ e ∈ E, e.src ∈ V) (hdst : ∀ e ∈ E, e.dst ∈ V)
    (fuel : Nat) (hfuel : V.length < fuel) :
    (kahnLoopF fuel (fun x => (edgesTo E x : Int)) (outList E)
        (V.filter (fun v => edgesTo E v = 0))).2.2.length = V.length
      ↔ Acyclic E := by
  have finv := (kahn_final_inv V E hnd hdst fuel hfuel).2
  constructor
  · intro hlen
    exact acyclic_of_order E _ (kahn_edge_before V E hnd hdst fuel hfuel hlen).2
  · intro hacy
    by_contra hne'
    have hsub : (kahnLoopF fuel (fun x => (edgesTo E x : Int)) (outList E)
        (V.filter (fun v => edgesTo E v = 0))).2.2 ⊆ V :=
      fun x hx => finv.done_sub x hx
    have hle := (finv.done_nodup.subperm hsub).length_le
    have hex : ∃ x ∈ V, x ∉ (kahnLoopF fuel (fun x => (edgesTo E x : Int)) (outList E)
        (V.filter (fun v => edgesTo E v = 0))).2.2 := by
      by_contra hall
      push_neg at hall
      have := (hnd.subperm hall).length_le
      omega
    obtain ⟨x0, hx0V, hx0o⟩ := hex
    have hSne : (V.toFinset \ (kahnLoopF fuel (fun x => (edgesTo E x : Int)) (outList E)
        (V.filter (fun v => edgesTo E v = 0))).2.2.toFinset).Nonempty := by
      refine ⟨x0, ?_⟩
      rw [Finset.mem_sdiff, List.mem_toFinset, List.mem_toFinset]
      exact ⟨hx0V, hx0o⟩
    have hpred : ∀ y ∈ V.toFinset \ (kahnLoopF fuel (fun x => (edgesTo E x : Int))
        (outList E) (V.filter (fun v => edgesTo E v = 0))).2.2.toFinset,
        ∃ z ∈ V.toFinset \ (kahnLoopF fuel (fun x => (edgesTo E x : Int))
          (outList E) (V.filter (fun v => edgesTo E v = 0))).2.2.toFinset,
        edgeStep E z y := by
      intro y hy
      rw [Finset.mem_sdiff, List.mem_toFinset, List.mem_toFinset] at hy
      have hiy := finv.blocked y hy.1 hy.2 (List.not_mem_nil y)
      rw [finv.ind_eq y] at hiy
      have hEF : edgesToFrom E y ((kahnLoopF fuel (fun x => (edgesTo E x : Int))
          (outList E) (V.filter (fun v => edgesTo E v = 0))).2.2) ≤ edgesTo E y := by
        refine filter_length_mono E _ _ ?_
        intro a _ hp
        simp only [Bool.and_eq_true] at hp
        exact hp.1
      have hlt2 : edgesToFrom E y ((kahnLoopF fuel (fun x => (edgesTo E x : Int))
          (outList E) (V.filter (fun v => edgesTo E v = 0))).2.2) < edgesTo E y := by
        omega
      by_contra hno
      push_neg at hno
      have hall2 : ∀ e ∈ E, (decide (e.dst = y)) = true →
          (e.dst = y && decide (e.src ∈ (kahnLoopF fuel (fun x => (edgesTo E x : Int))
            (outList E) (V.filter (fun v => edgesTo E v = 0))).2.2)) = true := by
        intro e he hp
        have hdy : e.dst = y := by simpa using hp
        by_cases hso : e.src ∈ (kahnLoopF fuel (fun x => (edgesTo E x : Int))
            (outList E) (V.filter (fun v => edgesTo E v = 0))).2.2
        · simp [hdy, hso]
        · exfalso
          have hsS : e.src ∈ V.toFinset \ (kahnLoopF fuel (fun x => (edgesTo E x : Int))
              (outList E) (V.filter (fun v => edgesTo E v = 0))).2.2.toFinset := by
            rw [Finset.mem_sdiff, List.mem_toFinset, List.mem_toFinset]
            exact ⟨hsrc e he, hso⟩
          have hes : edgeStep E e.src y := by
            show Edge.mk e.src y ∈ E
            rw [← hdy]
            exact he
          exact hno e.src hsS hes
      have hmono2 := filter_length_mono E (fun e => decide (e.dst = y))
        (fun e => e.dst = y && decide (e.src ∈ (kahnLoopF fuel
          (fun x => (edgesTo E x : Int)) (outList E)
          (V.filter (fun v => edgesTo E v = 0))).2.2)) hall2
      have : edgesTo E y ≤ edgesToFrom E y ((kahnLoopF fuel
          (fun x => (edgesTo E x : Int)) (outList E)
          (V.filter (fun v => edgesTo E v = 0))).2.2) := hmono2
      omega
    obtain ⟨x, hx⟩ := exists_cycle_of_pred _ hSne (edgeStep E) hpred
    exact hacy x hx

/-- **C2** (amended: node ids duplicate-free and non-empty, edge endpoints
drawn from the node list): whenever `topologicalSort` returns an order, that
order is a permutation of the node list (each node id exactly once) and every
edge's source precedes its target in it; and an order is returned at all
exactly when the edge relation is acyclic — otherwise the orderer signals a
cycle. -/
theorem C2_graph_orderer_sound_complete (nodes : List String) (edges : List Edge)
    (hnd : nodes.Nodup) (hne : ∀ v ∈ nodes, v ≠ "")
    (hsrc : ∀ e ∈ edges, e.src ∈ nodes) (hdst : ∀ e ∈ edges, e.dst ∈ nodes) :
    (∀ order, topologicalSort nodes edges = .ok order →
      order.Perm nodes ∧ ∀ e ∈ edges, order.indexOf e.src < order.indexOf e.dst) ∧
    ((∃ order, topologicalSort nodes edges = .ok order) ↔ Acyclic edges) := by
  have heq := topologicalSort_eq_kahnF nodes edges hnd hsrc hdst hne
  have hfuel : nodes.length < kahnFuel nodes edges := by
    show nodes.length < 2 * (nodes.length + edges.length) + 1
    omega
  refine ⟨?_, ?_, ?_⟩
  · intro order hok
    rw [heq] at hok
    split at hok
    · cases hok
    · rename_i hc
      have hlen := not_ne_iff.mp hc
      obtain rfl := Except.ok.inj hok
      exact kahn_edge_before nodes edges hnd hdst _ hfuel hlen
  · rintro ⟨order, hok⟩
    rw [heq] at hok
    split at hok
    · cases hok
    · rename_i hc
      exact (kahn_complete_iff nodes edges hnd hsrc hdst _ hfuel).mp (not_ne_iff.mp hc)
  · intro hacy
    have hlen := (kahn_complete_iff nodes edges hnd hsrc hdst _ hfuel).mpr hacy
    refine ⟨(kahnLoopF (kahnFuel nodes edges) (fun x => (edgesTo edges x : Int))
      (outList edges) (nodes.filter (fun v => edgesTo edges v = 0))).2.2, ?_⟩
    rw [heq, if_neg (not_ne_iff.mpr hlen)]

/-- counterexample to C2 as stated for *every* node list: a single node with
the empty-string id (falsy in JS, so the loop's `continue` skips it) yields
the cycle error even though the empty graph is acyclic. -/
theorem C2_counterexample_falsy_node_id :
    topologicalSort [""] []
        = .error "Graph contains a cycle; cannot execute event."
      ∧ Acyclic [] :=
  ⟨rfl, acyclic_nil⟩

/-! ## Diagnostics Validator: cycle-check bridge -/

theorem buildIndegOutV_eq (nodeIds : List String) (edges : List Edge) :
    buildIndegOutV nodeIds edges
      = buildIndegOut nodeIds
          (edges.filter (fun e => decide (e.src ∈ nodeIds ∧ e.dst ∈ nodeIds))) :=
  foldl_guard (fun (e : Edge) => e.src ∈ nodeIds ∧ e.dst ∈ nodeIds)
    (fun (m : JsMap Int × JsMap (List String)) e => (indegStep m.1 e, outStep m.2 e))
    edges
    (nodeIds.foldl
      (fun (m : JsMap Int × JsMap (List String)) id => (m.1.set id 0, m.2.set id []))
      (JsMap.empty, JsMap.empty))

theorem insertUnique_nodup (l : List String) (x : String) (h : l.Nodup) :
    (insertUnique l x).Nodup := by
  unfold insertUnique
  split
  · exact h
  · rename_i hx
    refine List.Nodup.append h (List.nodup_singleton x) ?_
    intro a ha hb
    rw [List.mem_singleton] at hb
    subst hb
    exact hx ha

theorem graphNodeIds_nodup (nodes : List ActionNode) : (graphNodeIds nodes).Nodup := by
  have h : ∀ (ns : List ActionNode) (acc : List String), acc.Nodup →
      (ns.foldl (fun acc n => insertUnique acc n.id) acc).Nodup := by
    intro ns
    induction ns with
    | nil => intro acc h; exact h
    | cons n rest ih => intro acc h; exact ih _ (insertUnique_nodup acc n.id h)
  exact h nodes [] List.nodup_nil

theorem dupNodeDiags_code (event : EventDefinition) :
    ∀ d ∈ dupNodeDiags event, d.code = "GRAPH_DUPLICATE_NODE_ID" := by
  have h : ∀ (ns : List ActionNode) (st : List String × List Diagnostic),
      (∀ d ∈ st.2, d.code = "GRAPH_DUPLICATE_NODE_ID") →
      ∀ d ∈ (ns.foldl
        (fun (st : List String × List Diagnostic) n =>
          let ds := if n.id ∈ st.1 then
              st.2 ++ [⟨"GRAPH_DUPLICATE_NODE_ID", .error,
                "events." ++ event.id ++ ".actionGraph.nodes." ++ n.id,
                "Duplicate action node id '" ++ n.id ++ "' in event '" ++
                  event.id ++ "'."⟩]
            else st.2
          (insertUnique st.1 n.id, ds)) st).2,
        d.code = "GRAPH_DUPLICATE_NODE_ID" := by
    intro ns
    induction ns with
    | nil => intro st h; exact h
    | cons n rest ih =>
      intro st h
      refine ih _ ?_
      intro d hd
      have hd' : d ∈ (if n.id ∈ st.1 then
          st.2 ++ [(⟨"GRAPH_DUPLICATE_NODE_ID", .error,
            "events." ++ event.id ++ ".actionGraph.nodes." ++ n.id,
            "Duplicate action node id '" ++ n.id ++ "' in event '" ++
              event.id ++ "'."⟩ : Diagnostic)]
          else st.2) := hd
      split at hd'
      · rcases List.mem_append.mp hd' with h1 | h2
        · exact h d h1
        · rw [List.mem_singleton] at h2
          subst h2
          rfl
      · exact h d hd'
  intro d hd
  exact h event.actionGraph.nodes ([], []) (fun _ hx => absurd hx (List.not_mem_nil _)) d hd

theorem unknownEdgeDiags_code (event : EventDefinition) (nodeIds : List String) :
    ∀ d ∈ unknownEdgeDiags event nodeIds, d.code = "GRAPH_UNKNOWN_EDGE_NODE" := by
  intro d hd
  unfold unknownEdgeDiags at hd
  obtain ⟨e, _, hsome⟩ := List.mem_filterMap.mp hd
  split at hsome
  · cases hsome
  · obtain rfl := Option.some.inj hsome
    rfl

theorem unknownEdgeDiags_mem (event : EventDefinition) (nodeIds : List String)
    (e : Edge) (he : e ∈ event.actionGraph.edges)
    (hbad : ¬(e.src ∈ nodeIds ∧ e.dst ∈ nodeIds)) :
    (⟨"GRAPH_UNKNOWN_EDGE_NODE", .error,
      "events." ++ event.id ++ ".actionGraph.edges",
      "Edge references unknown node(s) '" ++ e.src ++ "' -> '" ++ e.dst ++
        "' in event '" ++ event.id ++ "'."⟩ : Diagnostic)
      ∈ unknownEdgeDiags event nodeIds := by
  unfold unknownEdgeDiags
  refine List.mem_filterMap.mpr ⟨e, he, ?_⟩
  rw [if_neg hbad]

theorem validateGraph_cycle_iff (event : EventDefinition)
    (hne : ∀ x ∈ graphNodeIds event.actionGraph.nodes, x ≠ "") :
    (∃ d ∈ validateGraph event, d.code = "GRAPH_CYCLE_DETECTED")
      ↔ ¬ Acyclic (event.actionGraph.edges.filter (fun e =>
          decide (e.src ∈ graphNodeIds event.actionGraph.nodes
            ∧ e.dst ∈ graphNodeIds event.actionGraph.nodes))) := by
  set ids := graphNodeIds event.actionGraph.nodes with hids
  set E := event.actionGraph.edges with hE
  set good := E.filter (fun e => decide (e.src ∈ ids ∧ e.dst ∈ ids)) with hgood
  have hnd : ids.Nodup := graphNodeIds_nodup event.actionGraph.nodes
  have hsrcg : ∀ e ∈ good, e.src ∈ ids := by
    intro e he
    have h := List.of_mem_filter he
    simp only [decide_eq_true_eq] at h
    exact h.1
  have hdstg : ∀ e ∈ good, e.dst ∈ ids := by
    intro e he
    have h := List.of_mem_filter he
    simp only [decide_eq_true_eq] at h
    exact h.2
  have hfuel : ids.length < kahnFuel ids E := by
    show ids.length < 2 * (ids.length + E.length) + 1
    omega
  have hvg : validateGraph event
      = dupNodeDiags event ++ unknownEdgeDiags event ids
        ++ (if (kahnLoopV (kahnFuel ids E) (buildIndegOutV ids E).1
              (buildIndegOutV ids E).2
              (((buildIndegOutV ids E).1.entries.filter (fun p => p.2 = 0)).map (·.1))
              0).2.2 ≠ ids.length
           then [⟨"GRAPH_CYCLE_DETECTED", .error,
             "events." ++ event.id ++ ".actionGraph",
             "Action graph for event '" ++ event.id ++ "' contains a cycle."⟩]
           else []) := rfl
  have hb := buildIndegOutV_eq ids E
  have hind : ∀ x, (buildIndegOutV ids E).1.getD x 0 = (edgesTo good x : Int) := by
    intro x
    rw [hb]
    exact buildIndegOut_fst_getD ids good hnd hdstg x
  have hout : ∀ v, (buildIndegOutV ids E).2.getD v [] = outList good v := by
    intro v
    rw [hb]
    exact buildIndegOut_snd_getD ids good hnd hsrcg v
  have hseeds : (((buildIndegOutV ids E).1.entries.filter (fun p => p.2 = 0)).map (·.1))
      = ids.filter (fun v => edgesTo good v = 0) := by
    rw [hb]
    exact buildIndegOut_seeds ids good hnd hdstg
  have houtne : ∀ v x, x ∈ outList good v → x ≠ "" := by
    intro v x hx
    obtain ⟨e, he, _, hed⟩ := mem_outList good v x hx
    rw [← hed]
    exact hne e.dst (hdstg e he)
  have hqne : ∀ x ∈ ids.filter (fun v => edgesTo good v = 0), x ≠ "" :=
    fun x hx => hne x (List.mem_of_mem_filter hx)
  have hvis : (kahnLoopV (kahnFuel ids E) (buildIndegOutV ids E).1
      (buildIndegOutV ids E).2
      (((buildIndegOutV ids E).1.entries.filter (fun p => p.2 = 0)).map (·.1))
      0).2.2
      = (kahnLoopF (kahnFuel ids E) (fun x => (edgesTo good x : Int)) (outList good)
        (ids.filter (fun v => edgesTo good v = 0))).2.2.length := by
    rw [hseeds]
    rw [kahnLoopV_corr (kahnFuel ids E) (buildIndegOutV ids E).1
      (fun x => (edgesTo good x : Int)) (buildIndegOutV ids E).2 (outList good)
      (ids.filter (fun v => edgesTo good v = 0)) 0 hind hout houtne hqne]
    exact Nat.zero_add _
  have hiff := kahn_complete_iff ids good hnd hsrcg hdstg (kahnFuel ids E) hfuel
  constructor
  · rintro ⟨d, hd, hcode⟩
    rw [hvg] at hd
    rcases List.mem_append.mp hd with h12 | h3
    · rcases List.mem_append.mp h12 with h1 | h2
      · have hc := dupNodeDiags_code event d h1
        rw [hc] at hcode
        exact absurd hcode (by decide)
      · have hc := unknownEdgeDiags_code event ids d h2
        rw [hc] at hcode
        exact absurd hcode (by decide)
    split at h3
    · rename_i hvisne
      intro hacy
      rw [hvis] at hvisne
      exact hvisne (hiff.mpr hacy)
    · exact absurd h3 (List.not_mem_nil d)
  · intro hnacy
    have hlenne : (kahnLoopF (kahnFuel ids E) (fun x => (edgesTo good x : Int))
        (outList good) (ids.filter (fun v => edgesTo good v = 0))).2.2.length
        ≠ ids.length := fun h => hnacy (hiff.mp h)
    refine ⟨⟨"GRAPH_CYCLE_DETECTED", .error,
      "events." ++ event.id ++ ".actionGraph",
      "Action graph for event '" ++ event.id ++ "' contains a cycle."⟩, ?_, rfl⟩
    rw [hvg]
    refine List.mem_append.mpr (Or.inr ?_)
    rw [if_pos (by rw [hvis]; exact hlenne)]
    exact List.mem_singleton.mpr rfl

/-- **C3** (amended: the exclusion of unknown-endpoint edges holds for the
*validator's* cycle check, not for the runtime Graph Orderer): over non-empty
node ids, every edge with an endpoint outside the node-id set yields a
`GRAPH_UNKNOWN_EDGE_NODE` diagnostic, and a cycle is diagnosed exactly when
the edge list restricted to known endpoints is cyclic — so one bad edge
cannot make the validator report a cycle in an otherwise acyclic graph. -/
theorem C3_unknown_edges_reported_and_excluded (event : EventDefinition)
    (hne : ∀ x ∈ graphNodeIds event.actionGraph.nodes, x ≠ "") :
    (∀ e ∈ event.actionGraph.edges,
      ¬(e.src ∈ graphNodeIds event.actionGraph.nodes
          ∧ e.dst ∈ graphNodeIds event.actionGraph.nodes) →
      (⟨"GRAPH_UNKNOWN_EDGE_NODE", .error,
        "events." ++ event.id ++ ".actionGraph.edges",
        "Edge references unknown node(s) '" ++ e.src ++ "' -> '" ++ e.dst ++
          "' in event '" ++ event.id ++ "'."⟩ : Diagnostic) ∈ validateGraph event) ∧
    ((∃ d ∈ validateGraph event, d.code = "GRAPH_CYCLE_DETECTED")
      ↔ ¬ Acyclic (event.actionGraph.edges.filter (fun e =>
          decide (e.src ∈ graphNodeIds event.actionGraph.nodes
            ∧ e.dst ∈ graphNodeIds event.actionGraph.nodes)))) := by
  refine ⟨?_, validateGraph_cycle_iff event hne⟩
  intro e he hbad
  have hmem := unknownEdgeDiags_mem event (graphNodeIds event.actionGraph.nodes) e he hbad
  show _ ∈ dupNodeDiags event
    ++ unknownEdgeDiags event (graphNodeIds event.actionGraph.nodes) ++ _
  exact List.mem_append.mpr (Or.inl (List.mem_append.mpr (Or.inr hmem)))

/-- counterexample to C3's claim that the runtime Graph Orderer *also*
excludes unknown-endpoint edges: on one real node `a` and the single bad edge
`a → b`, the validator reports exactly the unknown-edge diagnostic (no cycle),
while `topologicalSort` — which filters nothing — signals a cycle even though
the edge list restricted to known nodes is empty, hence acyclic. -/
theorem C3_counterexample_orderer_keeps_bad_edges :
    validateGraph c3Event
        = [⟨"GRAPH_UNKNOWN_EDGE_NODE", .error, "events.e3.actionGraph.edges",
            "Edge references unknown node(s) 'a' -> 'b' in event 'e3'."⟩]
      ∧ topologicalSort ["a"] [Edge.mk "a" "b"]
          = .error "Graph contains a cycle; cannot execute event."
      ∧ Acyclic ([Edge.mk "a" "b"].filter (fun e =>
          decide (e.src ∈ ["a"] ∧ e.dst ∈ ["a"]))) := by
  refine ⟨rfl, rfl, ?_⟩
  have h : ([Edge.mk "a" "b"].filter (fun e =>
      decide (e.src ∈ ["a"] ∧ e.dst ∈ ["a"]))) = [] := rfl
  rw [h]
  exact acyclic_nil

/-- witness for C3 at the one-node event with a dangling edge. -/
theorem C3_unknown_edges_reported_and_excluded_witness :
    (∀ x ∈ graphNodeIds c3Event.actionGraph.nodes, x ≠ "") ∧
    ((∀ e ∈ c3Event.actionGraph.edges,
      ¬(e.src ∈ graphNodeIds c3Event.actionGraph.nodes
          ∧ e.dst ∈ graphNodeIds c3Event.actionGraph.nodes) →
      (⟨"GRAPH_UNKNOWN_EDGE_NODE", .error,
        "events." ++ c3Event.id ++ ".actionGraph.edges",
        "Edge references unknown node(s) '" ++ e.src ++ "' -> '" ++ e.dst ++
          "' in event '" ++ c3Event.id ++ "'."⟩ : Diagnostic) ∈ validateGraph c3Event) ∧
    ((∃ d ∈ validateGraph c3Event, d.code = "GRAPH_CYCLE_DETECTED")
      ↔ ¬ Acyclic (c3Event.actionGraph.edges.filter (fun e =>
          decide (e.src ∈ graphNodeIds c3Event.actionGraph.nodes
            ∧ e.dst ∈ graphNodeIds c3Event.actionGraph.nodes))))) :=
  ⟨by decide, C3_unknown_edges_reported_and_excluded c3Event (by decide)⟩

/-! ## Trim and takeWhile structure lemmas (for the normalizer's idempotence) -/

theorem takeWhile_append_of_all {p : Char → Bool} :
    ∀ (A B : List Char), A.all p = true →
      (A ++ B).takeWhile p = A ++ B.takeWhile p := by
  intro A
  induction A with
  | nil => intro B _; rfl
  | cons a A' ih =>
    intro B hall
    simp only [List.all_cons, Bool.and_eq_true] at hall
    simp only [List.cons_append, List.takeWhile_cons, hall.1, ih B hall.2]
    rw [if_pos trivial]

theorem takeWhile_all {p : Char → Bool} :
    ∀ (l : List Char), (l.takeWhile p).all p = true := by
  intro l
  induction l with
  | nil => rfl
  | cons a l' ih =>
    rw [List.takeWhile_cons]
    cases hp : p a
    · rfl
    · simp [hp, ih]

theorem dropWhile_head_false {p : Char → Bool} :
    ∀ (l : List Char) (x : Char) (xs : List Char),
      l.dropWhile p = x :: xs → p x = false := by
  intro l
  induction l with
  | nil => intro x xs h; cases h
  | cons a l' ih =>
    intro x xs h
    rw [List.dropWhile_cons] at h
    split at h
    · exact ih x xs h
    · rename_i hp
      injection h with h1 _
      subst h1
      cases hpa : p a
      · rfl
      · exact absurd hpa hp

theorem dropWhile_eq_self_of_head {p : Char → Bool} (l : List Char)
    (h : ∀ x xs, l = x :: xs → p x = false) : l.dropWhile p = l := by
  cases l with
  | nil => rfl
  | cons a l' =>
    rw [List.dropWhile_cons, if_neg (by rw [h a l' rfl]; exact fun hc => nomatch hc)]

theorem drop_length_takeWhile {p : Char → Bool} :
    ∀ (l : List Char), l.drop (l.takeWhile p).length = l.dropWhile p := by
  intro l
  induction l with
  | nil => rfl
  | cons a l' ih =>
    rw [List.takeWhile_cons, List.dropWhile_cons]
    cases hp : p a
    · simp
    · simpa using ih

theorem dropWhile_idem {p : Char → Bool} (l : List Char) :
    (l.dropWhile p).dropWhile p = l.dropWhile p := by
  refine dropWhile_eq_self_of_head _ ?_
  intro x xs h
  exact dropWhile_head_false l x xs h

theorem trimChars_le_dropWhile (l : List Char) :
    trimChars l <+: l.dropWhile isJsWs := by
  unfold trimChars
  have h1 : (l.dropWhile isJsWs).reverse.dropWhile isJsWs <:+ (l.dropWhile isJsWs).reverse :=
    List.dropWhile_suffix isJsWs
  have h2 := List.reverse_prefix.mpr h1
  rwa [List.reverse_reverse] at h2

theorem trimChars_idem (l : List Char) : trimChars (trimChars l) = trimChars l := by
  have hdrop : (trimChars l).dropWhile isJsWs = trimChars l := by
    refine dropWhile_eq_self_of_head _ ?_
    intro x xs h
    obtain ⟨t, ht⟩ := trimChars_le_dropWhile l
    rw [h] at ht
    exact dropWhile_head_false l x (xs ++ t) (by rw [← ht]; rfl)
  show ((((trimChars l).dropWhile isJsWs).reverse.dropWhile isJsWs)).reverse = trimChars l
  rw [hdrop]
  show ((trimChars l).reverse.dropWhile isJsWs).reverse = trimChars l
  unfold trimChars
  rw [List.reverse_reverse, dropWhile_idem]

theorem trimChars_subset (l : List Char) : ∀ c ∈ trimChars l, c ∈ l := by
  intro c hc
  unfold trimChars at hc
  rw [List.mem_reverse] at hc
  have h1 := (List.dropWhile_suffix isJsWs).subset hc
  rw [List.mem_reverse] at h1
  exact (List.dropWhile_suffix isJsWs).subset h1

theorem trimChars_all {p : Char → Bool} (l : List Char) (h : l.all p = true) :
    (trimChars l).all p = true := by
  rw [List.all_eq_true] at h ⊢
  exact fun c hc => h c (trimChars_subset l c hc)

theorem string_eq_empty_of_data (s : String) (h : s.data = []) : s = "" := by
  cases s
  simp_all

/-! ## `tryToken` analysis -/

theorem tryToken_some_shape (l : List Char) (t : String) (rem : List Char)
    (h : tryToken l = some (t, rem)) :
    ∃ body, l = '{' :: '{' :: (body ++ '}' :: '}' :: rem)
      ∧ body ≠ [] ∧ body.all (fun c => c ≠ '}') = true
      ∧ t = String.mk (trimChars body) := by
  unfold tryToken at h
  split at h
  · rename_i rest
    by_cases hb : rest.takeWhile (fun c => c ≠ '}') = []
    · rw [if_pos hb] at h
      cases h
    · rw [if_neg hb] at h
      split at h
      · rename_i rem' hdrop
        obtain ⟨ht, hrem⟩ := Prod.mk.inj (Option.some.inj h)
        subst ht
        refine ⟨rest.takeWhile (fun c => c ≠ '}'), ?_, hb, takeWhile_all rest, rfl⟩
        have hdw : rest.dropWhile (fun c => c ≠ '}') = '}' :: '}' :: rem := by
          rw [← drop_length_takeWhile rest, hdrop, hrem]
        rw [← hdw, List.takeWhile_append_dropWhile]
      · cases h
  · cases h

theorem tryToken_compute (B R : List Char) (hne : B ≠ [])
    (hfree : B.all (fun c => c ≠ '}') = true) :
    tryToken ('{' :: '{' :: (B ++ '}' :: '}' :: R))
      = some (String.mk (trimChars B), R) := by
  have hbody : (B ++ '}' :: '}' :: R).takeWhile (fun c => c ≠ '}') = B := by
    rw [takeWhile_append_of_all B ('}' :: '}' :: R) hfree]
    simp
  show (if (B ++ '}' :: '}' :: R).takeWhile (fun c => c ≠ '}') = [] then none
    else
      match (B ++ '}' :: '}' :: R).drop
          ((B ++ '}' :: '}' :: R).takeWhile (fun c => c ≠ '}')).length with
      | '}' :: '}' :: rem =>
        some (String.mk (trimChars
          ((B ++ '}' :: '}' :: R).takeWhile (fun c => c ≠ '}'))), rem)
      | _ => none) = some (String.mk (trimChars B), R)
  rw [hbody, if_neg hne, List.drop_left]
  rfl

theorem tryToken_render_some (s : String) (R : List Char) (hne : s.data ≠ [])
    (hfree : s.data.all (fun c => c ≠ '}') = true)
    (htrim : trimChars s.data = s.data) :
    tryToken ('{' :: '{' :: (s.data ++ '}' :: '}' :: R)) = some (s, R) := by
  rw [tryToken_compute s.data R hne hfree, htrim]

theorem tryToken_ne_brace (c : Char) (l : List Char) (h : c ≠ '{') :
    tryToken (c :: l) = none := by
  unfold tryToken
  split
  · rename_i rest heq
    injection heq with h1 _
    exact absurd h1 h
  · rfl

theorem tryToken_snd_ne (c : Char) (l : List Char) (h : c ≠ '{') :
    tryToken ('{' :: c :: l) = none := by
  unfold tryToken
  split
  · rename_i rest heq
    injection heq with _ h2
    injection h2 with h3 _
    exact absurd h3 h
  · rfl

theorem tryToken_body_none (B tail : List Char)
    (hB : B.all (fun c => c ≠ '}') = true)
    (htail : tail = [] ∨ tail = ['}'] ∨ ∃ d tl, tail = '}' :: d :: tl ∧ d ≠ '}') :
    tryToken ('{' :: '{' :: (B ++ tail)) = none := by
  have hbody : (B ++ tail).takeWhile (fun c => c ≠ '}') = B := by
    rw [takeWhile_append_of_all B tail hB]
    rcases htail with h | h | ⟨d, tl, h, _⟩ <;> subst h <;> simp
  show (if (B ++ tail).takeWhile (fun c => c ≠ '}') = [] then none
    else
      match (B ++ tail).drop
          ((B ++ tail).takeWhile (fun c => c ≠ '}')).length with
      | '}' :: '}' :: rem =>
        some (String.mk (trimChars
          ((B ++ tail).takeWhile (fun c => c ≠ '}'))), rem)
      | _ => none) = none
  rw [hbody]
  by_cases hBe : B = []
  · rw [if_pos hBe]
  · rw [if_neg hBe, List.drop_left]
    rcases htail with h | h | ⟨d, tl, h, hd⟩
    · subst h
      rfl
    · subst h
      rfl
    · subst h
      split
      · rename_i rem heq
        injection heq with _ h2
        injection h2 with h3 _
        exact absurd h3 hd
      · rfl

theorem tryToken_shift (rest2 : List Char)
    (hnone : tryToken ('{' :: '{' :: rest2) = none) :
    tryToken ('{' :: rest2) = none := by
  cases hs : tryToken ('{' :: rest2) with
  | none => rfl
  | some p =>
    obtain ⟨t, rem⟩ := p
    obtain ⟨body, hshape, hne, hall, _⟩ := tryToken_some_shape _ _ _ hs
    injection hshape with _ h2
    exfalso
    rw [h2] at hnone
    have hcomp := tryToken_compute ('{' :: body) rem (by exact fun hc => nomatch hc)
      (by simpa using hall)
    rw [show ('{' :: body) ++ '}' :: '}' :: rem = '{' :: (body ++ '}' :: '}' :: rem)
      from rfl] at hcomp
    rw [hcomp] at hnone
    cases hnone

theorem tryToken_none_of_nobrace (A tail : List Char)
    (hall : A.all (fun c => c ≠ '}') = true)
    (htail : tail = [] ∨ tail = ['}'] ∨ ∃ d tl, tail = '}' :: d :: tl ∧ d ≠ '}') :
    tryToken (A ++ tail) = none := by
  match A with
  | [] =>
    rcases htail with h | h | ⟨d, tl, h, _⟩ <;> subst h
    · rfl
    · exact tryToken_ne_brace '}' [] (by decide)
    · exact tryToken_ne_brace '}' (d :: tl) (by decide)
  | [a] =>
    by_cases ha : a = '{'
    · subst ha
      rcases htail with h | h | ⟨d, tl, h, _⟩ <;> subst h
      · rfl
      · exact tryToken_snd_ne '}' [] (by decide)
      · exact tryToken_snd_ne '}' (d :: tl) (by decide)
    · exact tryToken_ne_brace a tail ha
  | a :: b :: A'' =>
    simp only [List.all_cons, Bool.and_eq_true, decide_eq_true_eq] at hall
    by_cases ha : a = '{'
    · by_cases hb : b = '{'
      · subst ha
        subst hb
        exact tryToken_body_none A'' tail hall.2.2 htail
      · subst ha
        exact tryToken_snd_ne b (A'' ++ tail) hb
    · exact tryToken_ne_brace a (b :: A'' ++ tail) ha

theorem scanTemplate_lit_run :
    ∀ (A tail : List Char), A.all (fun c => c ≠ '}') = true →
      (tail = [] ∨ tail = ['}'] ∨ ∃ d tl, tail = '}' :: d :: tl ∧ d ≠ '}') →
      scanTemplate (A ++ tail) = A.map Chunk.lit ++ scanTemplate tail := by
  intro A
  induction A with
  | nil => intro tail _ _; rfl
  | cons a A' ih =>
    intro tail hall htail
    have hall' : A'.all (fun c => c ≠ '}') = true := by
      simp only [List.all_cons, Bool.and_eq_true] at hall
      exact hall.2
    have hnone : tryToken (a :: (A' ++ tail)) = none :=
      tryToken_none_of_nobrace (a :: A') tail hall htail
    rw [List.cons_append, scanTemplate_cons_none a (A' ++ tail) hnone,
      ih tail hall' htail]
    rfl

theorem renderChunks_append (f : String → String) :
    ∀ (X Y : List Chunk),
      renderChunks f (X ++ Y) = renderChunks f X ++ renderChunks f Y := by
  intro X
  induction X with
  | nil => intro Y; rfl
  | cons ch rest ih =>
    intro Y
    cases ch with
    | lit c =>
      show c :: renderChunks f (rest ++ Y)
        = (c :: renderChunks f rest) ++ renderChunks f Y
      rw [ih]
      rfl
    | tok t =>
      show '{' :: '{' :: ((f t).data ++ '}' :: '}' :: renderChunks f (rest ++ Y))
        = ('{' :: '{' :: ((f t).data ++ '}' :: '}' :: renderChunks f rest))
          ++ renderChunks f Y
      rw [ih]
      simp [List.append_assoc]

theorem renderChunks_map_lit (f : String → String) :
    ∀ (A : List Char), renderChunks f (A.map Chunk.lit) = A := by
  intro A
  induction A with
  | nil => rfl
  | cons a A' ih => simp only [List.map_cons, renderChunks, ih]

theorem render_scan_head (f : String → String) (c : Char) (rest : List Char) :
    ∃ R', renderChunks f (scanTemplate (c :: rest)) = c :: R' := by
  cases htt : tryToken (c :: rest) with
  | some p =>
    obtain ⟨t, rem⟩ := p
    obtain ⟨body, hshape, _, _, _⟩ := tryToken_some_shape _ _ _ htt
    injection hshape with h1 _
    rw [scanTemplate_cons_some c rest t rem htt]
    subst h1
    exact ⟨_, rfl⟩
  | none =>
    rw [scanTemplate_cons_none c rest htt]
    exact ⟨_, rfl⟩

/-- where the original scan emits a literal, the re-scan of the rendered
template emits the same literal: a failed token match cannot become a match
after rewriting, because rewriting only changes text strictly inside matched
`{{…}}` regions. -/
theorem tryToken_none_render (f : String → String) (c : Char) (rest : List Char)
    (hnone : tryToken (c :: rest) = none) :
    tryToken (c :: renderChunks f (scanTemplate rest)) = none := by
  by_cases hc : c = '{'
  case neg => exact tryToken_ne_brace _ _ hc
  subst hc
  match rest with
  | [] => rfl
  | c2 :: rest2 =>
    by_cases hc2 : c2 = '{'
    case neg =>
      obtain ⟨R', hR⟩ := render_scan_head f c2 rest2
      rw [hR]
      exact tryToken_snd_ne _ _ hc2
    subst hc2
    have hinner : tryToken ('{' :: rest2) = none := tryToken_shift rest2 hnone
    rw [scanTemplate_cons_none _ _ hinner]
    show tryToken ('{' :: '{' :: renderChunks f (scanTemplate rest2)) = none
    have hallB : (rest2.takeWhile (fun ch => ch ≠ '}')).all (fun ch => ch ≠ '}') = true :=
      takeWhile_all rest2
    have hsplit : rest2
        = rest2.takeWhile (fun ch => ch ≠ '}') ++ rest2.dropWhile (fun ch => ch ≠ '}') :=
      (List.takeWhile_append_dropWhile _ _).symm
    cases hafter : rest2.dropWhile (fun ch => ch ≠ '}') with
    | nil =>
      have hr2 : scanTemplate rest2
          = (rest2.takeWhile (fun ch => ch ≠ '}')).map Chunk.lit := by
        conv_lhs => rw [hsplit, hafter]
        rw [scanTemplate_lit_run _ [] hallB (Or.inl rfl),
          show scanTemplate ([] : List Char) = [] from rfl, List.append_nil]
      rw [hr2, renderChunks_map_lit]
      have h := tryToken_body_none (rest2.takeWhile (fun ch => ch ≠ '}')) []
        hallB (Or.inl rfl)
      rwa [List.append_nil] at h
    | cons x after2 =>
      have hx : x = '}' := by
        have h := dropWhile_head_false rest2 x after2 hafter
        simpa using h
      subst hx
      cases after2 with
      | nil =>
        have hr2 : scanTemplate rest2
            = (rest2.takeWhile (fun ch => ch ≠ '}')).map Chunk.lit ++ [Chunk.lit '}'] := by
          conv_lhs => rw [hsplit, hafter]
          rw [scanTemplate_lit_run _ ['}'] hallB (Or.inr (Or.inl rfl)),
            scanTemplate_cons_none '}' [] (tryToken_ne_brace _ _ (by decide))]
          rfl
        rw [hr2, renderChunks_append, renderChunks_map_lit]
        exact tryToken_body_none _ ['}'] hallB (Or.inr (Or.inl rfl))
      | cons d after3 =>
        by_cases hd : d = '}'
        · subst hd
          by_cases hBe : rest2.takeWhile (fun ch => ch ≠ '}') = []
          · have hr2 : rest2 = '}' :: '}' :: after3 := by
              conv_lhs => rw [hsplit, hafter]
              rw [hBe]
              rfl
            rw [hr2, scanTemplate_cons_none '}' _ (tryToken_ne_brace _ _ (by decide))]
            rfl
          · exfalso
            have hr2 : rest2
                = rest2.takeWhile (fun ch => ch ≠ '}') ++ '}' :: '}' :: after3 := by
              conv_lhs => rw [hsplit, hafter]
            have hcomp := tryToken_compute (rest2.takeWhile (fun ch => ch ≠ '}'))
              after3 hBe hallB
            rw [← hr2] at hcomp
            rw [hcomp] at hnone
            cases hnone
        · have hr2 : scanTemplate rest2
              = (rest2.takeWhile (fun ch => ch ≠ '}')).map Chunk.lit
                ++ Chunk.lit '}' :: scanTemplate (d :: after3) := by
            conv_lhs => rw [hsplit, hafter]
            rw [scanTemplate_lit_run _ ('}' :: d :: after3) hallB
              (Or.inr (Or.inr ⟨d, after3, rfl, hd⟩)),
              scanTemplate_cons_none '}' _ (tryToken_ne_brace _ _ (by decide))]
          rw [hr2, renderChunks_append, renderChunks_map_lit]
          obtain ⟨R4, hR4⟩ := render_scan_head f d after3
          show tryToken ('{' :: '{' :: (rest2.takeWhile (fun ch => ch ≠ '}')
            ++ '}' :: renderChunks f (scanTemplate (d :: after3)))) = none
          rw [hR4]
          exact tryToken_body_none _ ('}' :: d :: R4) hallB
            (Or.inr (Or.inr ⟨d, R4, rfl, hd⟩))

/-- every token a scan produces is `}`-free and trim-stable (it is the trim
of a `}`-free capture body). -/
theorem scan_tok_safe :
    ∀ (n : Nat) (l : List Char), l.length ≤ n →
      ∀ t, Chunk.tok t ∈ scanTemplate l →
        t.data.all (fun c => c ≠ '}') = true ∧ trimChars t.data = t.data := by
  intro n
  induction n with
  | zero =>
    intro l hl t ht
    rw [List.length_eq_zero.mp (Nat.le_zero.mp hl)] at ht
    cases ht
  | succ n ih =>
    intro l hl t ht
    match l with
    | [] => cases ht
    | c :: rest =>
      cases htt : tryToken (c :: rest) with
      | some p =>
        obtain ⟨t', rem⟩ := p
        rw [scanTemplate_cons_some _ _ _ _ htt] at ht
        rcases List.mem_cons.mp ht with h1 | h2
        · injection h1 with h1'
          subst h1'
          obtain ⟨body, _, _, hallb, htEq⟩ := tryToken_some_shape _ _ _ htt
          subst htEq
          exact ⟨trimChars_all body hallb, trimChars_idem body⟩
        · have hlen := tryToken_length _ _ _ htt
          simp only [List.length_cons] at hl hlen
          exact ih rem (by omega) t h2
      | none =>
        rw [scanTemplate_cons_none _ _ htt] at ht
        rcases List.mem_cons.mp ht with h1 | h2
        · cases h1
        · simp only [List.length_cons] at hl
          exact ih rest (by omega) t h2

/-- the tokenizer round-trip: re-scanning a rendered template refines each
original chunk through `retok`, provided every rewritten token value is
empty or `}`-free and trim-stable. -/
theorem scan_render_scan (f : String → String) :
    ∀ (n : Nat) (l : List Char), l.length ≤ n →
      (∀ t, Chunk.tok t ∈ scanTemplate l →
        f t = "" ∨ ((f t).data.all (fun c => c ≠ '}') = true
          ∧ trimChars (f t).data = (f t).data)) →
      scanTemplate (renderChunks f (scanTemplate l))
        = (scanTemplate l).flatMap (retok f) := by
  intro n
  induction n with
  | zero =>
    intro l hl _
    rw [List.length_eq_zero.mp (Nat.le_zero.mp hl)]
    rfl
  | succ n ih =>
    intro l hl hf
    match l with
    | [] => rfl
    | c :: rest =>
      cases htt : tryToken (c :: rest) with
      | some p =>
        obtain ⟨t, rem⟩ := p
        have hlen := tryToken_length _ _ _ htt
        simp only [List.length_cons] at hl hlen
        rw [scanTemplate_cons_some _ _ _ _ htt]
        have hf' : ∀ t', Chunk.tok t' ∈ scanTemplate rem →
            f t' = "" ∨ ((f t').data.all (fun ch => ch ≠ '}') = true
              ∧ trimChars (f t').data = (f t').data) := by
          intro t' ht'
          refine hf t' ?_
          rw [scanTemplate_cons_some _ _ _ _ htt]
          exact List.mem_cons_of_mem _ ht'
        have hihrem := ih rem (by omega) hf'
        by_cases hft : f t = ""
        · -- empty replacement: the braces collapse to four inert literals
          show scanTemplate ('{' :: '{' :: ((f t).data
            ++ '}' :: '}' :: renderChunks f (scanTemplate rem))) = _
          rw [hft]
          show scanTemplate ('{' :: '{' :: '}' :: '}'
            :: renderChunks f (scanTemplate rem)) = _
          rw [scanTemplate_cons_none _ _
              (show tryToken ('{' :: '{' :: '}' :: '}'
                :: renderChunks f (scanTemplate rem)) = none from rfl),
            scanTemplate_cons_none _ _
              (tryToken_snd_ne '}' ('}' :: renderChunks f (scanTemplate rem)) (by decide)),
            scanTemplate_cons_none _ _ (tryToken_ne_brace '}' _ (by decide)),
            scanTemplate_cons_none _ _ (tryToken_ne_brace '}' _ (by decide)),
            hihrem]
          show Chunk.lit '{' :: Chunk.lit '{' :: Chunk.lit '}' :: Chunk.lit '}'
              :: (scanTemplate rem).flatMap (retok f)
            = retok f (Chunk.tok t) ++ (scanTemplate rem).flatMap (retok f)
          rw [show retok f (Chunk.tok t)
            = (if f t = "" then [Chunk.lit '{', Chunk.lit '{', Chunk.lit '}', Chunk.lit '}']
               else [Chunk.tok (f t)]) from rfl, if_pos hft]
          rfl
        · obtain ⟨hfree, htrim⟩ := (hf t (by
            rw [scanTemplate_cons_some _ _ _ _ htt]
            exact List.mem_cons_self _ _)).resolve_left hft
          have hdne : (f t).data ≠ [] :=
            fun hdata => hft (string_eq_empty_of_data _ hdata)
          show scanTemplate ('{' :: '{' :: ((f t).data
            ++ '}' :: '}' :: renderChunks f (scanTemplate rem))) = _
          rw [scanTemplate_cons_some _ _ _ _
            (tryToken_render_some (f t) _ hdne hfree htrim), hihrem]
          show Chunk.tok (f t) :: (scanTemplate rem).flatMap (retok f)
            = retok f (Chunk.tok t) ++ (scanTemplate rem).flatMap (retok f)
          rw [show retok f (Chunk.tok t)
            = (if f t = "" then [Chunk.lit '{', Chunk.lit '{', Chunk.lit '}', Chunk.lit '}']
               else [Chunk.tok (f t)]) from rfl, if_neg hft]
          rfl
      | none =>
        simp only [List.length_cons] at hl
        rw [scanTemplate_cons_none _ _ htt]
        have hf' : ∀ t', Chunk.tok t' ∈ scanTemplate rest →
            f t' = "" ∨ ((f t').data.all (fun ch => ch ≠ '}') = true
              ∧ trimChars (f t').data = (f t').data) := by
          intro t' ht'
          refine hf t' ?_
          rw [scanTemplate_cons_none _ _ htt]
          exact List.mem_cons_of_mem _ ht'
        show scanTemplate (c :: renderChunks f (scanTemplate rest)) = _
        rw [scanTemplate_cons_none _ _ (tryToken_none_render f c rest htt),
          ih rest (by omega) hf']
        rfl

/-! ## Alias-map values under collision-freedom, and `canonicalVar` idempotence -/

theorem buildAliasMapIR_get_some (comps : List UIComponent) (k s : String)
    (h : (buildAliasMapIR comps).get k = some s) :
    ∃ c ∈ comps, k ∈ aliasKeys c ∧ s = componentStateKey c := by
  rw [buildAliasMapIR, aliasFoldl_get aliasStepIR aliasStepIR_get] at h
  split at h
  · rename_i c hc
    obtain rfl := Option.some.inj h
    have hmem := List.mem_of_find?_eq_some hc
    have hk := List.find?_some hc
    exact ⟨c, List.mem_reverse.mp hmem, by simpa using hk, rfl⟩
  · cases h

theorem buildAliasMapIR_get_owner (comps : List UIComponent)
    (hfree : AliasCollisionFree comps) (c : UIComponent) (hc : c ∈ comps)
    (k : String) (hkc : k ∈ aliasKeys c) :
    (buildAliasMapIR comps).get k = some (componentStateKey c) := by
  rw [buildAliasMap_agree]
  exact buildAliasMapV_get_owner comps hfree c hc k hkc

theorem canonicalVar_value_fixed (comps : List UIComponent)
    (hfree : AliasCollisionFree comps) (k s : String)
    (h : (buildAliasMapIR comps).get k = some s) :
    (buildAliasMapIR comps).get s = some s := by
  obtain ⟨c, hc, hkc, rfl⟩ := buildAliasMapIR_get_some comps k s h
  have hcsk : componentStateKey c ∈ aliasKeys c := by
    cases c with
    | textArea id label sk => simp [aliasKeys, componentStateKey]
    | button id label events => cases hkc
    | dataTable id label dataKey => cases hkc
  exact buildAliasMapIR_get_owner comps hfree c hc _ hcsk

theorem canonicalVar_idem (comps : List UIComponent)
    (hfree : AliasCollisionFree comps) (t : String) :
    canonicalVar (canonicalVar t (buildAliasMapIR comps)) (buildAliasMapIR comps)
      = canonicalVar t (buildAliasMapIR comps) := by
  cases hget : (buildAliasMapIR comps).get t with
  | some s =>
    have hres : canonicalVar t (buildAliasMapIR comps) = s := by
      simp [canonicalVar, hget, Option.or]
    rw [hres]
    have hs := canonicalVar_value_fixed comps hfree t s hget
    simp [canonicalVar, hs, Option.or]
  | none =>
    cases hget2 : (buildAliasMapIR comps).get (normalizeKey t) with
    | some s =>
      have hres : canonicalVar t (buildAliasMapIR comps) = s := by
        simp [canonicalVar, hget, hget2, Option.or]
      rw [hres]
      have hs := canonicalVar_value_fixed comps hfree (normalizeKey t) s hget2
      simp [canonicalVar, hs, Option.or]
    | none =>
      have hres : canonicalVar t (buildAliasMapIR comps) = t := by
        simp [canonicalVar, hget, hget2, Option.or]
      rw [hres, hres]

/-- replacement values produced by `canonicalVar` over a collision-free,
token-safe alias map are empty or `}`-free and trim-stable whenever the input
token itself is. -/
theorem canonicalVar_tokenSafe (comps : List UIComponent)
    (hsafe : ∀ c ∈ comps, TokenSafe (componentStateKey c)) (t : String)
    (ht : t.data.all (fun c => c ≠ '}') = true ∧ trimChars t.data = t.data) :
    canonicalVar t (buildAliasMapIR comps) = ""
      ∨ ((canonicalVar t (buildAliasMapIR comps)).data.all (fun c => c ≠ '}') = true
        ∧ trimChars (canonicalVar t (buildAliasMapIR comps)).data
          = (canonicalVar t (buildAliasMapIR comps)).data) := by
  cases hget : (buildAliasMapIR comps).get t with
  | some s =>
    have hres : canonicalVar t (buildAliasMapIR comps) = s := by
      simp [canonicalVar, hget, Option.or]
    rw [hres]
    obtain ⟨c, hc, _, rfl⟩ := buildAliasMapIR_get_some comps t s hget
    exact hsafe c hc
  | none =>
    cases hget2 : (buildAliasMapIR comps).get (normalizeKey t) with
    | some s =>
      have hres : canonicalVar t (buildAliasMapIR comps) = s := by
        simp [canonicalVar, hget, hget2, Option.or]
      rw [hres]
      obtain ⟨c, hc, _, rfl⟩ := buildAliasMapIR_get_some comps _ s hget2
      exact hsafe c hc
    | none =>
      have hres : canonicalVar t (buildAliasMapIR comps) = t := by
        simp [canonicalVar, hget, hget2, Option.or]
      rw [hres]
      exact Or.inr ht

/-- rendering through `retok` reproduces the original rendering whenever the
token rewrite is idempotent on the stream's tokens. -/
theorem renderChunks_flatMap_retok (f : String → String) :
    ∀ (chunks : List Chunk),
      (∀ t, Chunk.tok t ∈ chunks → f (f t) = f t) →
      renderChunks f (chunks.flatMap (retok f)) = renderChunks f chunks := by
  intro chunks
  induction chunks with
  | nil => intro _; rfl
  | cons ch rest ih =>
    intro hidem
    have ih' := ih (fun t ht => hidem t (List.mem_cons_of_mem _ ht))
    cases ch with
    | lit c =>
      show c :: renderChunks f (rest.flatMap (retok f)) = c :: renderChunks f rest
      rw [ih']
    | tok t =>
      by_cases hft : f t = ""
      · show renderChunks f ((if f t = "" then
            [Chunk.lit '{', Chunk.lit '{', Chunk.lit '}', Chunk.lit '}']
          else [Chunk.tok (f t)]) ++ rest.flatMap (retok f)) = _
        rw [if_pos hft]
        show '{' :: '{' :: '}' :: '}' :: renderChunks f (rest.flatMap (retok f))
          = '{' :: '{' :: ((f t).data ++ '}' :: '}' :: renderChunks f rest)
        rw [ih', hft]
        rfl
      · show renderChunks f ((if f t = "" then
            [Chunk.lit '{', Chunk.lit '{', Chunk.lit '}', Chunk.lit '}']
          else [Chunk.tok (f t)]) ++ rest.flatMap (retok f)) = _
        rw [if_neg hft]
        show '{' :: '{' :: ((f (f t)).data ++ '}' :: '}'
            :: renderChunks f (rest.flatMap (retok f)))
          = '{' :: '{' :: ((f t).data ++ '}' :: '}' :: renderChunks f rest)
        rw [ih', hidem t (List.mem_cons_self _ _)]

/-- idempotence of `normalizeTemplate` over a collision-free alias map with
token-safe stateKeys. -/
theorem normalizeTemplate_idem (comps : List UIComponent)
    (hfree : AliasCollisionFree comps)
    (hsafe : ∀ c ∈ comps, TokenSafe (componentStateKey c)) (template : String) :
    normalizeTemplate (normalizeTemplate template (buildAliasMapIR comps))
        (buildAliasMapIR comps)
      = normalizeTemplate template (buildAliasMapIR comps) := by
  show String.mk (renderChunks (fun t => canonicalVar t (buildAliasMapIR comps))
      (scanTemplate (String.mk (renderChunks
        (fun t => canonicalVar t (buildAliasMapIR comps))
        (scanTemplate template.data))).data))
    = String.mk (renderChunks (fun t => canonicalVar t (buildAliasMapIR comps))
      (scanTemplate template.data))
  have hmk : (String.mk (renderChunks (fun t => canonicalVar t (buildAliasMapIR comps))
      (scanTemplate template.data))).data
      = renderChunks (fun t => canonicalVar t (buildAliasMapIR comps))
        (scanTemplate template.data) := rfl
  rw [hmk]
  congr 1
  rw [scan_render_scan (fun t => canonicalVar t (buildAliasMapIR comps))
    template.data.length template.data (le_refl _) ?hf]
  case hf =>
    intro t ht
    have hts := scan_tok_safe template.data.length template.data (le_refl _) t ht
    rcases canonicalVar_tokenSafe comps hsafe t hts with h | h
    · exact Or.inl h
    · exact Or.inr h
  exact renderChunks_flatMap_retok _ (scanTemplate template.data)
    (fun t _ => canonicalVar_idem comps hfree t)

theorem normalizeNode_idem (comps : List UIComponent)
    (hfree : AliasCollisionFree comps)
    (hsafe : ∀ c ∈ comps, TokenSafe (componentStateKey c)) (node : ActionNode) :
    normalizeNode (buildAliasMapIR comps) (normalizeNode (buildAliasMapIR comps) node)
      = normalizeNode (buildAliasMapIR comps) node := by
  cases node with
  | validate id keys => rfl
  | transform id m => rfl
  | promptTask id spec =>
    obtain ⟨tmpl, vars, mp, os⟩ := spec
    have hv : (vars.map (fun v => canonicalVar v (buildAliasMapIR comps))).map
          (fun v => canonicalVar v (buildAliasMapIR comps))
        = vars.map (fun v => canonicalVar v (buildAliasMapIR comps)) := by
      rw [List.map_map]
      refine List.map_congr_left ?_
      intro v _
      exact canonicalVar_idem comps hfree v
    show ActionNode.promptTask id
        ⟨normalizeTemplate (normalizeTemplate tmpl (buildAliasMapIR comps))
            (buildAliasMapIR comps),
          (vars.map (fun v => canonicalVar v (buildAliasMapIR comps))).map
            (fun v => canonicalVar v (buildAliasMapIR comps)), mp, os⟩
      = ActionNode.promptTask id
        ⟨normalizeTemplate tmpl (buildAliasMapIR comps),
          vars.map (fun v => canonicalVar v (buildAliasMapIR comps)), mp, os⟩
    rw [normalizeTemplate_idem comps hfree hsafe tmpl, hv]

/-- **C5** (amended: no alias key claimed by two distinct components, and
every TextArea stateKey empty or `}`-free and trim-stable): the IR Normalizer
is idempotent, `normalizeToIR (normalizeToIR x) = normalizeToIR x`.  Without
the collision-freedom condition a later component's alias entries overwrite
an earlier one's, and a token can resolve differently on the second pass. -/
theorem C5_normalizer_idempotent (app : AppDefinition)
    (hfree : AliasCollisionFree app.components)
    (hsafe : ∀ c ∈ app.components, TokenSafe (componentStateKey c)) :
    normalizeToIR (normalizeToIR app) = normalizeToIR app := by
  obtain ⟨aid, ver, comps, sm, events⟩ := app
  simp only [normalizeToIR]
  congr 1
  rw [List.map_map]
  refine List.map_congr_left ?_
  intro ev _
  obtain ⟨eid, trig, ⟨ns, es⟩⟩ := ev
  simp only [Function.comp]
  congr 1
  congr 1
  rw [List.map_map]
  refine List.map_congr_left ?_
  intro nd _
  exact normalizeNode_idem comps hfree hsafe nd

/-- counterexample to C5 as stated for *every* AppDefinition: in `c5App` the
second TextArea's alias entries overwrite the first one's shared key `k`, so
the PromptTask template `{{x}}` normalizes to `{{k}}` on the first pass and
to `{{b}}` on the second — the normalizer is not idempotent. -/
theorem C5_counterexample_alias_chain :
    ¬ AliasCollisionFree c5App.components
      ∧ normalizeToIR (normalizeToIR c5App) ≠ normalizeToIR c5App :=
  ⟨by decide, by decide⟩

/-- witness for C5 at the spec's scenario app. -/
theorem C5_normalizer_idempotent_witness :
    (AliasCollisionFree scenarioApp.components
      ∧ ∀ c ∈ scenarioApp.components, TokenSafe (componentStateKey c)) ∧
    normalizeToIR (normalizeToIR scenarioApp) = normalizeToIR scenarioApp :=
  ⟨⟨by decide, by decide⟩,
    C5_normalizer_idempotent scenarioApp (by decide) (by decide)⟩

/-- witness for C2 at nodes `["a","b"]`, edges `[a→b]`. -/
theorem C2_graph_orderer_sound_complete_witness :
    ((["a", "b"] : List String).Nodup ∧ (∀ v ∈ (["a", "b"] : List String), v ≠ "")
      ∧ (∀ e ∈ [Edge.mk "a" "b"], e.src ∈ (["a", "b"] : List String))
      ∧ (∀ e ∈ [Edge.mk "a" "b"], e.dst ∈ (["a", "b"] : List String))) ∧
    ((∀ order, topologicalSort ["a", "b"] [Edge.mk "a" "b"] = .ok order →
      order.Perm ["a", "b"] ∧ ∀ e ∈ [Edge.mk "a" "b"],
        order.indexOf e.src < order.indexOf e.dst) ∧
    ((∃ order, topologicalSort ["a", "b"] [Edge.mk "a" "b"] = .ok order)
      ↔ Acyclic [Edge.mk "a" "b"])) :=
  ⟨⟨by decide, by decide, by decide, by decide⟩,
    C2_graph_orderer_sound_complete ["a", "b"] [Edge.mk "a" "b"]
      (by decide) (by decide) (by decide) (by decide)⟩

end FB
